import Mathlib

set_option autoImplicit false
set_option linter.dupNamespace false
set_option linter.unusedVariables false

/-!
# libargo: runtime dispatcher, registry and generated record functions

A shallow embedding of `src/src/marshaller.c` (registry, primitive codecs, dispatcher) and of
the functions that `src/marshaller/codegen.c` emits for a record schema.

Modelling conventions.

* C memory is an ownership tree: a non-null pointer carries the object it points to.  A pointer
  that is the start of a heap allocation also carries the identifier of that allocation, and
  the allocator state (`World`) records which allocations are live.
* `malloc` and `strdup` always succeed, `realloc` succeeds for every request of at least one
  byte, and the constructors of the JSON library never fail.
* `_marshallPanic` ends the process; it is the fault `Fault.panic name reason`.
* Behaviour that C leaves undefined (reading an object through a pointer of another type,
  scanning past a pointer block that has no null sentinel, releasing storage that is not a live
  allocation) is the fault `Fault.undefined`.
* The registry holds function pointers to functions that call back into the dispatcher.  An entry
  therefore stores functions that receive the dispatcher entry points as arguments, and every call
  through a registry entry consumes one unit of `fuel`.
* Floating point arithmetic is outside the embedding: `float` and `double` objects are bit
  patterns and the four conversions the code performs are the fields of `FloatOps`.
* Integer widths are those of an LP64 platform with a signed `char`.
-/

namespace Argo

/-! ## The JSON value library (`json.h`) -/

/-- Variant tags of `jsonValue_t`. -/
inductive JsonType where
  | JSON_NULL
  | JSON_BOOL
  | JSON_LONG
  | JSON_DOUBLE
  | JSON_STRING
  | JSON_ARRAY
  | JSON_OBJECT
  deriving DecidableEq, Repr

/-- Modelled from the spec: the JSON value tree of `json.h` (absent from the sources), a tagged
union over null, bool, integer, real, string, ordered array and insertion-ordered object.  A real
is kept as the bit pattern of a `double`. -/
inductive JsonValue where
  | null
  | bool (boolean : Bool)
  | long (integer : Int)
  | double (real : Nat)
  | string (string : String)
  | array (entries : List JsonValue)
  | object (entries : List (String × JsonValue))

/-- The field `value->type`. -/
def JsonValue.type : JsonValue → JsonType
  | .null => .JSON_NULL
  | .bool _ => .JSON_BOOL
  | .long _ => .JSON_LONG
  | .double _ => .JSON_DOUBLE
  | .string _ => .JSON_STRING
  | .array _ => .JSON_ARRAY
  | .object _ => .JSON_OBJECT

/-- Modelled from the spec: `json_null()` of `json.h`. -/
def json_null : Option JsonValue := some .null

/-- Modelled from the spec: `json_long(n)` of `json.h`. -/
def json_long (n : Int) : Option JsonValue := some (.long n)

/-- Modelled from the spec: `json_double(x)` of `json.h`. -/
def json_double (x : Nat) : Option JsonValue := some (.double x)

/-- Modelled from the spec: `json_bool(b)` of `json.h`. -/
def json_bool (b : Bool) : Option JsonValue := some (.bool b)

/-- Modelled from the spec: `json_string(s)` of `json.h`, for a non-null text buffer. -/
def json_string (s : String) : Option JsonValue := some (.string s)

/-- Modelled from the spec: `json_array_direct(true, size, array)` of `json.h`; the array keeps
the order of its entries. -/
def json_array_direct (array : List JsonValue) : Option JsonValue := some (.array array)

/-- Collects the values of the argument list of `json_object`; a null value makes it fail. -/
def collectEntries : List (String × Option JsonValue) → Option (List (String × JsonValue))
  | [] => some []
  | (_, none) :: _ => none
  | (k, some v) :: rest =>
    match collectEntries rest with
    | none => none
    | some l => some ((k, v) :: l)

/-- Modelled from the spec: `json_object(true, n, key, value, ...)` of `json.h`; the object keeps
the insertion order, and a failed (null) argument value makes the whole construction fail
(marshal failures propagate upward). -/
def json_object (entries : List (String × Option JsonValue)) : Option JsonValue :=
  match collectEntries entries with
  | none => none
  | some l => some (.object l)

/-- First entry of an object with the given key. -/
def lookupKey (key : String) : List (String × JsonValue) → Option JsonValue
  | [] => none
  | (k, v) :: rest => if key = k then some v else lookupKey key rest

/-- Modelled from the spec: `json_object_get(v, key)` of `json.h`; an absent key is treated as
JSON null. -/
def json_object_get (v : JsonValue) (key : String) : JsonValue :=
  match v with
  | .object entries =>
    match lookupKey key entries with
    | some x => x
    | none => .null
  | _ => .null

/-! ## C objects, pointers and the allocator -/

/-- The floating point conversions performed by the codecs, on bit patterns. -/
structure FloatOps where
  /-- Promotion `float -> double` (`json_double(*((float*) value))`). -/
  float_to_double : Nat → Nat
  /-- Narrowing `double -> float` (`*tmp = value->value.real` for a `float*`). -/
  double_to_float : Nat → Nat
  /-- Conversion `long -> double`. -/
  long_to_double : Int → Nat
  /-- Conversion `long -> float`. -/
  long_to_float : Int → Nat

mutual
/-- A `void*`: null, the start of heap allocation `addr`, or any other address (a member of an
enclosing record, automatic or static storage). -/
inductive Pointer where
  | null
  | alloc (addr : Nat) (target : CVal)
  | inner (target : CVal)
/-- The content of a C object. -/
inductive CVal where
  | char (n : Int)
  | short (n : Int)
  | int (n : Int)
  | long (n : Int)
  | llong (n : Int)
  | float (x : Nat)
  | double (x : Nat)
  | bool (b : Bool)
  | str (s : String)
  | pointer (p : Pointer)
  | struct (members : List CVal)
  | slots (ps : List Pointer)
end

/-- The object a pointer points to. -/
def Pointer.target : Pointer → Option CVal
  | .null => none
  | .alloc _ v => some v
  | .inner v => some v

/-- Test `p == NULL`. -/
def Pointer.isNull : Pointer → Bool
  | .null => true
  | _ => false

/-- Allocator state and `errno`. -/
structure World where
  /-- Identifier of the next allocation. -/
  next : Nat
  /-- Allocations made and not yet released. -/
  live : List Nat
  /-- Value of `errno`. -/
  errno : Nat
  deriving DecidableEq, Repr

/-- The constant `EINVAL`. -/
def EINVAL : Nat := 22

/-- How a call ends when it does not return. -/
inductive Fault where
  | panic (name : String) (reason : String)
  | undefined
  | fuel
  deriving DecidableEq, Repr

/-- Result of a call. -/
abbrev Res (α : Type) := Except Fault α

/-- Allocation by `malloc` or `strdup`: a fresh live allocation. -/
def malloc (w : World) : Nat × World :=
  (w.next, { w with next := w.next + 1, live := w.next :: w.live })

/-- Release of allocation `a`. -/
def World.release (a : Nat) (w : World) : Res World :=
  if a ∈ w.live then pure { w with live := w.live.erase a } else throw .undefined

/-- The call `free(p)`. -/
def free (p : Pointer) (w : World) : Res World :=
  match p with
  | .null => pure w
  | .alloc a _ => w.release a
  | .inner _ => throw .undefined

/-- Conversion of an integer to a signed integer type of `bits` bits. -/
def narrow (bits : Nat) (n : Int) : Int :=
  (n + 2 ^ (bits - 1)) % 2 ^ bits - 2 ^ (bits - 1)

/-! ## The registry -/

/-- The callee `_json_marshall_value` as seen by a registered function. -/
abbrev MarshallValue := String → Pointer → Res (Option JsonValue)

/-- The callee `_json_unmarshall_value` as seen by a registered function. -/
abbrev UnmarshallValue := String → JsonValue → World → Res (Pointer × World)

/-- The callee `_json_free_struct` as seen by a registered function. -/
abbrev FreeStruct := String → Pointer → Bool → World → Res World

/-- The callee `_json_free_array` as seen by a registered function. -/
abbrev FreeArray := String → Pointer → World → Res World

/-- One element of `marshallerList`. -/
structure marshaller where
  name : String
  size : Nat
  marshaller : MarshallValue → Pointer → Res (Option JsonValue)
  unmarshaller : UnmarshallValue → JsonValue → World → Res (Pointer × World)
  free : FreeStruct → FreeArray → Pointer → Bool → World → Res World

/-- The call `_marshallPanic(name, reason)`. -/
def _marshallPanic {α : Type} (name : String) (reason : String) : Res α :=
  throw (.panic name reason)

/-- Linear scan of `marshallerList` for the first entry named `type`. -/
def findMarshaller : List marshaller → String → Option marshaller
  | [], _ => none
  | m :: rest, type => if type = m.name then some m else findMarshaller rest type

/-- Size in bytes of `struct marshaller`: a name, a size and three function pointers. -/
def sizeofMarshaller : Nat := 40

/-- The text `strerror(errno)` that `_marshallPanic` prints when its reason is NULL. -/
def strerrorText : String := "strerror(errno)"

/-- The call `realloc(marshallerList, size)` of `_registerMarshaller`, reduced to what the caller
tests: whether the result is NULL.  A request of one byte or more is granted.  A request of zero
bytes has no result that the C standard fixes: glibc hands out a block when `marshallerList` is
NULL (the first call of the process), and releases the table and returns NULL when
`marshallerList` is a block, which is the case after any earlier call.  That request therefore
has no defined result. -/
def realloc (size : Nat) : Res Bool :=
  if size = 0 then throw .undefined else pure false

/-- The loop of `_registerMarshaller`: appends one entry per name, after checking that the name
is not yet present. -/
def registerNames (marshallerList : List marshaller) (names : List String) (size : Nat)
    (marshaller : MarshallValue → Pointer → Res (Option JsonValue))
    (unmarshaller : UnmarshallValue → JsonValue → World → Res (Pointer × World))
    (structFree : FreeStruct → FreeArray → Pointer → Bool → World → Res World) :
    Res (List Argo.marshaller) :=
  match names with
  | [] => pure marshallerList
  | name :: rest =>
    match findMarshaller marshallerList name with
    | some _ => _marshallPanic name "marshaller for name already present"
    | none =>
      registerNames
        (marshallerList ++ [{ name := name, size := size, marshaller := marshaller,
                              unmarshaller := unmarshaller, free := structFree }])
        rest size marshaller unmarshaller structFree

/-- The function `_registerMarshaller`: resizes the table to hold the entries it has and one
entry per name, ends in the panic `_marshallPanic(names[0], NULL)` when the result is NULL, and
then runs the loop over the names.  With no entry in the table and no name the table is resized
to zero bytes. -/
def _registerMarshaller (marshallerList : List marshaller) (names : List String) (size : Nat)
    (marshaller : MarshallValue → Pointer → Res (Option JsonValue))
    (unmarshaller : UnmarshallValue → JsonValue → World → Res (Pointer × World))
    (structFree : FreeStruct → FreeArray → Pointer → Bool → World → Res World) :
    Res (List Argo.marshaller) :=
  match realloc (sizeofMarshaller * (marshallerList.length + names.length)) with
  | .error e => .error e
  | .ok true =>
    match names with
    | [] => throw .undefined
    | name0 :: _ => _marshallPanic name0 strerrorText
  | .ok false => registerNames marshallerList names size marshaller unmarshaller structFree

/-! ## Primitive codecs: marshal -/

/-- Reads `*((char*) value)`. -/
def json_marshall_char (value : Pointer) : Res (Option JsonValue) :=
  match value.target with
  | some (.char n) => pure (json_long n)
  | _ => throw .undefined

/-- Reads `*((short*) value)`. -/
def json_marshall_short (value : Pointer) : Res (Option JsonValue) :=
  match value.target with
  | some (.short n) => pure (json_long n)
  | _ => throw .undefined

/-- Reads `*((int*) value)`. -/
def json_marshall_int (value : Pointer) : Res (Option JsonValue) :=
  match value.target with
  | some (.int n) => pure (json_long n)
  | _ => throw .undefined

/-- Reads `*((long*) value)`. -/
def json_marshall_long (value : Pointer) : Res (Option JsonValue) :=
  match value.target with
  | some (.long n) => pure (json_long n)
  | _ => throw .undefined

/-- Reads `*((long long*) value)`. -/
def json_marshall_long_long (value : Pointer) : Res (Option JsonValue) :=
  match value.target with
  | some (.llong n) => pure (json_long n)
  | _ => throw .undefined

/-- Reads `*((float*) value)`, promoted to `double`. -/
def json_marshall_float (fp : FloatOps) (value : Pointer) : Res (Option JsonValue) :=
  match value.target with
  | some (.float x) => pure (json_double (fp.float_to_double x))
  | _ => throw .undefined

/-- Reads `*((double*) value)`. -/
def json_marshall_double (value : Pointer) : Res (Option JsonValue) :=
  match value.target with
  | some (.double x) => pure (json_double x)
  | _ => throw .undefined

/-- Treats the pointer itself as a text buffer. -/
def json_marshall_string (value : Pointer) : Res (Option JsonValue) :=
  match value.target with
  | some (.str s) => pure (json_string s)
  | _ => throw .undefined

/-- Reads `*((bool*) value)`. -/
def json_marshall_bool (value : Pointer) : Res (Option JsonValue) :=
  match value.target with
  | some (.bool b) => pure (json_bool b)
  | _ => throw .undefined

/-! ## Dispatcher: marshal -/

/-- The first loop of `_json_marshall_array_value`: the number of slots before the first null
slot; `none` when the block has no null slot. -/
def sentinelIndex : List Pointer → Option Nat
  | [] => none
  | .null :: _ => some 0
  | _ :: rest =>
    match sentinelIndex rest with
    | none => none
    | some n => some (n + 1)

/-- The second loop of `_json_marshall_array_value`: marshals the elements in order and stops
with the failure marker at the first element whose marshal fails. -/
def marshallElements (marshall_value : MarshallValue) (type : String) :
    List Pointer → Res (Option (List JsonValue))
  | [] => pure (some [])
  | p :: rest => do
    let r ← marshall_value type p
    match r with
    | none => pure none
    | some j =>
      let rs ← marshallElements marshall_value type rest
      match rs with
      | none => pure none
      | some l => pure (some (j :: l))

/-- The function `_json_marshall_array_value`, its callee `_json_marshall_value` being given. -/
def _json_marshall_array_value (marshall_value : MarshallValue) (type : String)
    (value : Pointer) : Res (Option JsonValue) :=
  if value.isNull then pure json_null
  else
    match value.target with
    | some (.slots ps) =>
      match sentinelIndex ps with
      | none => throw .undefined
      | some size => do
        let array ← marshallElements marshall_value type (ps.take size)
        match array with
        | none => pure none
        | some l => pure (json_array_direct l)
    | _ => throw .undefined

/-- The body of `_json_marshall_value`; `call` is the call `marshaller->marshaller(value)`
through a registry entry. -/
def marshallValueBody (fp : FloatOps) (marshallerList : List marshaller)
    (call : marshaller → Pointer → Res (Option JsonValue))
    (type : String) (value : Pointer) : Res (Option JsonValue) :=
  if value.isNull then pure json_null
  else if type = "char" then json_marshall_char value
  else if type = "short" then json_marshall_short value
  else if type = "int" then json_marshall_int value
  else if type = "long" then json_marshall_long value
  else if type = "long long" then json_marshall_long_long value
  else if type = "float" then json_marshall_float fp value
  else if type = "double" then json_marshall_double value
  else if type = "string" then json_marshall_string value
  else if type = "bool" then json_marshall_bool value
  else
    match findMarshaller marshallerList type with
    | none => _marshallPanic type "unknown type"
    | some marshaller => call marshaller value

/-- The function `_json_marshall_value`; a registered function that is called receives the
dispatcher with the remaining fuel. -/
def _json_marshall_value (fp : FloatOps) (marshallerList : List marshaller) :
    Nat → String → Pointer → Res (Option JsonValue)
  | 0 => marshallValueBody fp marshallerList (fun _ _ => throw .fuel)
  | n + 1 =>
    marshallValueBody fp marshallerList
      (fun marshaller value =>
        marshaller.marshaller (_json_marshall_value fp marshallerList n) value)

/-! ## Primitive codecs: unmarshal -/

/-- Accepts a JSON integer only and stores it in a new `char`. -/
def json_unmarshall_char (value : JsonValue) (w : World) : Pointer × World :=
  match value with
  | .long integer =>
    let (tmp, w1) := malloc w
    (.alloc tmp (.char (narrow 8 integer)), w1)
  | _ => (.null, w)

/-- Accepts a JSON integer only and stores it in a new `short`. -/
def json_unmarshall_short (value : JsonValue) (w : World) : Pointer × World :=
  match value with
  | .long integer =>
    let (tmp, w1) := malloc w
    (.alloc tmp (.short (narrow 16 integer)), w1)
  | _ => (.null, w)

/-- Accepts a JSON integer only and stores it in a new `int`. -/
def json_unmarshall_int (value : JsonValue) (w : World) : Pointer × World :=
  match value with
  | .long integer =>
    let (tmp, w1) := malloc w
    (.alloc tmp (.int (narrow 32 integer)), w1)
  | _ => (.null, w)

/-- Accepts a JSON integer only and stores it in a new `long`. -/
def json_unmarshall_long (value : JsonValue) (w : World) : Pointer × World :=
  match value with
  | .long integer =>
    let (tmp, w1) := malloc w
    (.alloc tmp (.long (narrow 64 integer)), w1)
  | _ => (.null, w)

/-- Accepts a JSON integer only and stores it in a new `long long`. -/
def json_unmarshall_long_long (value : JsonValue) (w : World) : Pointer × World :=
  match value with
  | .long integer =>
    let (tmp, w1) := malloc w
    (.alloc tmp (.llong (narrow 64 integer)), w1)
  | _ => (.null, w)

/-- Accepts a JSON real or a JSON integer and stores it in a new `float`. -/
def json_unmarshall_float (fp : FloatOps) (value : JsonValue) (w : World) : Pointer × World :=
  match value with
  | .double real =>
    let (tmp, w1) := malloc w
    (.alloc tmp (.float (fp.double_to_float real)), w1)
  | .long integer =>
    let (tmp, w1) := malloc w
    (.alloc tmp (.float (fp.long_to_float integer)), w1)
  | _ => (.null, w)

/-- Accepts a JSON real or a JSON integer and stores it in a new `double`. -/
def json_unmarshall_double (fp : FloatOps) (value : JsonValue) (w : World) : Pointer × World :=
  match value with
  | .double real =>
    let (tmp, w1) := malloc w
    (.alloc tmp (.double real), w1)
  | .long integer =>
    let (tmp, w1) := malloc w
    (.alloc tmp (.double (fp.long_to_double integer)), w1)
  | _ => (.null, w)

/-- Accepts a JSON boolean only and stores it in a new `bool`. -/
def json_unmarshall_bool (value : JsonValue) (w : World) : Pointer × World :=
  match value with
  | .bool boolean =>
    let (tmp, w1) := malloc w
    (.alloc tmp (.bool boolean), w1)
  | _ => (.null, w)

/-- Accepts a JSON string only and duplicates its text. -/
def json_unmarshall_string (value : JsonValue) (w : World) : Pointer × World :=
  match value with
  | .string string =>
    let (tmp, w1) := malloc w
    (.alloc tmp (.str string), w1)
  | _ => (.null, w)

/-! ## Dispatcher: unmarshal -/

/-- The loop of `_json_unmarshall_array_value`: unmarshals the entries in order. -/
def unmarshallElements (unmarshall_value : UnmarshallValue) (type : String) :
    List JsonValue → World → Res (List Pointer × World)
  | [], w => pure ([], w)
  | entry :: rest, w => do
    let (p, w1) ← unmarshall_value type entry w
    let (ps, w2) ← unmarshallElements unmarshall_value type rest w1
    pure (p :: ps, w2)

/-- The function `_json_unmarshall_array_value`, its callee `_json_unmarshall_value` being
given. -/
def _json_unmarshall_array_value (unmarshall_value : UnmarshallValue) (type : String)
    (value : JsonValue) (w : World) : Res (Pointer × World) :=
  match value with
  | .array entries => do
    let (array, w1) := malloc w
    let (ps, w2) ← unmarshallElements unmarshall_value type entries w1
    pure (.alloc array (.slots (ps ++ [.null])), w2)
  | _ => pure (.null, w)

/-- The body of `_json_unmarshall_value`; `call` is the call
`marshaller->unmarshaller(value)` through a registry entry. -/
def unmarshallValueBody (fp : FloatOps) (marshallerList : List marshaller)
    (call : marshaller → JsonValue → World → Res (Pointer × World))
    (type : String) (value : JsonValue) (w : World) : Res (Pointer × World) :=
  if value.type = .JSON_NULL then pure (.null, w)
  else if type = "char" then pure (json_unmarshall_char value w)
  else if type = "short" then pure (json_unmarshall_short value w)
  else if type = "int" then pure (json_unmarshall_int value w)
  else if type = "long" then pure (json_unmarshall_long value w)
  else if type = "long long" then pure (json_unmarshall_long_long value w)
  else if type = "float" then pure (json_unmarshall_float fp value w)
  else if type = "double" then pure (json_unmarshall_double fp value w)
  else if type = "string" then pure (json_unmarshall_string value w)
  else if type = "bool" then pure (json_unmarshall_bool value w)
  else
    match findMarshaller marshallerList type with
    | none => _marshallPanic type "unknown type"
    | some marshaller => call marshaller value w

/-- The function `_json_unmarshall_value`; a registered function that is called receives the
dispatcher with the remaining fuel. -/
def _json_unmarshall_value (fp : FloatOps) (marshallerList : List marshaller) :
    Nat → String → JsonValue → World → Res (Pointer × World)
  | 0 => unmarshallValueBody fp marshallerList (fun _ _ _ => throw .fuel)
  | n + 1 =>
    unmarshallValueBody fp marshallerList
      (fun marshaller value w =>
        marshaller.unmarshaller (_json_unmarshall_value fp marshallerList n) value w)

/-! ## Dispatcher: free -/

/-- The nine primitive kind names tested by `_json_free_struct` and `_json_free_array`. -/
def isPrimitiveKind (type : String) : Bool :=
  type = "char" || type = "short" || type = "int" || type = "long" || type = "long long" ||
  type = "float" || type = "double" || type = "bool" || type = "string"

/-- The loop `for (i = 0; value[i] != NULL; i++) free(value[i])`. -/
def freeElements : List Pointer → World → Res World
  | [], _ => throw .undefined
  | .null :: _, w => pure w
  | p :: rest, w => do
    let w1 ← free p w
    freeElements rest w1

/-- The loop `for (i = 0; value[i] != NULL; i++) marshaller->free(value[i], true)`. -/
def freeElementsWith (elementFree : Pointer → Bool → World → Res World) :
    List Pointer → World → Res World
  | [], _ => throw .undefined
  | .null :: _, w => pure w
  | p :: rest, w => do
    let w1 ← elementFree p true w
    freeElementsWith elementFree rest w1

/-- The body of `_json_free_struct`; `call` is the call `marshaller->free(value, this)`
through a registry entry. -/
def freeStructBody (marshallerList : List marshaller)
    (call : marshaller → Pointer → Bool → World → Res World)
    (type : String) (value : Pointer) (this : Bool) (w : World) : Res World :=
  if value.isNull then pure w
  else if isPrimitiveKind type then
    if this then free value w else pure w
  else
    match findMarshaller marshallerList type with
    | none => _marshallPanic type "unknown type"
    | some marshaller => call marshaller value this w

/-- The body of `_json_free_array`; `call` is the call `marshaller->free(value[i], true)`
through a registry entry. -/
def freeArrayBody (marshallerList : List marshaller)
    (call : marshaller → Pointer → Bool → World → Res World)
    (type : String) (value : Pointer) (w : World) : Res World :=
  if value.isNull then pure w
  else if isPrimitiveKind type then
    match value.target with
    | some (.slots ps) => do
      let w1 ← freeElements ps w
      free value w1
    | _ => throw .undefined
  else
    match findMarshaller marshallerList type with
    | none => _marshallPanic type "unknown type"
    | some marshaller =>
      match value.target with
      | some (.slots ps) => do
        let w1 ← freeElementsWith (call marshaller) ps w
        free value w1
      | _ => throw .undefined

mutual
/-- The function `_json_free_struct`; a registered function that is called receives the
dispatcher with the remaining fuel. -/
def _json_free_struct (marshallerList : List marshaller) :
    Nat → String → Pointer → Bool → World → Res World
  | 0 => freeStructBody marshallerList (fun _ _ _ _ => throw .fuel)
  | n + 1 =>
    freeStructBody marshallerList
      (fun marshaller =>
        marshaller.free (_json_free_struct marshallerList n) (_json_free_array marshallerList n))
/-- The function `_json_free_array`; a registered function that is called receives the
dispatcher with the remaining fuel. -/
def _json_free_array (marshallerList : List marshaller) :
    Nat → String → Pointer → World → Res World
  | 0 => freeArrayBody marshallerList (fun _ _ _ _ => throw .fuel)
  | n + 1 =>
    freeArrayBody marshallerList
      (fun marshaller =>
        marshaller.free (_json_free_struct marshallerList n) (_json_free_array marshallerList n))
end

/-! ## The schema model (`codegen.h`) -/

/-- The type of a record member: base type token and the pointer and array modifiers. -/
structure typeinfo where
  type : String
  isPointer : Bool
  isArray : Bool
  deriving DecidableEq, Repr

/-- One member of a record. -/
structure memberinfo where
  name : String
  type : typeinfo
  deriving DecidableEq, Repr

/-- One record: its names (`names[0]` and, when present, `names[1]`) and its members in
declaration order (`memberno` is the length of `members`). -/
structure structinfo where
  names : List String
  members : List memberinfo
  deriving DecidableEq, Repr

/-! ## The functions emitted by the code generator -/

/-- The value expression emitted by `generateMarshallFunction` for one member, applied to the
member `field` of the record `d`. -/
def marshallMember (marshall_value : MarshallValue) (member : memberinfo) (field : CVal) :
    Res (Option JsonValue) :=
  if member.type.isArray then
    match field with
    | .pointer p => _json_marshall_array_value marshall_value member.type.type p
    | _ => throw .undefined
  else if !member.type.isPointer && member.type.type != "string" then
    marshall_value member.type.type (.inner field)
  else
    match field with
    | .pointer p => marshall_value member.type.type p
    | _ => throw .undefined

/-- The argument list of the emitted `json_object` call: one key and value per member, in
declaration order; the value expressions are evaluated from left to right.  The record must
have exactly the declared members. -/
def marshallMembers (marshall_value : MarshallValue) :
    List memberinfo → List CVal → Res (List (String × Option JsonValue))
  | [], [] => pure []
  | member :: rest, field :: fields => do
    let v ← marshallMember marshall_value member field
    let vs ← marshallMembers marshall_value rest fields
    pure ((member.name, v) :: vs)
  | _, _ => throw .undefined

/-- The function `_json_marshall_value_<name>` emitted by `generateMarshallFunction`. -/
def generateMarshallFunction (info : structinfo) (marshall_value : MarshallValue)
    (_d : Pointer) : Res (Option JsonValue) :=
  if _d.isNull then pure json_null
  else
    match _d.target with
    | some (.struct fields) => do
      let entries ← marshallMembers marshall_value info.members fields
      pure (json_object entries)
    | _ => throw .undefined

/-- The statements emitted by `generateUnmarshallFunction` for one member: the new value of the
member, or `none` when the emitted code sets `errno`, releases the record `d` and returns the
failure marker. -/
def unmarshallMember (unmarshall_value : UnmarshallValue) (v : JsonValue) (d : Nat)
    (member : memberinfo) (w : World) : Res (Option CVal × World) :=
  let tmpValue := json_object_get v member.name
  if member.type.isArray then do
    let (tmp, w1) ← _json_unmarshall_array_value unmarshall_value member.type.type tmpValue w
    pure (some (.pointer tmp), w1)
  else do
    let (tmp, w1) ← unmarshall_value member.type.type tmpValue w
    if member.type.type = "string" then
      pure (some (.pointer tmp), w1)
    else if member.type.isPointer then
      pure (some (.pointer tmp), w1)
    else
      match tmp.target with
      | none => do
        let w2 ← World.release d { w1 with errno := EINVAL }
        pure (none, w2)
      | some obj => do
        let w2 ← free tmp w1
        pure (some obj, w2)

/-- The emitted member statements in declaration order; stops at the first member that fails. -/
def unmarshallMembers (unmarshall_value : UnmarshallValue) (v : JsonValue) (d : Nat) :
    List memberinfo → World → Res (Option (List CVal) × World)
  | [], w => pure (some [], w)
  | member :: rest, w => do
    let (r, w1) ← unmarshallMember unmarshall_value v d member w
    match r with
    | none => pure (none, w1)
    | some field => do
      let (rs, w2) ← unmarshallMembers unmarshall_value v d rest w1
      match rs with
      | none => pure (none, w2)
      | some fields => pure (some (field :: fields), w2)

/-- The function `_json_unmarshall_value_<name>` emitted by `generateUnmarshallFunction`. -/
def generateUnmarshallFunction (info : structinfo) (unmarshall_value : UnmarshallValue)
    (v : JsonValue) (w : World) : Res (Pointer × World) :=
  match v with
  | .object _ => do
    let (d, w1) := malloc w
    let (r, w2) ← unmarshallMembers unmarshall_value v d info.members w1
    match r with
    | none => pure (.null, w2)
    | some fields => pure (.alloc d (.struct fields), w2)
  | _ => pure (.null, { w with errno := EINVAL })

/-- The eight by-value kinds for which `generateFreeFunction` emits nothing. -/
def isEmbeddedPrimitive (type : String) : Bool :=
  type = "char" || type = "short" || type = "int" || type = "long" || type = "long long" ||
  type = "float" || type = "double" || type = "bool"

/-- The statement emitted by `generateFreeFunction` for one member. -/
def freeMember (free_struct : FreeStruct) (free_array : FreeArray) (member : memberinfo)
    (field : CVal) (w : World) : Res World :=
  if member.type.isArray then
    match field with
    | .pointer p => free_array member.type.type p w
    | _ => throw .undefined
  else if member.type.isPointer || member.type.type = "string" then
    match field with
    | .pointer p => free_struct member.type.type p true w
    | _ => throw .undefined
  else if !isEmbeddedPrimitive member.type.type then
    free_struct member.type.type (.inner field) false w
  else
    pure w

/-- The emitted member statements of the free function, in declaration order. -/
def freeMembers (free_struct : FreeStruct) (free_array : FreeArray) :
    List memberinfo → List CVal → World → Res World
  | [], [], w => pure w
  | member :: rest, field :: fields, w => do
    let w1 ← freeMember free_struct free_array member field w
    freeMembers free_struct free_array rest fields w1
  | _, _, _ => throw .undefined

/-- The function `_json_free_value_<name>` emitted by `generateFreeFunction`. -/
def generateFreeFunction (info : structinfo) (free_struct : FreeStruct)
    (free_array : FreeArray) (_d : Pointer) (this : Bool) (w : World) : Res World :=
  if _d.isNull then pure w
  else
    match _d.target with
    | some (.struct fields) => do
      let w1 ← freeMembers free_struct free_array info.members fields w
      if this then free _d w1 else pure w1
    | _ => throw .undefined

/-- The constructor `_register_marshaller_<name>_` emitted by `generateCodeStruct`; `sizeof`
gives the storage size of the record named `names[0]`. -/
def generateCodeStruct (sizeof : String → Nat) (info : structinfo)
    (marshallerList : List marshaller) : Res (List marshaller) :=
  match info.names with
  | [] => throw .undefined
  | name0 :: aliases =>
    _registerMarshaller marshallerList (name0 :: aliases.take 1) (sizeof name0)
      (generateMarshallFunction info) (generateUnmarshallFunction info)
      (generateFreeFunction info)

/-- Runs the emitted constructors of the given records in order. -/
def runConstructors (sizeof : String → Nat) :
    List structinfo → List marshaller → Res (List marshaller)
  | [], marshallerList => pure marshallerList
  | info :: rest, marshallerList => do
    let l ← generateCodeStruct sizeof info marshallerList
    runConstructors sizeof rest l

/-! ## Example records -/

/-- The record `Point` with members `int x; int y;`. -/
def pointInfo : structinfo :=
  { names := ["Point"],
    members := [⟨"x", ⟨"int", false, false⟩⟩, ⟨"y", ⟨"int", false, false⟩⟩] }

/-- The record `Line` with members `Point* a; Point* b;`. -/
def lineInfo : structinfo :=
  { names := ["Line"],
    members := [⟨"a", ⟨"Point", true, false⟩⟩, ⟨"b", ⟨"Point", true, false⟩⟩] }

/-- Floating point conversions of a platform whose `float` and `double` coincide. -/
def idFloat : FloatOps :=
  { float_to_double := id, double_to_float := id,
    long_to_double := Int.toNat, long_to_float := Int.toNat }

/-- An allocator state with no allocation made. -/
def World.init : World := { next := 1, live := [], errno := 0 }

/-- The registry after the constructors of `Point` and `Line` ran. -/
def exampleRegistry : List marshaller :=
  match runConstructors (fun _ => 8) [pointInfo, lineInfo] [] with
  | .ok l => l
  | .error _ => []

/-- The record `Line{a: NULL, b: &Point{1, 2}}` in automatic storage, `b` on the heap. -/
def lineValue : Pointer :=
  .inner (.struct [.pointer .null, .pointer (.alloc 7 (.struct [.int 1, .int 2]))])

/-- The elements `&Point{1, 1}` and `&Point{2, 2}`. -/
def pointElems : List Pointer :=
  [.inner (.struct [.int 1, .int 1]), .inner (.struct [.int 2, .int 2])]

/-- The null-terminated sequence of `pointElems`. -/
def pointArray : Pointer := .inner (.slots (pointElems ++ [.null]))

/-! ## Specification vocabulary -/

/-- The entries appended by one successful registration. -/
def newEntries (names : List String) (size : Nat)
    (marshaller : MarshallValue → Pointer → Res (Option JsonValue))
    (unmarshaller : UnmarshallValue → JsonValue → World → Res (Pointer × World))
    (structFree : FreeStruct → FreeArray → Pointer → Bool → World → Res World) :
    List Argo.marshaller :=
  names.map (fun name => { name := name, size := size, marshaller := marshaller,
                           unmarshaller := unmarshaller, free := structFree })

/-- Registries reachable from the empty registry by registrations that return normally. -/
inductive Registered : List marshaller → Prop where
  | empty : Registered []
  | step {reg reg1 : List marshaller} (names : List String) (size : Nat)
      (m : MarshallValue → Pointer → Res (Option JsonValue))
      (u : UnmarshallValue → JsonValue → World → Res (Pointer × World))
      (f : FreeStruct → FreeArray → Pointer → Bool → World → Res World) :
      Registered reg → _registerMarshaller reg names size m u f = .ok reg1 → Registered reg1

/-- Two registrations performed one after the other. -/
def registerTwice (reg : List marshaller)
    (names1 : List String) (size1 : Nat)
    (m1 : MarshallValue → Pointer → Res (Option JsonValue))
    (u1 : UnmarshallValue → JsonValue → World → Res (Pointer × World))
    (f1 : FreeStruct → FreeArray → Pointer → Bool → World → Res World)
    (names2 : List String) (size2 : Nat)
    (m2 : MarshallValue → Pointer → Res (Option JsonValue))
    (u2 : UnmarshallValue → JsonValue → World → Res (Pointer × World))
    (f2 : FreeStruct → FreeArray → Pointer → Bool → World → Res World) :
    Res (List marshaller) :=
  match _registerMarshaller reg names1 size1 m1 u1 f1 with
  | .ok reg1 => _registerMarshaller reg1 names2 size2 m2 u2 f2
  | .error e => .error e

/-- The values of a signed integer type of `bits` bits. -/
def inRange (bits : Nat) (n : Int) : Prop :=
  -(2 : Int) ^ (bits - 1) ≤ n ∧ n < (2 : Int) ^ (bits - 1)

/-- An object of the primitive kind named `type`: an integer within the range of its type, a
`float` that survives promotion to `double`, a `double`, a `bool`, or the text buffer a `string`
points to. -/
def TypedPrimitive (fp : FloatOps) (type : String) : CVal → Prop
  | .char n => type = "char" ∧ inRange 8 n
  | .short n => type = "short" ∧ inRange 16 n
  | .int n => type = "int" ∧ inRange 32 n
  | .long n => type = "long" ∧ inRange 64 n
  | .llong n => type = "long long" ∧ inRange 64 n
  | .float x => type = "float" ∧ fp.double_to_float (fp.float_to_double x) = x
  | .double _ => type = "double"
  | .bool _ => type = "bool"
  | .str _ => type = "string"
  | .pointer _ => False
  | .struct _ => False
  | .slots _ => False

/-- A pointer that is null or points to an object of type `type`. -/
def TypedPointer (T : String → CVal → Prop) (type : String) (p : Pointer) : Prop :=
  ∀ v, p.target = some v → T type v

/-- A pointer that is null or points to a block of pointers: non-null pointers to objects of
type `type` followed by a null slot. -/
def TypedArray (T : String → CVal → Prop) (type : String) (p : Pointer) : Prop :=
  p = .null ∨ ∃ elems rest, p.target = some (.slots (elems ++ .null :: rest)) ∧
    ∀ e ∈ elems, e ≠ .null ∧ TypedPointer T type e

/-- A member value as the emitted code reads it: an array member is a pointer to a block of
pointers, a by-value member other than a string is the object itself, and a pointer or string
member is a pointer to the object. -/
def TypedMember (T : String → CVal → Prop) (member : memberinfo) (field : CVal) : Prop :=
  if member.type.isArray then
    ∃ p, field = .pointer p ∧ TypedArray T member.type.type p
  else if !member.type.isPointer && member.type.type != "string" then
    T member.type.type field
  else
    ∃ p, field = .pointer p ∧ TypedPointer T member.type.type p

/-- An object of type `type` built from acyclic data with at most `depth` nested records;
`decl` gives the record declared under a name. -/
def TypedObj (fp : FloatOps) (decl : String → Option structinfo) : Nat → String → CVal → Prop
  | 0 => fun type v => TypedPrimitive fp type v
  | depth + 1 => fun type v =>
    TypedPrimitive fp type v ∨
    ∃ info fields, decl type = some info ∧ v = .struct fields ∧
      List.Forall₂ (TypedMember (TypedObj fp decl depth)) info.members fields

mutual
/-- Equality of two objects field for field: scalars and text by content, pointers by what
they point to, records member by member, pointer blocks element by element up to the null
slot.  Allocation identifiers are ignored. -/
inductive SameObj : CVal → CVal → Prop where
  | char (n : Int) : SameObj (.char n) (.char n)
  | short (n : Int) : SameObj (.short n) (.short n)
  | int (n : Int) : SameObj (.int n) (.int n)
  | long (n : Int) : SameObj (.long n) (.long n)
  | llong (n : Int) : SameObj (.llong n) (.llong n)
  | float (x : Nat) : SameObj (.float x) (.float x)
  | double (x : Nat) : SameObj (.double x) (.double x)
  | bool (b : Bool) : SameObj (.bool b) (.bool b)
  | str (s : String) : SameObj (.str s) (.str s)
  | pointer {p q : Pointer} : SamePointer p q → SameObj (.pointer p) (.pointer q)
  | struct {xs ys : List CVal} : SameMembers xs ys → SameObj (.struct xs) (.struct ys)
  | slots {ps qs r1 r2 : List Pointer} : SameElems ps qs →
      SameObj (.slots (ps ++ .null :: r1)) (.slots (qs ++ .null :: r2))
/-- Two pointers that are both null or point to equal objects. -/
inductive SamePointer : Pointer → Pointer → Prop where
  | null : SamePointer .null .null
  | target {p q : Pointer} {v v1 : CVal} :
      p.target = some v → q.target = some v1 → SameObj v v1 → SamePointer p q
/-- Member lists of equal length with equal members. -/
inductive SameMembers : List CVal → List CVal → Prop where
  | nil : SameMembers [] []
  | cons {x y : CVal} {xs ys : List CVal} :
      SameObj x y → SameMembers xs ys → SameMembers (x :: xs) (y :: ys)
/-- Sequences of non-null pointers of equal length with equal elements. -/
inductive SameElems : List Pointer → List Pointer → Prop where
  | nil : SameElems [] []
  | cons {p q : Pointer} {ps qs : List Pointer} :
      p ≠ .null → SamePointer p q → SameElems ps qs → SameElems (p :: ps) (q :: qs)
end

/-- The names under which the emitted constructor registers a record. -/
def registeredNames (info : structinfo) : List String := info.names.take 2

/-- The first declared record registered under the name `type`. -/
def declOf (decls : List structinfo) (type : String) : Option structinfo :=
  decls.find? (fun info => decide (type ∈ registeredNames info))

/-- Schema invariants: member names are unique within a record and no record is registered
under the name of a primitive kind. -/
def WellFormed (decls : List structinfo) : Prop :=
  ∀ info ∈ decls, (info.members.map (fun member => member.name)).Nodup ∧
    ∀ n ∈ registeredNames info, isPrimitiveKind n = false

/-- The registry binds every declared record name to the functions emitted for that record. -/
def Generated (decl : String → Option structinfo) (reg : List marshaller) : Prop :=
  ∀ type info, decl type = some info →
    isPrimitiveKind type = false ∧ (info.members.map (fun member => member.name)).Nodup ∧
    ∃ e, findMarshaller reg type = some e ∧
      e.marshaller = generateMarshallFunction info ∧
      e.unmarshaller = generateUnmarshallFunction info

/-- Allocations made before a call are live after it exactly when they were live before. -/
def Frame (w w1 : World) : Prop :=
  w.next ≤ w1.next ∧ ∀ b, b < w.next → (b ∈ w1.live ↔ b ∈ w.live)

/-- The pointer returned by an unmarshal call is null or a live allocation made by the call. -/
def Returned (w : World) (p : Pointer) (w1 : World) : Prop :=
  Frame w w1 ∧ (∀ v, p ≠ .inner v) ∧ ∀ a v, p = .alloc a v → w.next ≤ a ∧ a ∈ w1.live

/-- The pair of dispatchers round-trips every pointer to an object typed by `T`. -/
def RoundTrips (T : String → CVal → Prop) (mv : MarshallValue) (uv : UnmarshallValue) : Prop :=
  ∀ type p, TypedPointer T type p →
    ∃ j, mv type p = .ok (some j) ∧
      ∀ w, ∃ p1 w1, uv type j w = .ok (p1, w1) ∧ SamePointer p p1 ∧ Returned w p1 w1

/-! ## Top-level entry points -/

/-- The function `_json_marshall`; `json_stringify` is the printer of the JSON library. -/
def _json_marshall (fp : FloatOps) (marshallerList : List marshaller) (fuel : Nat)
    (json_stringify : JsonValue → Option String) (type : String) (value : Pointer) :
    Res (Option String) := do
  let json ← _json_marshall_value fp marshallerList fuel type value
  match json with
  | none => pure none
  | some j => pure (json_stringify j)

/-- The function `_json_marshall_array`; `json_stringify` is the printer of the JSON library. -/
def _json_marshall_array (fp : FloatOps) (marshallerList : List marshaller) (fuel : Nat)
    (json_stringify : JsonValue → Option String) (type : String) (value : Pointer) :
    Res (Option String) := do
  let json ← _json_marshall_array_value (_json_marshall_value fp marshallerList fuel) type value
  match json with
  | none => pure none
  | some j => pure (json_stringify j)

/-- The function `_json_unmarshall`; `json_parse` is the parser of the JSON library, which
returns null on a text that does not parse. -/
def _json_unmarshall (fp : FloatOps) (marshallerList : List marshaller) (fuel : Nat)
    (json_parse : String → Option JsonValue) (type : String) (json : String) (w : World) :
    Res (Pointer × World) :=
  match json_parse json with
  | none => pure (.null, w)
  | some value =>
    if value.type = .JSON_ARRAY then pure (.null, w)
    else _json_unmarshall_value fp marshallerList fuel type value w

/-- The function `_json_unmarshall_array`; `json_parse` is the parser of the JSON library. -/
def _json_unmarshall_array (fp : FloatOps) (marshallerList : List marshaller) (fuel : Nat)
    (json_parse : String → Option JsonValue) (type : String) (json : String) (w : World) :
    Res (Pointer × World) :=
  match json_parse json with
  | none => pure (.null, w)
  | some value =>
    _json_unmarshall_array_value (_json_unmarshall_value fp marshallerList fuel) type value w

/-- A registry entry whose marshal function returns the failure marker for a record with no
members and JSON true otherwise. -/
def fragileEntry : marshaller :=
  { name := "Fragile", size := 1,
    marshaller := fun _ value =>
      match value.target with
      | some (.struct []) => pure none
      | _ => pure (json_bool true),
    unmarshaller := fun _ _ w => pure (.null, w),
    free := fun _ _ _ _ w => pure w }

/-- The record `Point{x: 3, y: 4}` in automatic storage. -/
def pointValue : Pointer := .inner (.struct [.int 3, .int 4])

/-! ## Allocations reachable from a value -/

mutual
/-- The heap allocations reachable from a pointer. -/
def Pointer.addrs : Pointer → List Nat
  | .null => []
  | .alloc a v => a :: v.addrs
  | .inner v => v.addrs
/-- The heap allocations reachable from an object. -/
def CVal.addrs : CVal → List Nat
  | .pointer p => p.addrs
  | .struct ms => addrsMembers ms
  | .slots ps => addrsSlots ps
  | _ => []
/-- The heap allocations reachable from the members of a record. -/
def addrsMembers : List CVal → List Nat
  | [] => []
  | v :: vs => v.addrs ++ addrsMembers vs
/-- The heap allocations reachable from the slots of a pointer block. -/
def addrsSlots : List Pointer → List Nat
  | [] => []
  | p :: ps => p.addrs ++ addrsSlots ps
end

/-- Every entry of the registry holds the three functions emitted for some record. -/
def AllGenerated (reg : List marshaller) : Prop :=
  ∀ e ∈ reg, ∃ info, e.marshaller = generateMarshallFunction info ∧
    e.unmarshaller = generateUnmarshallFunction info ∧ e.free = generateFreeFunction info

/-- An unmarshal callee that only allocates: what it returns is null or a live allocation made
by the call, every allocation reachable from the result was made by the call, and earlier
allocations keep their state. -/
def Sound (uv : UnmarshallValue) : Prop :=
  ∀ type j w p w1, uv type j w = .ok (p, w1) →
    Returned w p w1 ∧ ∀ x ∈ p.addrs, w.next ≤ x ∧ x < w1.next

/-- The state in which an aborted record unmarshal leaves the allocator: `errno` is `EINVAL` and
the record storage `d` has been released from the state `wm` reached before the abort. -/
def Aborted (d : Nat) (wm w1 : World) : Prop :=
  d ∈ wm.live ∧ w1 = { next := wm.next, live := wm.live.erase d, errno := EINVAL }

/-- A JSON value that the codec of the by-value primitive kind `type` does not accept: JSON null
(also the value of an absent key), or a variant other than the ones the codec tests for. -/
def Rejected (type : String) (j : JsonValue) : Prop :=
  j.type = .JSON_NULL ∨
  (type ∈ ["char", "short", "int", "long", "long long"] ∧ j.type ≠ .JSON_LONG) ∨
  (type ∈ ["float", "double"] ∧ j.type ≠ .JSON_LONG ∧ j.type ≠ .JSON_DOUBLE) ∨
  (type = "bool" ∧ j.type ≠ .JSON_BOOL)

/-- The record `Named` with members `string name; int x;`. -/
def namedInfo : structinfo :=
  { names := ["Named"],
    members := [⟨"name", ⟨"string", false, false⟩⟩, ⟨"x", ⟨"int", false, false⟩⟩] }

/-- The registry after the constructors of `Point`, `Line` and `Named` ran. -/
def namedRegistry : List marshaller :=
  match runConstructors (fun _ => 8) [pointInfo, lineInfo, namedInfo] [] with
  | .ok l => l
  | .error _ => []

/-- The two results of a primitive unmarshal codec: the failure marker with nothing allocated,
or a fresh allocation holding an object that points nowhere. -/
def CodecResult (r : Pointer × World) (w : World) : Prop :=
  r = (.null, w) ∨ ∃ v, v.addrs = [] ∧ r = (.alloc w.next v, (malloc w).2)

/-- A free callee that releases nothing outside the value it is given: allocations that are not
reachable from the pointer keep their state. -/
def FreeOnly (fs : FreeStruct) : Prop :=
  ∀ type p this w w1, fs type p this w = .ok w1 →
    ∀ b, b ∉ p.addrs → (b ∈ w1.live ↔ b ∈ w.live)

/-- A free-array callee that releases nothing outside the value it is given. -/
def FreeArrayOnly (fa : FreeArray) : Prop :=
  ∀ type p w w1, fa type p w = .ok w1 →
    ∀ b, b ∉ p.addrs → (b ∈ w1.live ↔ b ∈ w.live)

/-! ## Allocator states and element-wise release -/

/-- An allocator state as `malloc` and `free` produce it: no allocation is live twice, and every
live allocation was handed out before. -/
def World.Valid (w : World) : Prop :=
  w.live.Nodup ∧ ∀ a ∈ w.live, a < w.next

/-- A property of the allocator state that no release breaks. -/
def ReleaseStable (P : World → Prop) : Prop :=
  ∀ a w w1, World.release a w = .ok w1 → P w → P w1

/-- A property of the allocator state that no allocation, no release and no assignment to
`errno` breaks. -/
def AllocStable (P : World → Prop) : Prop :=
  ReleaseStable P ∧ (∀ w, P w → P (malloc w).2) ∧ ∀ (w : World) (e : Nat), P w → P { w with errno := e }

/-- Frees the given elements one after the other, each as `_json_free_struct` does with the
flag set. -/
def freeEach (free_struct : FreeStruct) (type : String) : List Pointer → World → Res World
  | [], w => pure w
  | q :: rest, w => do
    let w1 ← free_struct type q true w
    freeEach free_struct type rest w1

end Argo

/-! ## Theorems -/

namespace Argo

/-! ### Registry -/

theorem findMarshaller_eq_none {l : List marshaller} {x : String} :
    findMarshaller l x = none ↔ ∀ e ∈ l, e.name ≠ x := by
  induction l with
  | nil => simp [findMarshaller]
  | cons m rest ih =>
    by_cases h : x = m.name
    · simp [findMarshaller, h]
    · simp only [findMarshaller, h, if_false, ih, List.mem_cons, forall_eq_or_imp]
      constructor
      · intro hr; exact ⟨fun e => h e.symm, hr⟩
      · intro hr; exact hr.2

theorem findMarshaller_name {l : List marshaller} {x : String} {e : marshaller}
    (h : findMarshaller l x = some e) : e.name = x ∧ e ∈ l := by
  induction l with
  | nil => simp [findMarshaller] at h
  | cons m rest ih =>
    by_cases hx : x = m.name
    · simp [findMarshaller, hx] at h
      subst h; exact ⟨hx.symm, List.mem_cons_self _ _⟩
    · simp only [findMarshaller, hx, if_false] at h
      exact ⟨(ih h).1, List.mem_cons_of_mem _ (ih h).2⟩

theorem findMarshaller_append_some {l l2 : List marshaller} {x : String} {e : marshaller}
    (h : findMarshaller l x = some e) : findMarshaller (l ++ l2) x = some e := by
  induction l with
  | nil => simp [findMarshaller] at h
  | cons m rest ih =>
    by_cases hx : x = m.name
    · simpa [findMarshaller, hx] using h
    · simp only [findMarshaller, hx, if_false, List.cons_append] at h ⊢
      exact ih h

theorem findMarshaller_append_none {l l2 : List marshaller} {x : String}
    (h : findMarshaller l x = none) : findMarshaller (l ++ l2) x = findMarshaller l2 x := by
  induction l with
  | nil => rfl
  | cons m rest ih =>
    by_cases hx : x = m.name
    · simp [findMarshaller, hx] at h
    · simp only [findMarshaller, hx, if_false, List.cons_append] at h ⊢
      exact ih h

theorem findMarshaller_newEntries (names : List String) (size : Nat)
    (m : MarshallValue → Pointer → Res (Option JsonValue))
    (u : UnmarshallValue → JsonValue → World → Res (Pointer × World))
    (f : FreeStruct → FreeArray → Pointer → Bool → World → Res World) (x : String) :
    findMarshaller (newEntries names size m u f) x =
      if x ∈ names then some { name := x, size := size, marshaller := m,
                               unmarshaller := u, free := f } else none := by
  induction names with
  | nil => simp [newEntries, findMarshaller]
  | cons n rest ih =>
    by_cases hx : x = n
    · subst hx; simp [newEntries, findMarshaller]
    · have ih1 := ih
      simp only [newEntries] at ih1
      simp only [newEntries, List.map_cons, findMarshaller, hx, if_false, List.mem_cons,
        false_or]
      exact ih1

theorem findMarshaller_snoc_none {l : List marshaller} {e : marshaller} {x : String} :
    findMarshaller (l ++ [e]) x = none ↔ findMarshaller l x = none ∧ x ≠ e.name := by
  simp only [findMarshaller_eq_none, List.mem_append, List.mem_singleton]
  constructor
  · intro h
    exact ⟨fun a ha => h a (Or.inl ha), fun hx => h e (Or.inr rfl) hx.symm⟩
  · rintro ⟨h1, h2⟩ a (ha | ha)
    · exact h1 a ha
    · subst ha; exact fun hx => h2 hx.symm

/-- The loop over the names returns normally exactly when the names are new and pairwise
distinct, and then it appends one entry per name. -/
theorem registerNames_ok_iff (names : List String) (size : Nat)
    (m : MarshallValue → Pointer → Res (Option JsonValue))
    (u : UnmarshallValue → JsonValue → World → Res (Pointer × World))
    (f : FreeStruct → FreeArray → Pointer → Bool → World → Res World) :
    ∀ (reg reg1 : List marshaller),
      registerNames reg names size m u f = .ok reg1 ↔
        (names.Nodup ∧ (∀ n ∈ names, findMarshaller reg n = none) ∧
          reg1 = reg ++ newEntries names size m u f) := by
  induction names with
  | nil =>
    intro reg reg1
    simp only [registerNames, newEntries, List.map_nil, List.append_nil, pure,
      Except.pure, Except.ok.injEq, List.nodup_nil, List.not_mem_nil, true_and]
    constructor
    · intro h; exact ⟨fun _ hn => hn.elim, h.symm⟩
    · intro h; exact h.2.symm
  | cons n rest ih =>
    intro reg reg1
    cases hfind : findMarshaller reg n with
    | some e =>
      simp only [registerNames, hfind, _marshallPanic, throw, throwThe,
        MonadExceptOf.throw]
      constructor
      · intro h; cases h
      · rintro ⟨_, hall, _⟩
        have := hall n (List.mem_cons_self _ _)
        rw [hfind] at this
        cases this
    | none =>
      simp only [registerNames, hfind]
      rw [ih]
      simp only [List.nodup_cons, List.mem_cons, forall_eq_or_imp, newEntries, List.map_cons,
        List.append_assoc, List.singleton_append, findMarshaller_snoc_none]
      constructor
      · rintro ⟨hnd, hall, heq⟩
        have hn : n ∉ rest := fun hmem => (hall n hmem).2 rfl
        exact ⟨⟨hn, hnd⟩, ⟨hfind, fun x hx => (hall x hx).1⟩, heq⟩
      · rintro ⟨⟨hn, hnd⟩, ⟨_, hall⟩, heq⟩
        exact ⟨hnd, fun x hx => ⟨hall x hx, fun h => hn (h ▸ hx)⟩, heq⟩

/-- The loop over the names either returns normally or ends in the duplicate-name panic. -/
theorem registerNames_total (names : List String) (size : Nat)
    (m : MarshallValue → Pointer → Res (Option JsonValue))
    (u : UnmarshallValue → JsonValue → World → Res (Pointer × World))
    (f : FreeStruct → FreeArray → Pointer → Bool → World → Res World) :
    ∀ (reg : List marshaller),
      (∃ reg1, registerNames reg names size m u f = .ok reg1) ∨
      (∃ n, registerNames reg names size m u f = .error (.panic n "marshaller for name already present")) := by
  induction names with
  | nil => intro reg; exact Or.inl ⟨reg, rfl⟩
  | cons n rest ih =>
    intro reg
    cases hfind : findMarshaller reg n with
    | some e =>
      exact Or.inr ⟨n, by simp [registerNames, hfind, _marshallPanic,
        throw, throwThe, MonadExceptOf.throw]⟩
    | none =>
      simp only [registerNames, hfind]
      exact ih _

/-- With an entry in the table or a name to register the table is resized to at least one byte,
and the registration is the loop over the names. -/
theorem registerMarshaller_eq {reg : List marshaller} {names : List String}
    (h : reg ≠ [] ∨ names ≠ []) (size : Nat)
    (m : MarshallValue → Pointer → Res (Option JsonValue))
    (u : UnmarshallValue → JsonValue → World → Res (Pointer × World))
    (f : FreeStruct → FreeArray → Pointer → Bool → World → Res World) :
    _registerMarshaller reg names size m u f = registerNames reg names size m u f := by
  have hlen : sizeofMarshaller * (reg.length + names.length) ≠ 0 := by
    have h0 : reg.length + names.length ≠ 0 := by
      rcases h with h | h
      · have := List.length_pos.2 h
        omega
      · have := List.length_pos.2 h
        omega
    simp only [sizeofMarshaller]
    omega
  simp only [_registerMarshaller, realloc, if_neg hlen]
  rfl

/-- With no entry in the table and no name the table is resized to zero bytes. -/
theorem registerMarshaller_empty (size : Nat)
    (m : MarshallValue → Pointer → Res (Option JsonValue))
    (u : UnmarshallValue → JsonValue → World → Res (Pointer × World))
    (f : FreeStruct → FreeArray → Pointer → Bool → World → Res World) :
    _registerMarshaller [] [] size m u f = .error .undefined := rfl

/-- A registration returns normally exactly when the table is resized to at least one byte and
the names are new and pairwise distinct, and then it appends one entry per name. -/
theorem registerMarshaller_ok_iff (names : List String) (size : Nat)
    (m : MarshallValue → Pointer → Res (Option JsonValue))
    (u : UnmarshallValue → JsonValue → World → Res (Pointer × World))
    (f : FreeStruct → FreeArray → Pointer → Bool → World → Res World)
    (reg reg1 : List marshaller) :
    _registerMarshaller reg names size m u f = .ok reg1 ↔
      ((reg ≠ [] ∨ names ≠ []) ∧ names.Nodup ∧ (∀ n ∈ names, findMarshaller reg n = none) ∧
        reg1 = reg ++ newEntries names size m u f) := by
  by_cases h : reg ≠ [] ∨ names ≠ []
  · rw [registerMarshaller_eq h, registerNames_ok_iff]
    exact ⟨fun hr => ⟨h, hr⟩, fun hr => hr.2⟩
  · push_neg at h
    obtain ⟨rfl, rfl⟩ := h
    rw [registerMarshaller_empty]
    constructor
    · intro hc; cases hc
    · rintro ⟨hc | hc, _⟩ <;> exact absurd rfl hc

theorem registered_nodup {reg : List marshaller} (h : Registered reg) :
    (reg.map (fun e => e.name)).Nodup := by
  induction h with
  | empty => simp
  | step names size m u f _ hok ih =>
    obtain ⟨_, hnd, hnew, rfl⟩ := (registerMarshaller_ok_iff names size m u f _ _).1 hok
    have hmap : (newEntries names size m u f).map (fun e => e.name) = names := by
      simp [newEntries, Function.comp_def]
    rw [List.map_append, hmap, List.nodup_append]
    refine ⟨ih, hnd, ?_⟩
    intro x hx hx2
    obtain ⟨e, he, rfl⟩ := List.mem_map.1 hx
    exact (findMarshaller_eq_none.1 (hnew _ hx2)) e he rfl

/-- C3. Null propagation: for every type name, registry and fuel, marshalling the null pointer
gives JSON null and unmarshalling JSON null gives the null pointer and leaves the allocator
untouched; the type is not looked at. -/
theorem C3_null_propagation (fp : FloatOps) (reg : List marshaller) (fuel : Nat)
    (type : String) (w : World) :
    _json_marshall_value fp reg fuel type .null = .ok (some .null) ∧
    _json_unmarshall_value fp reg fuel type .null w = .ok (.null, w) := by
  constructor
  · cases fuel <;> rfl
  · cases fuel <;> rfl

/-- C4, as stated, fails: with a type name that is neither primitive nor registered, marshalling
the null pointer, unmarshalling JSON null and freeing the null pointer all return normally. -/
theorem C4_counterexample :
    isPrimitiveKind "Nope" = false ∧ findMarshaller [] "Nope" = none ∧
    _json_marshall_value idFloat [] 1 "Nope" .null = .ok (some .null) ∧
    _json_unmarshall_value idFloat [] 1 "Nope" .null World.init = .ok (.null, World.init) ∧
    _json_free_struct [] 1 "Nope" .null true World.init = .ok World.init := by
  refine ⟨by decide, rfl, rfl, rfl, rfl⟩

/-- C4, amended. Unknown type: with a type name that is not one of the nine primitive kinds and
is absent from the registry, marshalling a non-null pointer, unmarshalling a non-null JSON value
and freeing a non-null pointer all end in the panic "unknown type" naming that type. -/
theorem C4_unknown_type (fp : FloatOps) (reg : List marshaller) (fuel : Nat) (type : String)
    (value : Pointer) (json : JsonValue) (this : Bool) (w : World)
    (hprim : isPrimitiveKind type = false) (habsent : findMarshaller reg type = none)
    (hvalue : value ≠ .null) (hjson : json ≠ .null) :
    _json_marshall_value fp reg fuel type value = .error (.panic type "unknown type") ∧
    _json_unmarshall_value fp reg fuel type json w = .error (.panic type "unknown type") ∧
    _json_free_struct reg fuel type value this w = .error (.panic type "unknown type") := by
  have hp := hprim
  simp only [isPrimitiveKind, Bool.or_eq_false_iff, decide_eq_false_iff_not] at hprim
  obtain ⟨⟨⟨⟨⟨⟨⟨⟨h1, h2⟩, h3⟩, h4⟩, h5⟩, h6⟩, h7⟩, h8⟩, h9⟩ := hprim
  have hnull : value.isNull = false := by
    cases value with
    | null => exact absurd rfl hvalue
    | alloc a v => rfl
    | inner v => rfl
  have hjnull : json.type ≠ .JSON_NULL := by
    cases json <;> first | exact absurd rfl hjson | (intro h; cases h)
  have hm : ∀ call, marshallValueBody fp reg call type value
      = .error (.panic type "unknown type") := by
    intro call
    simp [marshallValueBody, hnull, h1, h2, h3, h4, h5, h6, h7, h8, h9, habsent, _marshallPanic]
    rfl
  have hu : ∀ call, unmarshallValueBody fp reg call type json w
      = .error (.panic type "unknown type") := by
    intro call
    simp [unmarshallValueBody, hjnull, h1, h2, h3, h4, h5, h6, h7, h8, h9, habsent,
      _marshallPanic]
    rfl
  have hf : ∀ call, freeStructBody reg call type value this w
      = .error (.panic type "unknown type") := by
    intro call
    simp [freeStructBody, hnull, hp, habsent, _marshallPanic]
    rfl
  refine ⟨?_, ?_, ?_⟩
  · cases fuel <;> simp only [_json_marshall_value] <;> exact hm _
  · cases fuel <;> simp only [_json_unmarshall_value] <;> exact hu _
  · cases fuel <;> simp only [_json_free_struct] <;> exact hf _

/-- Witness of C4 (amended) on the empty registry. -/
theorem C4_unknown_type_witness :
    _json_marshall_value idFloat [] 0 "Nope" (.inner (.int 1))
      = .error (.panic "Nope" "unknown type") ∧
    _json_unmarshall_value idFloat [] 0 "Nope" (.long 1) World.init
      = .error (.panic "Nope" "unknown type") ∧
    _json_free_struct [] 0 "Nope" (.inner (.int 1)) true World.init
      = .error (.panic "Nope" "unknown type") :=
  C4_unknown_type idFloat [] 0 "Nope" (.inner (.int 1)) (.long 1) true World.init
    (by decide) rfl (by intro h; cases h) (by intro h; cases h)

/-- The loop over the names ends in the panic "marshaller for name already present" exactly
when a name is already in the registry or is repeated in the list, and returns normally exactly
when neither is the case. -/
theorem registerNames_cases (reg : List marshaller) (names : List String) (size : Nat)
    (m : MarshallValue → Pointer → Res (Option JsonValue))
    (u : UnmarshallValue → JsonValue → World → Res (Pointer × World))
    (f : FreeStruct → FreeArray → Pointer → Bool → World → Res World) :
    ((∃ n, registerNames reg names size m u f
        = .error (.panic n "marshaller for name already present")) ↔
      ((∃ n ∈ names, ∃ e ∈ reg, e.name = n) ∨ ¬ names.Nodup)) ∧
    ((∃ reg1, registerNames reg names size m u f = .ok reg1) ↔
      ¬ ((∃ n ∈ names, ∃ e ∈ reg, e.name = n) ∨ ¬ names.Nodup)) := by
  have hok : (∃ reg1, registerNames reg names size m u f = .ok reg1) ↔
      ¬ ((∃ n ∈ names, ∃ e ∈ reg, e.name = n) ∨ ¬ names.Nodup) := by
    constructor
    · rintro ⟨reg1, h⟩
      obtain ⟨hnd, hnew, _⟩ := (registerNames_ok_iff names size m u f _ _).1 h
      rintro (⟨n, hn, e, he, hen⟩ | hdup)
      · exact (findMarshaller_eq_none.1 (hnew n hn)) e he hen
      · exact hdup hnd
    · intro h
      push_neg at h
      refine ⟨_, (registerNames_ok_iff names size m u f _ _).2 ⟨h.2, ?_, rfl⟩⟩
      intro n hn
      exact findMarshaller_eq_none.2 (fun e he => h.1 n hn e he)
  refine ⟨?_, hok⟩
  constructor
  · rintro ⟨n, h⟩
    by_contra hc
    obtain ⟨reg1, h1⟩ := hok.2 hc
    rw [h1] at h
    cases h
  · intro h
    rcases registerNames_total names size m u f reg with ⟨reg1, h1⟩ | h1
    · exact absurd h (hok.1 ⟨reg1, h1⟩)
    · exact h1

/-- C5, as stated, fails: a registration of no names in a registry without entries names no
duplicate, yet it does not return normally.  The table is resized to zero bytes, and whether
`realloc` then returns NULL is not fixed: with glibc it does as soon as the table is a block,
that is from the second such call of the process on, and the call ends in
`_marshallPanic(names[0], NULL)`. -/
theorem C5_counterexample :
    ¬ ((∃ n ∈ ([] : List String), ∃ e ∈ ([] : List marshaller), e.name = n) ∨
        ¬ ([] : List String).Nodup) ∧
    ¬ (∃ reg1, _registerMarshaller [] [] 8 (generateMarshallFunction pointInfo)
        (generateUnmarshallFunction pointInfo) (generateFreeFunction pointInfo) = .ok reg1) := by
  constructor
  · simp
  · rintro ⟨reg1, h⟩
    cases h

/-- C5, amended. Duplicate registration: `_registerMarshaller` ends in the panic "marshaller for
name already present" if and only if some name of the list is already the name of a registry
entry or the list repeats a name; and when the list has a name or the registry has an entry, so
that the table is resized to at least one byte, it returns normally if and only if neither is
the case. -/
theorem C5_duplicate_registration (reg : List marshaller) (names : List String) (size : Nat)
    (m : MarshallValue → Pointer → Res (Option JsonValue))
    (u : UnmarshallValue → JsonValue → World → Res (Pointer × World))
    (f : FreeStruct → FreeArray → Pointer → Bool → World → Res World) :
    ((∃ n, _registerMarshaller reg names size m u f
        = .error (.panic n "marshaller for name already present")) ↔
      ((∃ n ∈ names, ∃ e ∈ reg, e.name = n) ∨ ¬ names.Nodup)) ∧
    ((reg ≠ [] ∨ names ≠ []) →
      ((∃ reg1, _registerMarshaller reg names size m u f = .ok reg1) ↔
        ¬ ((∃ n ∈ names, ∃ e ∈ reg, e.name = n) ∨ ¬ names.Nodup))) := by
  by_cases h : reg ≠ [] ∨ names ≠ []
  · rw [registerMarshaller_eq h]
    exact ⟨(registerNames_cases reg names size m u f).1,
      fun _ => (registerNames_cases reg names size m u f).2⟩
  · refine ⟨?_, fun hc => absurd hc h⟩
    push_neg at h
    obtain ⟨rfl, rfl⟩ := h
    rw [registerMarshaller_empty]
    constructor
    · rintro ⟨n, hn⟩
      cases hn
    · rintro (⟨n, hn, _⟩ | hdup)
      · exact absurd hn (List.not_mem_nil _)
      · exact absurd List.nodup_nil hdup

/-- Witness of C5 (amended): registering `Point` in the empty registry returns normally. -/
theorem C5_duplicate_registration_witness :
    ∃ reg1, _registerMarshaller [] ["Point"] 8 (generateMarshallFunction pointInfo)
      (generateUnmarshallFunction pointInfo) (generateFreeFunction pointInfo) = .ok reg1 :=
  ((C5_duplicate_registration [] ["Point"] 8 (generateMarshallFunction pointInfo)
      (generateUnmarshallFunction pointInfo) (generateFreeFunction pointInfo)).2
    (Or.inr (List.cons_ne_nil _ _))).2 (by simp)

/-- C6. Registry invariant: in a registry reached from the empty registry by registrations that
returned normally no two entries have the same name, and a further registration that returns
normally leaves every entry unchanged at its position. -/
theorem C6_registry_invariant (reg : List marshaller) (h : Registered reg) :
    (reg.map (fun e => e.name)).Nodup ∧
    ∀ (names : List String) (size : Nat)
      (m : MarshallValue → Pointer → Res (Option JsonValue))
      (u : UnmarshallValue → JsonValue → World → Res (Pointer × World))
      (f : FreeStruct → FreeArray → Pointer → Bool → World → Res World)
      (reg1 : List marshaller),
      _registerMarshaller reg names size m u f = .ok reg1 →
        (reg1.map (fun e => e.name)).Nodup ∧ reg.length ≤ reg1.length ∧
        ∀ (i : Nat) (e : marshaller), reg[i]? = some e → reg1[i]? = some e := by
  refine ⟨registered_nodup h, ?_⟩
  intro names size m u f reg1 hok
  refine ⟨registered_nodup (Registered.step names size m u f h hok), ?_⟩
  obtain ⟨_, _, _, rfl⟩ := (registerMarshaller_ok_iff names size m u f _ _).1 hok
  refine ⟨by simp, ?_⟩
  intro i e hi
  have hlt : i < reg.length := by
    by_contra hc
    rw [List.getElem?_eq_none (not_lt.1 hc)] at hi
    cases hi
  rw [List.getElem?_append_left hlt]
  exact hi

/-- C7. Lookup after register: after `_registerMarshaller` returned normally, every registered
name is found with the registered size and functions, every other name is found exactly as
before, and a lookup reports not-found exactly when no entry has that name. -/
theorem C7_lookup_after_register (reg : List marshaller) (names : List String) (size : Nat)
    (m : MarshallValue → Pointer → Res (Option JsonValue))
    (u : UnmarshallValue → JsonValue → World → Res (Pointer × World))
    (f : FreeStruct → FreeArray → Pointer → Bool → World → Res World)
    (reg1 : List marshaller)
    (h : _registerMarshaller reg names size m u f = .ok reg1) :
    (∀ n ∈ names, findMarshaller reg1 n =
      some { name := n, size := size, marshaller := m, unmarshaller := u, free := f }) ∧
    (∀ x, x ∉ names → findMarshaller reg1 x = findMarshaller reg x) ∧
    (∀ x, findMarshaller reg1 x = none ↔ ∀ e ∈ reg1, e.name ≠ x) := by
  obtain ⟨_, _, hnew, rfl⟩ := (registerMarshaller_ok_iff names size m u f _ _).1 h
  refine ⟨?_, ?_, fun x => findMarshaller_eq_none⟩
  · intro n hn
    rw [findMarshaller_append_none (hnew n hn), findMarshaller_newEntries, if_pos hn]
  · intro x hx
    cases hreg : findMarshaller reg x with
    | some e => exact findMarshaller_append_some hreg
    | none => rw [findMarshaller_append_none hreg, findMarshaller_newEntries, if_neg hx]

/-- Witness of C6 on the registry of the records `Point` and `Line`. -/
theorem C6_registry_invariant_witness :
    Registered exampleRegistry ∧ (exampleRegistry.map (fun e => e.name)).Nodup :=
  have h : Registered exampleRegistry :=
    Registered.step ["Line"] 8 (generateMarshallFunction lineInfo)
      (generateUnmarshallFunction lineInfo) (generateFreeFunction lineInfo)
      (Registered.step ["Point"] 8 (generateMarshallFunction pointInfo)
        (generateUnmarshallFunction pointInfo) (generateFreeFunction pointInfo)
        Registered.empty rfl) rfl
  ⟨h, (C6_registry_invariant exampleRegistry h).1⟩

/-- Witness of C7: registering `Point` in the empty registry. -/
theorem C7_lookup_after_register_witness :
    _registerMarshaller [] ["Point"] 8 (generateMarshallFunction pointInfo)
      (generateUnmarshallFunction pointInfo) (generateFreeFunction pointInfo)
      = .ok (newEntries ["Point"] 8 (generateMarshallFunction pointInfo)
          (generateUnmarshallFunction pointInfo) (generateFreeFunction pointInfo)) ∧
    findMarshaller (newEntries ["Point"] 8 (generateMarshallFunction pointInfo)
        (generateUnmarshallFunction pointInfo) (generateFreeFunction pointInfo)) "Point" =
      some { name := "Point", size := 8, marshaller := generateMarshallFunction pointInfo,
             unmarshaller := generateUnmarshallFunction pointInfo,
             free := generateFreeFunction pointInfo } :=
  ⟨rfl, (C7_lookup_after_register [] ["Point"] 8 (generateMarshallFunction pointInfo)
      (generateUnmarshallFunction pointInfo) (generateFreeFunction pointInfo) _ rfl).1
      "Point" (List.mem_singleton.2 rfl)⟩

theorem registerTwice_ok_iff (reg : List marshaller)
    (names1 : List String) (size1 : Nat)
    (m1 : MarshallValue → Pointer → Res (Option JsonValue))
    (u1 : UnmarshallValue → JsonValue → World → Res (Pointer × World))
    (f1 : FreeStruct → FreeArray → Pointer → Bool → World → Res World)
    (names2 : List String) (size2 : Nat)
    (m2 : MarshallValue → Pointer → Res (Option JsonValue))
    (u2 : UnmarshallValue → JsonValue → World → Res (Pointer × World))
    (f2 : FreeStruct → FreeArray → Pointer → Bool → World → Res World)
    (hdisj : ∀ n ∈ names1, n ∉ names2)
    (h1 : ∀ n ∈ names1, findMarshaller reg n = none)
    (h2 : ∀ n ∈ names2, findMarshaller reg n = none) (r : List marshaller) :
    registerTwice reg names1 size1 m1 u1 f1 names2 size2 m2 u2 f2 = .ok r ↔
      ((reg ≠ [] ∨ names1 ≠ []) ∧ names1.Nodup ∧ names2.Nodup ∧
        r = reg ++ newEntries names1 size1 m1 u1 f1 ++ newEntries names2 size2 m2 u2 f2) := by
  have hnew : ∀ n ∈ names2,
      findMarshaller (reg ++ newEntries names1 size1 m1 u1 f1) n = none := by
    intro n hn
    rw [findMarshaller_append_none (h2 n hn), findMarshaller_newEntries,
      if_neg (fun hc => hdisj n hc hn)]
  unfold registerTwice
  constructor
  · intro h
    cases hr : _registerMarshaller reg names1 size1 m1 u1 f1 with
    | error e => rw [hr] at h; cases h
    | ok r1 =>
      rw [hr] at h
      obtain ⟨hne, hnd1, _, rfl⟩ := (registerMarshaller_ok_iff names1 size1 m1 u1 f1 _ _).1 hr
      obtain ⟨_, hnd2, _, rfl⟩ := (registerMarshaller_ok_iff names2 size2 m2 u2 f2 _ _).1 h
      exact ⟨hne, hnd1, hnd2, rfl⟩
  · rintro ⟨hne, hnd1, hnd2, rfl⟩
    rw [(registerMarshaller_ok_iff names1 size1 m1 u1 f1 _ _).2 ⟨hne, hnd1, h1, rfl⟩]
    have hne1 : reg ++ newEntries names1 size1 m1 u1 f1 ≠ [] ∨ names2 ≠ [] := by
      rcases hne with hr | hn
      · exact Or.inl (fun hc => hr (List.append_eq_nil.1 hc).1)
      · refine Or.inl (fun hc => hn ?_)
        have := (List.append_eq_nil.1 hc).2
        simpa [newEntries] using this
    exact (registerMarshaller_ok_iff names2 size2 m2 u2 f2 _ _).2 ⟨hne1, hnd2, hnew, rfl⟩

/-- C8. Registration order independence: for two registrations whose name lists are disjoint
from each other and from the registry, the two orders, when both return normally, give
registries with the same lookup result for every name; and when the registry has an entry or
each list has a name, one order returns normally exactly when the other does. -/
theorem C8_registration_order (reg : List marshaller)
    (names1 : List String) (size1 : Nat)
    (m1 : MarshallValue → Pointer → Res (Option JsonValue))
    (u1 : UnmarshallValue → JsonValue → World → Res (Pointer × World))
    (f1 : FreeStruct → FreeArray → Pointer → Bool → World → Res World)
    (names2 : List String) (size2 : Nat)
    (m2 : MarshallValue → Pointer → Res (Option JsonValue))
    (u2 : UnmarshallValue → JsonValue → World → Res (Pointer × World))
    (f2 : FreeStruct → FreeArray → Pointer → Bool → World → Res World)
    (hdisj : ∀ n ∈ names1, n ∉ names2)
    (h1 : ∀ e ∈ reg, e.name ∉ names1)
    (h2 : ∀ e ∈ reg, e.name ∉ names2) :
    ((reg ≠ [] ∨ (names1 ≠ [] ∧ names2 ≠ [])) →
      ((∃ rA, registerTwice reg names1 size1 m1 u1 f1 names2 size2 m2 u2 f2 = .ok rA) ↔
        (∃ rB, registerTwice reg names2 size2 m2 u2 f2 names1 size1 m1 u1 f1 = .ok rB))) ∧
    ∀ rA rB, registerTwice reg names1 size1 m1 u1 f1 names2 size2 m2 u2 f2 = .ok rA →
      registerTwice reg names2 size2 m2 u2 f2 names1 size1 m1 u1 f1 = .ok rB →
      ∀ x, findMarshaller rA x = findMarshaller rB x := by
  have hdisj2 : ∀ n ∈ names2, n ∉ names1 := fun n hn hc => hdisj n hc hn
  have g1 : ∀ n ∈ names1, findMarshaller reg n = none :=
    fun n hn => findMarshaller_eq_none.2 (fun e he hen => h1 e he (hen ▸ hn))
  have g2 : ∀ n ∈ names2, findMarshaller reg n = none :=
    fun n hn => findMarshaller_eq_none.2 (fun e he hen => h2 e he (hen ▸ hn))
  have hA := registerTwice_ok_iff reg names1 size1 m1 u1 f1 names2 size2 m2 u2 f2 hdisj g1 g2
  have hB := registerTwice_ok_iff reg names2 size2 m2 u2 f2 names1 size1 m1 u1 f1 hdisj2 g2 g1
  constructor
  · intro hne
    have hne1 : reg ≠ [] ∨ names1 ≠ [] := hne.imp id (fun hc => hc.1)
    have hne2 : reg ≠ [] ∨ names2 ≠ [] := hne.imp id (fun hc => hc.2)
    constructor
    · rintro ⟨rA, h⟩
      obtain ⟨_, a, b, _⟩ := (hA rA).1 h
      exact ⟨_, (hB _).2 ⟨hne2, b, a, rfl⟩⟩
    · rintro ⟨rB, h⟩
      obtain ⟨_, a, b, _⟩ := (hB rB).1 h
      exact ⟨_, (hA _).2 ⟨hne1, b, a, rfl⟩⟩
  · intro rA rB hrA hrB x
    obtain ⟨_, _, _, rfl⟩ := (hA rA).1 hrA
    obtain ⟨_, _, _, rfl⟩ := (hB rB).1 hrB
    rw [List.append_assoc, List.append_assoc]
    cases hreg : findMarshaller reg x with
    | some e =>
      rw [findMarshaller_append_some hreg, findMarshaller_append_some hreg]
    | none =>
      rw [findMarshaller_append_none hreg, findMarshaller_append_none hreg]
      by_cases hx1 : x ∈ names1
      · have e1 := findMarshaller_newEntries names1 size1 m1 u1 f1 x
        rw [if_pos hx1] at e1
        have e2 : findMarshaller (newEntries names2 size2 m2 u2 f2) x = none := by
          rw [findMarshaller_newEntries, if_neg (hdisj x hx1)]
        rw [findMarshaller_append_some e1, findMarshaller_append_none e2, e1]
      · have e1 : findMarshaller (newEntries names1 size1 m1 u1 f1) x = none := by
          rw [findMarshaller_newEntries, if_neg hx1]
        rw [findMarshaller_append_none e1]
        cases e2 : findMarshaller (newEntries names2 size2 m2 u2 f2) x with
        | some e => rw [findMarshaller_append_some e2]
        | none => rw [findMarshaller_append_none e2, e1]

/-- Witness of C8: registering `Point` and `Line` in either order in the empty registry. -/
theorem C8_registration_order_witness :
    findMarshaller
        (newEntries ["Point"] 8 (generateMarshallFunction pointInfo)
            (generateUnmarshallFunction pointInfo) (generateFreeFunction pointInfo) ++
          newEntries ["Line"] 16 (generateMarshallFunction lineInfo)
            (generateUnmarshallFunction lineInfo) (generateFreeFunction lineInfo)) "Line" =
      findMarshaller
        (newEntries ["Line"] 16 (generateMarshallFunction lineInfo)
            (generateUnmarshallFunction lineInfo) (generateFreeFunction lineInfo) ++
          newEntries ["Point"] 8 (generateMarshallFunction pointInfo)
            (generateUnmarshallFunction pointInfo) (generateFreeFunction pointInfo)) "Line" :=
  (C8_registration_order [] ["Point"] 8 (generateMarshallFunction pointInfo)
      (generateUnmarshallFunction pointInfo) (generateFreeFunction pointInfo)
      ["Line"] 16 (generateMarshallFunction lineInfo)
      (generateUnmarshallFunction lineInfo) (generateFreeFunction lineInfo)
      (by decide) (by intro e he; cases he) (by intro e he; cases he)).2 _ _ rfl rfl "Line"

/-- Evaluation for C8: with no entry in the registry, registering no names and then `Point`
resizes the table to zero bytes first, while registering `Point` and then no names returns. -/
theorem example_empty_names_order :
    registerTwice [] [] 8 (generateMarshallFunction pointInfo)
        (generateUnmarshallFunction pointInfo) (generateFreeFunction pointInfo)
        ["Point"] 8 (generateMarshallFunction pointInfo)
        (generateUnmarshallFunction pointInfo) (generateFreeFunction pointInfo)
      = .error .undefined ∧
    registerTwice [] ["Point"] 8 (generateMarshallFunction pointInfo)
        (generateUnmarshallFunction pointInfo) (generateFreeFunction pointInfo)
        [] 8 (generateMarshallFunction pointInfo)
        (generateUnmarshallFunction pointInfo) (generateFreeFunction pointInfo)
      = .ok (newEntries ["Point"] 8 (generateMarshallFunction pointInfo)
          (generateUnmarshallFunction pointInfo) (generateFreeFunction pointInfo)) :=
  ⟨rfl, rfl⟩

/-! ### Primitive codecs -/

/-- C9, as stated, fails: the integer kinds reject a JSON real; here `int` returns the failure
marker and allocates nothing. -/
theorem C9_counterexample :
    _json_unmarshall_value idFloat [] 0 "int" (.double 5) World.init
      = .ok (.null, World.init) := by
  rfl

/-- C9, amended. Numeric variant acceptance: the integer kinds (char, short, int, long, long
long) succeed on a JSON integer and return the failure marker for every other variant, a JSON
real included; float and double succeed on a JSON integer and on a JSON real, the real being
narrowed to the target width, and return the failure marker for every other variant. -/
theorem C9_numeric_variants (fp : FloatOps) (reg : List marshaller) (fuel : Nat) (w : World) :
    (∀ type ∈ ["char", "short", "int", "long", "long long"],
      (∀ n, ∃ v, _json_unmarshall_value fp reg fuel type (.long n) w
          = .ok (.alloc w.next v, (malloc w).2)) ∧
      (∀ json, json.type ≠ .JSON_LONG →
        _json_unmarshall_value fp reg fuel type json w = .ok (.null, w))) ∧
    (∀ n, _json_unmarshall_value fp reg fuel "float" (.long n) w
        = .ok (.alloc w.next (.float (fp.long_to_float n)), (malloc w).2)) ∧
    (∀ x, _json_unmarshall_value fp reg fuel "float" (.double x) w
        = .ok (.alloc w.next (.float (fp.double_to_float x)), (malloc w).2)) ∧
    (∀ n, _json_unmarshall_value fp reg fuel "double" (.long n) w
        = .ok (.alloc w.next (.double (fp.long_to_double n)), (malloc w).2)) ∧
    (∀ x, _json_unmarshall_value fp reg fuel "double" (.double x) w
        = .ok (.alloc w.next (.double x), (malloc w).2)) ∧
    (∀ type ∈ ["float", "double"], ∀ json, json.type ≠ .JSON_LONG → json.type ≠ .JSON_DOUBLE →
        _json_unmarshall_value fp reg fuel type json w = .ok (.null, w)) := by
  refine ⟨?_, ?_, ?_, ?_, ?_, ?_⟩
  · intro type ht
    simp only [List.mem_cons, List.mem_singleton, List.not_mem_nil, or_false] at ht
    constructor
    · intro n
      rcases ht with rfl | rfl | rfl | rfl | rfl <;>
        exact ⟨_, by cases fuel <;> rfl⟩
    · intro json hj
      rcases ht with rfl | rfl | rfl | rfl | rfl <;> cases json <;>
        first
          | exact absurd rfl hj
          | (cases fuel <;> rfl)
  · intro n; cases fuel <;> rfl
  · intro x; cases fuel <;> rfl
  · intro n; cases fuel <;> rfl
  · intro x; cases fuel <;> rfl
  · intro type ht json h1 h2
    simp only [List.mem_cons, List.mem_singleton, List.not_mem_nil, or_false] at ht
    rcases ht with rfl | rfl <;> cases json <;>
      first
        | exact absurd rfl h1
        | exact absurd rfl h2
        | (cases fuel <;> rfl)

/-! ### Arrays -/

theorem unmarshallElements_shape (uv : UnmarshallValue) (type : String) :
    ∀ (entries : List JsonValue),
      (∀ e ∈ entries, ∀ w0, ∃ r, uv type e w0 = .ok r) →
      ∀ w, ∃ ps w1, unmarshallElements uv type entries w = .ok (ps, w1) ∧
        ps.length = entries.length ∧
        ∀ (i : Nat) (e : JsonValue), entries[i]? = some e →
          ∃ q wi wi1, ps[i]? = some q ∧ uv type e wi = .ok (q, wi1) := by
  intro entries
  induction entries with
  | nil =>
    intro _ w
    exact ⟨[], w, rfl, rfl, fun i e h => by simp at h⟩
  | cons e rest ih =>
    intro hret w
    obtain ⟨⟨q, w1⟩, hq⟩ := hret e (List.mem_cons_self _ _) w
    obtain ⟨ps, w2, hps, hlen, hslots⟩ :=
      ih (fun x hx => hret x (List.mem_cons_of_mem _ hx)) w1
    refine ⟨q :: ps, w2, ?_, by simp [hlen], ?_⟩
    · simp only [unmarshallElements, hq, hps, bind, Except.bind, pure, Except.pure]
    · intro i x hx
      cases i with
      | zero =>
        simp only [List.getElem?_cons_zero, Option.some.injEq] at hx
        subst hx
        exact ⟨q, w, w1, by simp, hq⟩
      | succ j =>
        simp only [List.getElem?_cons_succ] at hx
        obtain ⟨q1, wi, wi1, h1, h2⟩ := hslots j x hx
        exact ⟨q1, wi, wi1, by simpa using h1, h2⟩

theorem unmarshallElements_of_ok (uv : UnmarshallValue) (type : String) :
    ∀ (entries : List JsonValue) (w : World) (ps : List Pointer) (w1 : World),
      unmarshallElements uv type entries w = .ok (ps, w1) →
      ps.length = entries.length ∧
      ∀ (i : Nat) (e : JsonValue), entries[i]? = some e →
        ∃ q wi wi1, ps[i]? = some q ∧ uv type e wi = .ok (q, wi1) := by
  intro entries
  induction entries with
  | nil =>
    intro w ps w1 h
    cases h
    exact ⟨rfl, fun i e h => by simp at h⟩
  | cons e rest ih =>
    intro w ps w1 h
    cases hq : uv type e w with
    | error err => simp [unmarshallElements, hq, bind, Except.bind] at h
    | ok r =>
      obtain ⟨q, w2⟩ := r
      cases hr : unmarshallElements uv type rest w2 with
      | error err => simp [unmarshallElements, hq, hr, bind, Except.bind] at h
      | ok r2 =>
        obtain ⟨qs, w3⟩ := r2
        simp only [unmarshallElements, hq, hr, bind, Except.bind, pure, Except.pure,
          Except.ok.injEq, Prod.mk.injEq] at h
        obtain ⟨rfl, rfl⟩ := h
        obtain ⟨hlen, hslots⟩ := ih w2 qs w3 hr
        refine ⟨by simp [hlen], ?_⟩
        intro i x hx
        cases i with
        | zero =>
          simp only [List.getElem?_cons_zero, Option.some.injEq] at hx
          subst hx
          exact ⟨q, w, w2, by simp, hq⟩
        | succ k =>
          simp only [List.getElem?_cons_succ] at hx
          obtain ⟨q1, wi, wi1, h1, h2⟩ := hslots k x hx
          exact ⟨q1, wi, wi1, by simpa using h1, h2⟩

/-- C10. The function `_json_unmarshall_array_value`: for every type, a JSON value that is not an
array gives the failure marker and allocates nothing; for a JSON array of N entries the call
returns whenever the entry unmarshals return, and whenever it returns the result is a new block
of exactly N+1 slots where slot i is the result of `_json_unmarshall_value` on entry i and slot N
is null. -/
theorem C10_unmarshall_array (fp : FloatOps) (reg : List marshaller) (fuel : Nat)
    (type : String) :
    (∀ value w, value.type ≠ .JSON_ARRAY →
      _json_unmarshall_array_value (_json_unmarshall_value fp reg fuel) type value w
        = .ok (.null, w)) ∧
    (∀ entries w,
      (∀ e ∈ entries, ∀ w0, ∃ r, _json_unmarshall_value fp reg fuel type e w0 = .ok r) →
      ∃ p w1,
        _json_unmarshall_array_value (_json_unmarshall_value fp reg fuel) type (.array entries) w
          = .ok (p, w1)) ∧
    (∀ entries w p w1,
      _json_unmarshall_array_value (_json_unmarshall_value fp reg fuel) type (.array entries) w
        = .ok (p, w1) →
      ∃ ps, p = .alloc w.next (.slots ps) ∧
        ps.length = entries.length + 1 ∧
        ps[entries.length]? = some .null ∧
        ∀ (i : Nat) (e : JsonValue), entries[i]? = some e →
          ∃ q wi wi1, ps[i]? = some q ∧
            _json_unmarshall_value fp reg fuel type e wi = .ok (q, wi1)) := by
  refine ⟨?_, ?_, ?_⟩
  · intro value w hv
    cases value <;> first | exact absurd rfl hv | rfl
  · intro entries w hret
    obtain ⟨ps, w1, hps, _, _⟩ :=
      unmarshallElements_shape (_json_unmarshall_value fp reg fuel) type entries hret (malloc w).2
    refine ⟨.alloc w.next (.slots (ps ++ [.null])), w1, ?_⟩
    simp only [malloc] at hps
    simp only [_json_unmarshall_array_value, malloc, hps, bind, Except.bind, pure, Except.pure]
  · intro entries w p w1 h
    cases hr : unmarshallElements (_json_unmarshall_value fp reg fuel) type entries
        (malloc w).2 with
    | error err =>
      simp only [malloc] at hr
      simp [_json_unmarshall_array_value, malloc, hr, bind, Except.bind] at h
    | ok r =>
      obtain ⟨ps, w2⟩ := r
      obtain ⟨hlen, hslots⟩ := unmarshallElements_of_ok _ type entries _ ps w2 hr
      simp only [malloc] at hr
      simp only [_json_unmarshall_array_value, malloc, hr, bind, Except.bind, pure,
        Except.pure, Except.ok.injEq, Prod.mk.injEq] at h
      obtain ⟨rfl, rfl⟩ := h
      refine ⟨ps ++ [.null], rfl, by simp [hlen], ?_, ?_⟩
      · rw [← hlen]; simp
      · intro i e he
        obtain ⟨q, wi, wi1, h1, h2⟩ := hslots i e he
        refine ⟨q, wi, wi1, ?_, h2⟩
        have hi : i < ps.length := by
          rw [hlen]
          by_contra hc
          rw [List.getElem?_eq_none (not_lt.1 hc)] at he
          cases he
        rw [List.getElem?_append_left hi]
        exact h1

/-! ### Round trip -/

theorem narrow_of_inRange_8 {n : Int} (h : inRange 8 n) : narrow 8 n = n := by
  simp only [inRange, narrow] at *
  norm_num at *
  omega

theorem narrow_of_inRange_16 {n : Int} (h : inRange 16 n) : narrow 16 n = n := by
  simp only [inRange, narrow] at *
  norm_num at *
  omega

theorem narrow_of_inRange_32 {n : Int} (h : inRange 32 n) : narrow 32 n = n := by
  simp only [inRange, narrow] at *
  norm_num at *
  omega

theorem narrow_of_inRange_64 {n : Int} (h : inRange 64 n) : narrow 64 n = n := by
  simp only [inRange, narrow] at *
  norm_num at *
  omega

theorem frame_refl (w : World) : Frame w w := ⟨le_refl _, fun _ _ => Iff.rfl⟩

theorem frame_trans {w w1 w2 : World} (h1 : Frame w w1) (h2 : Frame w1 w2) : Frame w w2 :=
  ⟨le_trans h1.1 h2.1, fun b hb =>
    (h2.2 b (lt_of_lt_of_le hb h1.1)).trans (h1.2 b hb)⟩

theorem frame_malloc (w : World) : Frame w (malloc w).2 := by
  refine ⟨Nat.le_succ _, fun b hb => ?_⟩
  simp only [malloc, List.mem_cons]
  constructor
  · rintro (h | h)
    · omega
    · exact h
  · exact Or.inr

theorem frame_errno (w : World) (e : Nat) : Frame w { w with errno := e } :=
  ⟨le_refl _, fun _ _ => Iff.rfl⟩

theorem frame_release {w w1 : World} {a : Nat} (hf : Frame w w1) (ha : w.next ≤ a)
    (hlive : a ∈ w1.live) : ∃ w2, w1.release a = .ok w2 ∧ Frame w w2 := by
  refine ⟨{ w1 with live := w1.live.erase a }, by simp [World.release, hlive]; rfl, hf.1, ?_⟩
  intro b hb
  have hne : b ≠ a := by omega
  simp only [List.mem_erase_of_ne hne]
  exact hf.2 b hb

theorem sameObj_of_primitive {fp : FloatOps} {type : String} {v : CVal}
    (h : TypedPrimitive fp type v) : SameObj v v := by
  cases v <;> first | exact h.elim | constructor

theorem returned_malloc (w : World) (v : CVal) : Returned w (.alloc w.next v) (malloc w).2 := by
  refine ⟨frame_malloc w, ?_, ?_⟩
  · intro v1 h
    cases h
  · intro a v1 h
    cases h
    exact ⟨le_refl _, by simp [malloc]⟩

theorem target_some {p : Pointer} {v : CVal} (h : p.target = some v) :
    p.isNull = false ∧ (p = .inner v ∨ ∃ a, p = .alloc a v) := by
  cases p with
  | null => cases h
  | alloc a x => cases h; exact ⟨rfl, Or.inr ⟨a, rfl⟩⟩
  | inner x => cases h; exact ⟨rfl, Or.inl rfl⟩

theorem primitive_round_trip (fp : FloatOps) (reg : List marshaller) (fuel : Nat)
    {type : String} {p : Pointer} {v : CVal} (hp : p.target = some v)
    (ht : TypedPrimitive fp type v) :
    ∃ j, _json_marshall_value fp reg fuel type p = .ok (some j) ∧
      ∀ w, _json_unmarshall_value fp reg fuel type j w
        = .ok (.alloc w.next v, (malloc w).2) := by
  obtain ⟨hn, hcase⟩ := target_some hp
  cases v with
  | char n =>
    obtain ⟨rfl, hr⟩ := ht
    refine ⟨.long n, ?_, fun w => ?_⟩
    · rcases hcase with rfl | ⟨a, rfl⟩ <;> cases fuel <;> rfl
    · have : _json_unmarshall_value fp reg fuel "char" (.long n) w
          = .ok (.alloc w.next (.char (narrow 8 n)), (malloc w).2) := by cases fuel <;> rfl
      rw [this, narrow_of_inRange_8 hr]
  | short n =>
    obtain ⟨rfl, hr⟩ := ht
    refine ⟨.long n, ?_, fun w => ?_⟩
    · rcases hcase with rfl | ⟨a, rfl⟩ <;> cases fuel <;> rfl
    · have : _json_unmarshall_value fp reg fuel "short" (.long n) w
          = .ok (.alloc w.next (.short (narrow 16 n)), (malloc w).2) := by cases fuel <;> rfl
      rw [this, narrow_of_inRange_16 hr]
  | int n =>
    obtain ⟨rfl, hr⟩ := ht
    refine ⟨.long n, ?_, fun w => ?_⟩
    · rcases hcase with rfl | ⟨a, rfl⟩ <;> cases fuel <;> rfl
    · have : _json_unmarshall_value fp reg fuel "int" (.long n) w
          = .ok (.alloc w.next (.int (narrow 32 n)), (malloc w).2) := by cases fuel <;> rfl
      rw [this, narrow_of_inRange_32 hr]
  | long n =>
    obtain ⟨rfl, hr⟩ := ht
    refine ⟨.long n, ?_, fun w => ?_⟩
    · rcases hcase with rfl | ⟨a, rfl⟩ <;> cases fuel <;> rfl
    · have : _json_unmarshall_value fp reg fuel "long" (.long n) w
          = .ok (.alloc w.next (.long (narrow 64 n)), (malloc w).2) := by cases fuel <;> rfl
      rw [this, narrow_of_inRange_64 hr]
  | llong n =>
    obtain ⟨rfl, hr⟩ := ht
    refine ⟨.long n, ?_, fun w => ?_⟩
    · rcases hcase with rfl | ⟨a, rfl⟩ <;> cases fuel <;> rfl
    · have : _json_unmarshall_value fp reg fuel "long long" (.long n) w
          = .ok (.alloc w.next (.llong (narrow 64 n)), (malloc w).2) := by cases fuel <;> rfl
      rw [this, narrow_of_inRange_64 hr]
  | float x =>
    obtain ⟨rfl, hr⟩ := ht
    refine ⟨.double (fp.float_to_double x), ?_, fun w => ?_⟩
    · rcases hcase with rfl | ⟨a, rfl⟩ <;> cases fuel <;> rfl
    · have : _json_unmarshall_value fp reg fuel "float" (.double (fp.float_to_double x)) w
          = .ok (.alloc w.next (.float (fp.double_to_float (fp.float_to_double x))),
              (malloc w).2) := by cases fuel <;> rfl
      rw [this, hr]
  | double x =>
    have ht1 : type = "double" := ht
    subst ht1
    refine ⟨.double x, ?_, fun w => ?_⟩
    · rcases hcase with rfl | ⟨a, rfl⟩ <;> cases fuel <;> rfl
    · cases fuel <;> rfl
  | bool b =>
    have ht1 : type = "bool" := ht
    subst ht1
    refine ⟨.bool b, ?_, fun w => ?_⟩
    · rcases hcase with rfl | ⟨a, rfl⟩ <;> cases fuel <;> rfl
    · cases fuel <;> rfl
  | str s =>
    have ht1 : type = "string" := ht
    subst ht1
    refine ⟨.string s, ?_, fun w => ?_⟩
    · rcases hcase with rfl | ⟨a, rfl⟩ <;> cases fuel <;> rfl
    · cases fuel <;> rfl
  | pointer q => exact ht.elim
  | struct ms => exact ht.elim
  | slots ps => exact ht.elim

theorem sentinelIndex_append (rest : List Pointer) :
    ∀ (elems : List Pointer), (∀ e ∈ elems, e ≠ .null) →
      sentinelIndex (elems ++ .null :: rest) = some elems.length ∧
      (elems ++ .null :: rest).take elems.length = elems := by
  intro elems
  induction elems with
  | nil => intro _; exact ⟨rfl, rfl⟩
  | cons e tl ih =>
    intro h
    obtain ⟨h1, h2⟩ := ih (fun x hx => h x (List.mem_cons_of_mem _ hx))
    have he := h e (List.mem_cons_self _ _)
    constructor
    · cases e with
      | null => exact absurd rfl he
      | alloc a v => simp [sentinelIndex, h1]
      | inner v => simp [sentinelIndex, h1]
    · simp [List.take, h2]

theorem samePointer_ne_null {p q : Pointer} (h : SamePointer p q) (hp : p ≠ .null) :
    q ≠ .null := by
  cases h with
  | null => exact absurd rfl hp
  | target _ hq _ =>
    intro hc
    subst hc
    cases hq

theorem elements_round_trip {T : String → CVal → Prop} {mv : MarshallValue}
    {uv : UnmarshallValue} (hrt : RoundTrips T mv uv) (type : String) :
    ∀ (elems : List Pointer), (∀ e ∈ elems, e ≠ .null ∧ TypedPointer T type e) →
      ∃ js, marshallElements mv type elems = .ok (some js) ∧
        ∀ w, ∃ qs w1, unmarshallElements uv type js w = .ok (qs, w1) ∧
          SameElems elems qs ∧ List.Forall₂ SamePointer elems qs ∧
          (∀ q ∈ qs, q ≠ .null) ∧ Frame w w1 := by
  intro elems
  induction elems with
  | nil =>
    intro _
    exact ⟨[], rfl, fun w =>
      ⟨[], w, rfl, .nil, .nil, fun q hq => absurd hq (List.not_mem_nil q), frame_refl w⟩⟩
  | cons e tl ih =>
    intro h
    obtain ⟨he, hte⟩ := h e (List.mem_cons_self _ _)
    obtain ⟨j, hm, hu⟩ := hrt type e hte
    obtain ⟨js, hms, hus⟩ := ih (fun x hx => h x (List.mem_cons_of_mem _ hx))
    refine ⟨j :: js, ?_, ?_⟩
    · simp only [marshallElements, hm, hms, bind, Except.bind, pure, Except.pure]
    · intro w
      obtain ⟨p1, w1, hp1, hsame, hret⟩ := hu w
      obtain ⟨qs, w2, hqs, hse, hfa, hnn, hfr⟩ := hus w1
      refine ⟨p1 :: qs, w2, ?_, .cons he hsame hse, .cons hsame hfa, ?_,
        frame_trans hret.1 hfr⟩
      · simp only [unmarshallElements, hp1, hqs, bind, Except.bind, pure, Except.pure]
      · intro q hq
        rcases List.mem_cons.1 hq with rfl | hq
        · exact samePointer_ne_null hsame he
        · exact hnn q hq

theorem array_round_trip {T : String → CVal → Prop} {mv : MarshallValue}
    {uv : UnmarshallValue} (hrt : RoundTrips T mv uv) {type : String} {p : Pointer}
    (h : TypedArray T type p) :
    ∃ j, _json_marshall_array_value mv type p = .ok (some j) ∧
      ∀ w, ∃ p1 w1, _json_unmarshall_array_value uv type j w = .ok (p1, w1) ∧
        SamePointer p p1 ∧ Frame w w1 := by
  rcases h with rfl | ⟨elems, rest, hp, helems⟩
  · exact ⟨.null, rfl, fun w => ⟨.null, w, rfl, .null, frame_refl w⟩⟩
  · obtain ⟨hn, _⟩ := target_some hp
    obtain ⟨hidx, htake⟩ := sentinelIndex_append rest elems (fun e he => (helems e he).1)
    obtain ⟨js, hms, hus⟩ := elements_round_trip hrt type elems helems
    refine ⟨.array js, ?_, ?_⟩
    · simp only [_json_marshall_array_value, hn, hp, hidx, htake, hms, bind, Except.bind,
        pure, Except.pure, json_array_direct]
      rfl
    · intro w
      obtain ⟨qs, w1, hqs, hse, _, _, hfr⟩ := hus (malloc w).2
      refine ⟨.alloc w.next (.slots (qs ++ [.null])), w1, ?_,
        .target hp rfl (.slots hse), frame_trans (frame_malloc w) hfr⟩
      simp only [malloc] at hqs
      simp only [_json_unmarshall_array_value, malloc, hqs, bind, Except.bind, pure,
        Except.pure]

theorem member_round_trip {T : String → CVal → Prop} {mv : MarshallValue}
    {uv : UnmarshallValue} (hrt : RoundTrips T mv uv) {member : memberinfo} {field : CVal}
    (h : TypedMember T member field) :
    ∃ j, marshallMember mv member field = .ok (some j) ∧
      ∀ v d w, json_object_get v member.name = j →
        ∃ field1 w1, unmarshallMember uv v d member w = .ok (some field1, w1) ∧
          SameObj field field1 ∧ Frame w w1 := by
  unfold TypedMember at h
  by_cases harr : member.type.isArray = true
  · rw [if_pos harr] at h
    obtain ⟨p, rfl, hp⟩ := h
    obtain ⟨j, hm, hu⟩ := array_round_trip hrt hp
    refine ⟨j, by simp only [marshallMember, harr, if_true, hm], ?_⟩
    intro v d w hget
    obtain ⟨p1, w1, hp1, hsame, hfr⟩ := hu w
    refine ⟨.pointer p1, w1, ?_, .pointer hsame, hfr⟩
    simp only [unmarshallMember, harr, if_true, hget, hp1, bind, Except.bind, pure,
      Except.pure]
  · rw [if_neg harr] at h
    by_cases hemb : (!member.type.isPointer && member.type.type != "string") = true
    · rw [if_pos hemb] at h
      have hptr : member.type.isPointer = false := by
        simp only [Bool.and_eq_true, Bool.not_eq_true', bne_iff_ne] at hemb
        exact hemb.1
      have hstr : ¬ member.type.type = "string" := by
        simp only [Bool.and_eq_true, Bool.not_eq_true', bne_iff_ne] at hemb
        exact hemb.2
      have htp : TypedPointer T member.type.type (.inner field) := by
        intro v hv
        cases hv
        exact h
      obtain ⟨j, hm, hu⟩ := hrt _ _ htp
      refine ⟨j, by simp only [marshallMember, harr, hemb, if_true, hm]; simp [hm], ?_⟩
      intro v d w hget
      obtain ⟨p1, w1, hp1, hsame, hret⟩ := hu w
      cases hsame with
      | target hp hq hobj =>
        cases hp
        obtain ⟨_, hcase⟩ := target_some hq
        rcases hcase with rfl | ⟨a, rfl⟩
        · exact absurd rfl (hret.2.1 _)
        · obtain ⟨ha, hlive⟩ := hret.2.2 a _ rfl
          obtain ⟨w2, hrel, hfr⟩ := frame_release hret.1 ha hlive
          refine ⟨_, w2, ?_, hobj, hfr⟩
          simp [unmarshallMember, harr, hget, hp1, hstr, hptr, Pointer.target, free, hrel,
            bind, Except.bind, pure, Except.pure]
    · rw [if_neg hemb] at h
      obtain ⟨p, rfl, hp⟩ := h
      obtain ⟨j, hm, hu⟩ := hrt _ _ hp
      refine ⟨j, by simp only [marshallMember, harr, hemb, if_false, hm]; simp [hm], ?_⟩
      intro v d w hget
      obtain ⟨p1, w1, hp1, hsame, hret⟩ := hu w
      refine ⟨.pointer p1, w1, ?_, .pointer hsame, hret.1⟩
      by_cases hstr : member.type.type = "string"
      · have hp2 := hp1
        rw [hstr] at hp2
        simp [unmarshallMember, harr, hget, hp2, hstr, bind, Except.bind, pure, Except.pure]
      · have hptr : member.type.isPointer = true := by
          simp only [Bool.and_eq_true, Bool.not_eq_true', bne_iff_ne, not_and,
            not_not] at hemb
          by_contra hc
          exact hstr (hemb (by simpa using hc))
        simp [unmarshallMember, harr, hget, hp1, hstr, hptr, bind, Except.bind, pure,
          Except.pure]

theorem members_round_trip {T : String → CVal → Prop} {mv : MarshallValue}
    {uv : UnmarshallValue} (hrt : RoundTrips T mv uv) {ms : List memberinfo}
    {fields : List CVal} (h : List.Forall₂ (TypedMember T) ms fields) :
    ∃ js : List JsonValue, js.length = ms.length ∧
      marshallMembers mv ms fields
        = .ok (List.zipWith (fun m j => (m.name, some j)) ms js) ∧
      ∀ v d w, List.Forall₂ (fun m j => json_object_get v m.name = j) ms js →
        ∃ fields1 w1, unmarshallMembers uv v d ms w = .ok (some fields1, w1) ∧
          SameMembers fields fields1 ∧ Frame w w1 := by
  induction h with
  | nil =>
    exact ⟨[], rfl, rfl, fun v d w _ => ⟨[], w, rfl, .nil, frame_refl w⟩⟩
  | @cons m field ms fields hm _ ih =>
    obtain ⟨j, hj, hu⟩ := member_round_trip hrt hm
    obtain ⟨js, hlen, hjs, hus⟩ := ih
    refine ⟨j :: js, by simp [hlen], ?_, ?_⟩
    · simp only [marshallMembers, hj, hjs, bind, Except.bind, pure, Except.pure,
        List.zipWith_cons_cons]
    · intro v d w hget
      cases hget with
      | cons hg hgs =>
        obtain ⟨f1, w1, hf1, hs1, hfr1⟩ := hu v d w hg
        obtain ⟨fs, w2, hfs, hs2, hfr2⟩ := hus v d w1 hgs
        refine ⟨f1 :: fs, w2, ?_, .cons hs1 hs2, frame_trans hfr1 hfr2⟩
        simp only [unmarshallMembers, hf1, hfs, bind, Except.bind, pure, Except.pure]

theorem collectEntries_zip : ∀ (ms : List memberinfo) (js : List JsonValue),
    collectEntries (List.zipWith (fun m j => (m.name, some j)) ms js)
      = some (List.zipWith (fun m j => (m.name, j)) ms js) := by
  intro ms
  induction ms with
  | nil => intro js; rfl
  | cons m rest ih =>
    intro js
    cases js with
    | nil => rfl
    | cons j js => simp only [List.zipWith_cons_cons, collectEntries, ih]

theorem lookupKey_append {k : String} {pre l : List (String × JsonValue)}
    (h : ∀ kv ∈ pre, kv.1 ≠ k) : lookupKey k (pre ++ l) = lookupKey k l := by
  induction pre with
  | nil => rfl
  | cons kv rest ih =>
    obtain ⟨k1, v1⟩ := kv
    have hne : ¬ k = k1 := fun hc => h (k1, v1) (List.mem_cons_self _ _) hc.symm
    simp only [List.cons_append, lookupKey, hne, if_false]
    exact ih (fun x hx => h x (List.mem_cons_of_mem _ hx))

theorem lookupKey_zip : ∀ (ms : List memberinfo) (js : List JsonValue)
    (pre : List (String × JsonValue)), js.length = ms.length →
    (ms.map (fun member => member.name)).Nodup →
    (∀ m ∈ ms, ∀ kv ∈ pre, kv.1 ≠ m.name) →
    List.Forall₂
      (fun m j => lookupKey m.name (pre ++ List.zipWith (fun m j => (m.name, j)) ms js) = some j)
      ms js := by
  intro ms
  induction ms with
  | nil =>
    intro js pre hlen _ _
    cases js with
    | nil => exact .nil
    | cons j js => simp at hlen
  | cons m rest ih =>
    intro js pre hlen hnd hpre
    cases js with
    | nil => simp at hlen
    | cons j js =>
      simp only [List.map_cons, List.nodup_cons, List.mem_map, not_exists, not_and] at hnd
      refine .cons ?_ ?_
      · rw [lookupKey_append (hpre m (List.mem_cons_self _ _))]
        simp [lookupKey]
      · have hlen1 : js.length = rest.length := by simpa using hlen
        have := ih js (pre ++ [(m.name, j)]) hlen1 hnd.2 (by
          intro m1 hm1 kv hkv
          rcases List.mem_append.1 hkv with hkv | hkv
          · exact hpre m1 (List.mem_cons_of_mem _ hm1) kv hkv
          · rw [List.mem_singleton.1 hkv]
            exact fun hc => hnd.1 m1 hm1 hc.symm)
        simpa [List.append_assoc] using this

theorem struct_round_trip {T : String → CVal → Prop} {mv : MarshallValue}
    {uv : UnmarshallValue} (hrt : RoundTrips T mv uv) {info : structinfo}
    {fields : List CVal} {p : Pointer}
    (hnd : (info.members.map (fun member => member.name)).Nodup)
    (hm : List.Forall₂ (TypedMember T) info.members fields)
    (hp : p.target = some (.struct fields)) :
    ∃ kvs, generateMarshallFunction info mv p = .ok (some (.object kvs)) ∧
      ∀ w, ∃ p1 w1, generateUnmarshallFunction info uv (.object kvs) w = .ok (p1, w1) ∧
        SamePointer p p1 ∧ Returned w p1 w1 := by
  obtain ⟨hn, _⟩ := target_some hp
  obtain ⟨js, hlen, hjs, hus⟩ := members_round_trip hrt hm
  refine ⟨List.zipWith (fun m j => (m.name, j)) info.members js, ?_, ?_⟩
  · simp only [generateMarshallFunction, hn, hp, hjs, bind, Except.bind, pure, Except.pure,
      json_object, collectEntries_zip]
    rfl
  · intro w
    have hget : List.Forall₂
        (fun m j => json_object_get
          (.object (List.zipWith (fun m j => (m.name, j)) info.members js)) m.name = j)
        info.members js := by
      have := lookupKey_zip info.members js [] hlen hnd (fun _ _ kv hkv => by cases hkv)
      refine List.Forall₂.imp ?_ this
      intro m j hl
      simp only [List.nil_append] at hl
      simp only [json_object_get, hl]
    obtain ⟨fields1, w1, hf, hsame, hfr⟩ := hus _ w.next (malloc w).2 hget
    refine ⟨.alloc w.next (.struct fields1), w1, ?_, .target hp rfl (.struct hsame), ?_⟩
    · simp only [malloc] at hf
      simp only [generateUnmarshallFunction, malloc, hf, bind, Except.bind, pure, Except.pure]
    · refine ⟨frame_trans (frame_malloc w) hfr, ?_, ?_⟩
      · intro v hv
        cases hv
      · intro a v hv
        cases hv
        refine ⟨le_refl _, ?_⟩
        exact (hfr.2 w.next (by simp [malloc])).2 (by simp [malloc])

theorem not_primitive_names {type : String} (h : isPrimitiveKind type = false) :
    ¬ type = "char" ∧ ¬ type = "short" ∧ ¬ type = "int" ∧ ¬ type = "long" ∧
    ¬ type = "long long" ∧ ¬ type = "float" ∧ ¬ type = "double" ∧ ¬ type = "string" ∧
    ¬ type = "bool" := by
  simp only [isPrimitiveKind, Bool.or_eq_false_iff, decide_eq_false_iff_not] at h
  obtain ⟨⟨⟨⟨⟨⟨⟨⟨h1, h2⟩, h3⟩, h4⟩, h5⟩, h6⟩, h7⟩, h8⟩, h9⟩ := h
  exact ⟨h1, h2, h3, h4, h5, h6, h7, h9, h8⟩

theorem marshall_value_registered (fp : FloatOps) {reg : List marshaller} {type : String}
    {e : marshaller} {p : Pointer} (n : Nat) (hprim : isPrimitiveKind type = false)
    (hfind : findMarshaller reg type = some e) (hp : p.isNull = false) :
    _json_marshall_value fp reg (n + 1) type p
      = e.marshaller (_json_marshall_value fp reg n) p := by
  obtain ⟨h1, h2, h3, h4, h5, h6, h7, h8, h9⟩ := not_primitive_names hprim
  simp [_json_marshall_value, marshallValueBody, hp, h1, h2, h3, h4, h5, h6, h7, h8, h9,
    hfind]

theorem unmarshall_value_registered (fp : FloatOps) {reg : List marshaller} {type : String}
    {e : marshaller} {j : JsonValue} (n : Nat) (w : World)
    (hprim : isPrimitiveKind type = false)
    (hfind : findMarshaller reg type = some e) (hj : j.type ≠ .JSON_NULL) :
    _json_unmarshall_value fp reg (n + 1) type j w
      = e.unmarshaller (_json_unmarshall_value fp reg n) j w := by
  obtain ⟨h1, h2, h3, h4, h5, h6, h7, h8, h9⟩ := not_primitive_names hprim
  simp [_json_unmarshall_value, unmarshallValueBody, hj, h1, h2, h3, h4, h5, h6, h7, h8, h9,
    hfind]

theorem primitive_pointer_round_trip (fp : FloatOps) (reg : List marshaller) (fuel : Nat)
    {type : String} {p : Pointer} {v : CVal} (hp : p.target = some v)
    (ht : TypedPrimitive fp type v) :
    ∃ j, _json_marshall_value fp reg fuel type p = .ok (some j) ∧
      ∀ w, ∃ p1 w1, _json_unmarshall_value fp reg fuel type j w = .ok (p1, w1) ∧
        SamePointer p p1 ∧ Returned w p1 w1 := by
  obtain ⟨j, hm, hu⟩ := primitive_round_trip fp reg fuel hp ht
  exact ⟨j, hm, fun w => ⟨_, _, hu w, .target hp rfl (sameObj_of_primitive ht),
    returned_malloc w v⟩⟩

theorem null_round_trip (fp : FloatOps) (reg : List marshaller) (fuel : Nat) (type : String) :
    ∃ j, _json_marshall_value fp reg fuel type .null = .ok (some j) ∧
      ∀ w, ∃ p1 w1, _json_unmarshall_value fp reg fuel type j w = .ok (p1, w1) ∧
        SamePointer .null p1 ∧ Returned w p1 w1 := by
  refine ⟨.null, by cases fuel <;> rfl, fun w => ⟨.null, w, by cases fuel <;> rfl, .null, ?_⟩⟩
  refine ⟨frame_refl w, ?_, ?_⟩
  · intro v hv
    cases hv
  · intro a v hv
    cases hv

theorem dispatcher_round_trip (fp : FloatOps) {decl : String → Option structinfo}
    {reg : List marshaller} (hgen : Generated decl reg) :
    ∀ depth, RoundTrips (TypedObj fp decl depth) (_json_marshall_value fp reg depth)
      (_json_unmarshall_value fp reg depth) := by
  intro depth
  induction depth with
  | zero =>
    intro type p htp
    cases hp : p.target with
    | none =>
      have : p = .null := by
        cases p with
        | null => rfl
        | alloc a v => cases hp
        | inner v => cases hp
      subst this
      exact null_round_trip fp reg 0 type
    | some v => exact primitive_pointer_round_trip fp reg 0 hp (htp v hp)
  | succ n ih =>
    intro type p htp
    cases hp : p.target with
    | none =>
      have : p = .null := by
        cases p with
        | null => rfl
        | alloc a v => cases hp
        | inner v => cases hp
      subst this
      exact null_round_trip fp reg (n + 1) type
    | some v =>
      rcases htp v hp with hprim | ⟨info, fields, hdecl, rfl, hmembers⟩
      · exact primitive_pointer_round_trip fp reg (n + 1) hp hprim
      · obtain ⟨hnp, hnd, e, hfind, hme, hue⟩ := hgen type info hdecl
        obtain ⟨kvs, hm, hu⟩ := struct_round_trip ih hnd hmembers hp
        refine ⟨.object kvs, ?_, ?_⟩
        · rw [marshall_value_registered fp n hnp hfind (target_some hp).1, hme]
          exact hm
        · intro w
          rw [unmarshall_value_registered fp n w hnp hfind (by intro hc; cases hc), hue]
          exact hu w

/-! ### The registry built by the emitted constructors -/

theorem runConstructors_find (sizeof : String → Nat) :
    ∀ (decls : List structinfo) (reg0 reg : List marshaller),
      runConstructors sizeof decls reg0 = .ok reg →
      (∀ x e, findMarshaller reg0 x = some e → findMarshaller reg x = some e) ∧
      (∀ info ∈ decls, ∀ n ∈ registeredNames info, ∃ e, findMarshaller reg n = some e ∧
        e.marshaller = generateMarshallFunction info ∧
        e.unmarshaller = generateUnmarshallFunction info ∧
        e.free = generateFreeFunction info) := by
  intro decls
  induction decls with
  | nil =>
    intro reg0 reg h
    cases h
    exact ⟨fun _ _ hx => hx, fun _ hi => absurd hi (List.not_mem_nil _)⟩
  | cons info rest ih =>
    intro reg0 reg h
    cases hg : generateCodeStruct sizeof info reg0 with
    | error err =>
      simp [runConstructors, hg, bind, Except.bind] at h
    | ok r1 =>
      have hrest : runConstructors sizeof rest r1 = .ok reg := by
        simpa [runConstructors, hg, bind, Except.bind] using h
      obtain ⟨hpres, hall⟩ := ih r1 reg hrest
      cases hnames : info.names with
      | nil => simp [generateCodeStruct, hnames] at hg
      | cons name0 aliases =>
        simp only [generateCodeStruct, hnames] at hg
        obtain ⟨_, _, hnew, rfl⟩ := (registerMarshaller_ok_iff _ _ _ _ _ _ _).1 hg
        constructor
        · intro x e hx
          exact hpres x e (findMarshaller_append_some hx)
        · intro info1 hi n hn
          rcases List.mem_cons.1 hi with rfl | hi
          · have hn1 : n ∈ name0 :: aliases.take 1 := by
              simpa [registeredNames, hnames] using hn
            refine ⟨{ name := n, size := sizeof name0,
                      marshaller := generateMarshallFunction info1,
                      unmarshaller := generateUnmarshallFunction info1,
                      free := generateFreeFunction info1 }, hpres n _ ?_, rfl, rfl, rfl⟩
            rw [findMarshaller_append_none (hnew n hn1), findMarshaller_newEntries,
              if_pos hn1]
          · exact hall info1 hi n hn

theorem generated_of_runConstructors {sizeof : String → Nat} {decls : List structinfo}
    {reg : List marshaller} (hreg : runConstructors sizeof decls [] = .ok reg)
    (hwf : WellFormed decls) : Generated (declOf decls) reg := by
  intro type info hdecl
  have hmem : info ∈ decls := List.mem_of_find?_eq_some hdecl
  have hname : type ∈ registeredNames info := by
    have := List.find?_some hdecl
    simpa using this
  obtain ⟨hnd, hnp⟩ := hwf info hmem
  obtain ⟨e, hfind, hme, hue, _⟩ := (runConstructors_find sizeof decls [] reg hreg).2
    info hmem type hname
  exact ⟨hnp type hname, hnd, e, hfind, hme, hue⟩

/-! ### Typing is monotone in the depth -/

theorem typedMember_mono {T T1 : String → CVal → Prop} (h : ∀ t v, T t v → T1 t v)
    {member : memberinfo} {field : CVal} (hm : TypedMember T member field) :
    TypedMember T1 member field := by
  unfold TypedMember at hm ⊢
  by_cases harr : member.type.isArray = true
  · rw [if_pos harr] at hm ⊢
    obtain ⟨p, hp, ha⟩ := hm
    refine ⟨p, hp, ?_⟩
    rcases ha with rfl | ⟨elems, rest, ht, he⟩
    · exact Or.inl rfl
    · exact Or.inr ⟨elems, rest, ht, fun e hmem =>
        ⟨(he e hmem).1, fun v hv => h _ _ ((he e hmem).2 v hv)⟩⟩
  · rw [if_neg harr] at hm ⊢
    by_cases hemb : (!member.type.isPointer && member.type.type != "string") = true
    · rw [if_pos hemb] at hm ⊢
      exact h _ _ hm
    · rw [if_neg hemb] at hm ⊢
      obtain ⟨p, hp, ht⟩ := hm
      exact ⟨p, hp, fun v hv => h _ _ (ht v hv)⟩

theorem typedObj_succ (fp : FloatOps) (decl : String → Option structinfo) :
    ∀ depth type v, TypedObj fp decl depth type v → TypedObj fp decl (depth + 1) type v := by
  intro depth
  induction depth with
  | zero => intro type v h; exact Or.inl h
  | succ n ih =>
    intro type v h
    rcases h with h | ⟨info, fields, hdecl, hv, hm⟩
    · exact Or.inl h
    · exact Or.inr ⟨info, fields, hdecl, hv, List.Forall₂.imp (fun _ _ => typedMember_mono ih) hm⟩

theorem typedObj_mono (fp : FloatOps) (decl : String → Option structinfo) {depth fuel : Nat}
    (h : depth ≤ fuel) : ∀ type v, TypedObj fp decl depth type v → TypedObj fp decl fuel type v := by
  induction h with
  | refl => exact fun _ _ hv => hv
  | step _ ih => exact fun type v hv => typedObj_succ fp decl _ type v (ih type v hv)

/-- C1. Round trip: after the emitted constructors of a well-formed set of records ran, every
pointer that is null or points to an object of type `type` built from acyclic data of nesting
depth at most `depth` marshals to a JSON value, and unmarshalling that value returns a pointer to
an object equal to the original field for field (strings by content, nested records
recursively, arrays of equal length element by element); any fuel of at least `depth`
suffices. -/
theorem C1_round_trip (fp : FloatOps) (sizeof : String → Nat) (decls : List structinfo)
    (reg : List marshaller) (depth fuel : Nat) (type : String) (value : Pointer)
    (hreg : runConstructors sizeof decls [] = .ok reg) (hwf : WellFormed decls)
    (hfuel : depth ≤ fuel)
    (htyped : TypedPointer (TypedObj fp (declOf decls) depth) type value) :
    ∃ json, _json_marshall_value fp reg fuel type value = .ok (some json) ∧
      ∀ w, ∃ value1 w1, _json_unmarshall_value fp reg fuel type json w = .ok (value1, w1) ∧
        SamePointer value value1 := by
  have hgen := generated_of_runConstructors hreg hwf
  have ht : TypedPointer (TypedObj fp (declOf decls) fuel) type value :=
    fun v hv => typedObj_mono fp _ hfuel type v (htyped v hv)
  obtain ⟨j, hm, hu⟩ := dispatcher_round_trip fp hgen fuel type value ht
  refine ⟨j, hm, fun w => ?_⟩
  obtain ⟨p1, w1, h1, h2, _⟩ := hu w
  exact ⟨p1, w1, h1, h2⟩

/-- C2. Array round trip: for every type and every block of N non-null pointers to objects of
that type followed by a null slot, unmarshalling the marshalled array returns a new block of
exactly N non-null pointers, each to an object equal to the corresponding original, in the same
order, followed by a null slot. -/
theorem C2_array_round_trip (fp : FloatOps) (sizeof : String → Nat) (decls : List structinfo)
    (reg : List marshaller) (depth fuel : Nat) (type : String) (array : Pointer)
    (elems rest : List Pointer)
    (hreg : runConstructors sizeof decls [] = .ok reg) (hwf : WellFormed decls)
    (hfuel : depth ≤ fuel)
    (harray : array.target = some (.slots (elems ++ .null :: rest)))
    (helems : ∀ e ∈ elems, e ≠ .null ∧ TypedPointer (TypedObj fp (declOf decls) depth) type e) :
    ∃ json, _json_marshall_array_value (_json_marshall_value fp reg fuel) type array
        = .ok (some json) ∧
      ∀ w, ∃ qs w1,
        _json_unmarshall_array_value (_json_unmarshall_value fp reg fuel) type json w
          = .ok (.alloc w.next (.slots (qs ++ [.null])), w1) ∧
        qs.length = elems.length ∧ (∀ q ∈ qs, q ≠ .null) ∧
        List.Forall₂ SamePointer elems qs := by
  have hgen := generated_of_runConstructors hreg hwf
  have hrt := dispatcher_round_trip fp hgen fuel
  have helems1 : ∀ e ∈ elems, e ≠ .null ∧ TypedPointer (TypedObj fp (declOf decls) fuel) type e :=
    fun e he => ⟨(helems e he).1, fun v hv => typedObj_mono fp _ hfuel type v ((helems e he).2 v hv)⟩
  obtain ⟨hn, _⟩ := target_some harray
  obtain ⟨hidx, htake⟩ := sentinelIndex_append rest elems (fun e he => (helems e he).1)
  obtain ⟨js, hms, hus⟩ := elements_round_trip hrt type elems helems1
  refine ⟨.array js, ?_, ?_⟩
  · simp only [_json_marshall_array_value, hn, harray, hidx, htake, hms, bind, Except.bind,
      pure, Except.pure, json_array_direct]
    rfl
  · intro w
    obtain ⟨qs, w1, hqs, _, hfa, hnn, _⟩ := hus (malloc w).2
    refine ⟨qs, w1, ?_, hfa.length_eq.symm, hnn, hfa⟩
    simp only [malloc] at hqs
    simp only [_json_unmarshall_array_value, malloc, hqs, bind, Except.bind, pure,
      Except.pure]

/-! ### The records `Point` and `Line` -/

theorem example_wellFormed : WellFormed [pointInfo, lineInfo] := by
  unfold WellFormed
  decide

theorem example_point_typed (a b : Int) (ha : inRange 32 a) (hb : inRange 32 b) :
    TypedObj idFloat (declOf [pointInfo, lineInfo]) 1 "Point" (.struct [.int a, .int b]) :=
  Or.inr ⟨pointInfo, _, rfl, rfl, .cons ⟨rfl, ha⟩ (.cons ⟨rfl, hb⟩ .nil)⟩

theorem example_inRange : inRange 32 1 ∧ inRange 32 2 := by
  unfold inRange
  norm_num

theorem example_line_typed :
    TypedPointer (TypedObj idFloat (declOf [pointInfo, lineInfo]) 2) "Line" lineValue := by
  intro v hv
  cases hv
  refine Or.inr ⟨lineInfo, _, rfl, rfl, .cons ?_ (.cons ?_ .nil)⟩
  · refine ⟨.null, rfl, ?_⟩
    intro v hv
    cases hv
  · refine ⟨_, rfl, ?_⟩
    intro v hv
    cases hv
    exact example_point_typed 1 2 example_inRange.1 example_inRange.2

theorem example_elems_typed : ∀ e ∈ pointElems,
    e ≠ .null ∧ TypedPointer (TypedObj idFloat (declOf [pointInfo, lineInfo]) 1) "Point" e := by
  intro e he
  simp only [pointElems, List.mem_cons, List.mem_singleton, List.not_mem_nil, or_false] at he
  rcases he with rfl | rfl
  · constructor
    · intro h
      cases h
    · intro v hv
      cases hv
      exact example_point_typed 1 1 example_inRange.1 example_inRange.1
  · constructor
    · intro h
      cases h
    · intro v hv
      cases hv
      exact example_point_typed 2 2 example_inRange.2 example_inRange.2

/-- Witness of C1: the record `Line{a: NULL, b: &Point{1, 2}}`. -/
theorem C1_round_trip_witness :
    runConstructors (fun _ => 8) [pointInfo, lineInfo] [] = .ok exampleRegistry ∧
    ∃ json, _json_marshall_value idFloat exampleRegistry 2 "Line" lineValue = .ok (some json) ∧
      ∀ w, ∃ value1 w1,
        _json_unmarshall_value idFloat exampleRegistry 2 "Line" json w = .ok (value1, w1) ∧
        SamePointer lineValue value1 :=
  ⟨rfl, C1_round_trip idFloat (fun _ => 8) [pointInfo, lineInfo] exampleRegistry 2 2 "Line"
    lineValue rfl example_wellFormed (le_refl 2) example_line_typed⟩

/-- Witness of C2: the `Point` sequence `[{1, 1}, {2, 2}]`. -/
theorem C2_array_round_trip_witness :
    pointArray.target = some (.slots (pointElems ++ .null :: [])) ∧
    ∃ json, _json_marshall_array_value (_json_marshall_value idFloat exampleRegistry 1) "Point"
        pointArray = .ok (some json) ∧
      ∀ w, ∃ qs w1,
        _json_unmarshall_array_value (_json_unmarshall_value idFloat exampleRegistry 1) "Point"
          json w = .ok (.alloc w.next (.slots (qs ++ [.null])), w1) ∧
        qs.length = pointElems.length ∧ (∀ q ∈ qs, q ≠ .null) ∧
        List.Forall₂ SamePointer pointElems qs :=
  ⟨rfl, C2_array_round_trip idFloat (fun _ => 8) [pointInfo, lineInfo] exampleRegistry 1 1
    "Point" pointArray pointElems [] rfl example_wellFormed (le_refl 1) rfl example_elems_typed⟩

/-- Scenario B and Scenario C evaluated: the JSON values, the unmarshalled records and the
allocator state after the calls. -/
theorem example_scenarios :
    _json_marshall_value idFloat exampleRegistry 2 "Line" lineValue
      = .ok (some (.object [("a", .null), ("b", .object [("x", .long 1), ("y", .long 2)])])) ∧
    _json_unmarshall_value idFloat exampleRegistry 2 "Line"
        (.object [("a", .null), ("b", .object [("x", .long 1), ("y", .long 2)])]) World.init
      = .ok (.alloc 1 (.struct [.pointer .null, .pointer (.alloc 2 (.struct [.int 1, .int 2]))]),
          { next := 5, live := [2, 1], errno := 0 }) ∧
    _json_marshall_array_value (_json_marshall_value idFloat exampleRegistry 1) "Point" pointArray
      = .ok (some (.array [.object [("x", .long 1), ("y", .long 1)],
          .object [("x", .long 2), ("y", .long 2)]])) ∧
    _json_unmarshall_array_value (_json_unmarshall_value idFloat exampleRegistry 1) "Point"
        (.array [.object [("x", .long 1), ("y", .long 1)],
          .object [("x", .long 2), ("y", .long 2)]]) World.init
      = .ok (.alloc 1 (.slots [.alloc 2 (.struct [.int 1, .int 1]),
            .alloc 5 (.struct [.int 2, .int 2]), .null]),
          { next := 8, live := [5, 2, 1], errno := 0 }) :=
  ⟨rfl, rfl, rfl, rfl⟩

/-! ### Marshalling arrays -/

theorem marshallElements_ok (mv : MarshallValue) (type : String) :
    ∀ (elems : List Pointer) (js : List JsonValue),
      List.Forall₂ (fun e j => mv type e = .ok (some j)) elems js →
      marshallElements mv type elems = .ok (some js) := by
  intro elems js h
  induction h with
  | nil => rfl
  | cons h1 _ ih =>
    simp only [marshallElements, h1, ih, bind, Except.bind, pure, Except.pure]

theorem marshallElements_fail (mv : MarshallValue) (type : String) :
    ∀ (pre : List Pointer) (js : List JsonValue) (e : Pointer) (post : List Pointer),
      List.Forall₂ (fun e j => mv type e = .ok (some j)) pre js →
      mv type e = .ok none →
      marshallElements mv type (pre ++ e :: post) = .ok none := by
  intro pre js e post h he
  induction h with
  | nil => simp only [List.nil_append, marshallElements, he, bind, Except.bind, pure, Except.pure]
  | cons h1 _ ih =>
    rw [List.cons_append]
    simp only [marshallElements, h1, ih, bind, Except.bind, pure, Except.pure]

theorem marshall_array_value_slots (mv : MarshallValue) (type : String) {value : Pointer}
    {elems rest : List Pointer}
    (harray : value.target = some (.slots (elems ++ .null :: rest)))
    (hnn : ∀ e ∈ elems, e ≠ .null) :
    _json_marshall_array_value mv type value =
      (match marshallElements mv type elems with
        | .error err => .error err
        | .ok none => .ok none
        | .ok (some l) => .ok (some (.array l))) := by
  obtain ⟨hn, _⟩ := target_some harray
  obtain ⟨hidx, htake⟩ := sentinelIndex_append rest elems hnn
  simp only [_json_marshall_array_value, hn, harray, hidx, htake, bind, Except.bind, pure,
    Except.pure, json_array_direct]
  cases marshallElements mv type elems with
  | error err => rfl
  | ok r => cases r <;> rfl

/-- C11. The function `_json_marshall_array_value`: a null sequence pointer gives JSON null; for
a block of N non-null pointers followed by a null slot whose element marshals return the values
`js`, the result is the JSON array `js` of exactly N entries, entry i being
`_json_marshall_value` of element i; and if the marshal of one element returns the failure
marker (those before it having succeeded) the whole call returns the failure marker. -/
theorem C11_marshall_array (fp : FloatOps) (reg : List marshaller) (fuel : Nat) (type : String) :
    _json_marshall_array_value (_json_marshall_value fp reg fuel) type .null
      = .ok (some .null) ∧
    (∀ (value : Pointer) (elems rest : List Pointer) (js : List JsonValue),
      value.target = some (.slots (elems ++ .null :: rest)) →
      (∀ e ∈ elems, e ≠ .null) →
      List.Forall₂ (fun e j => _json_marshall_value fp reg fuel type e = .ok (some j)) elems js →
      _json_marshall_array_value (_json_marshall_value fp reg fuel) type value
        = .ok (some (.array js)) ∧ js.length = elems.length) ∧
    (∀ (value : Pointer) (pre post rest : List Pointer) (e : Pointer) (js : List JsonValue),
      value.target = some (.slots ((pre ++ e :: post) ++ .null :: rest)) →
      (∀ x ∈ pre ++ e :: post, x ≠ .null) →
      List.Forall₂ (fun x j => _json_marshall_value fp reg fuel type x = .ok (some j)) pre js →
      _json_marshall_value fp reg fuel type e = .ok none →
      _json_marshall_array_value (_json_marshall_value fp reg fuel) type value = .ok none) := by
  refine ⟨rfl, ?_, ?_⟩
  · intro value elems rest js harray hnn hjs
    rw [marshall_array_value_slots _ type harray hnn, marshallElements_ok _ type elems js hjs]
    exact ⟨rfl, hjs.length_eq.symm⟩
  · intro value pre post rest e js harray hnn hjs he
    rw [marshall_array_value_slots _ type harray hnn,
      marshallElements_fail _ type pre js e post hjs he]

/-- Both outcomes of C11 evaluated: an array of two `Point` records marshals to a two-entry JSON
array, and an array whose second element fails to marshal gives the failure marker. -/
theorem example_marshall_array :
    _json_marshall_array_value (_json_marshall_value idFloat exampleRegistry 1) "Point" pointArray
      = .ok (some (.array [.object [("x", .long 1), ("y", .long 1)],
          .object [("x", .long 2), ("y", .long 2)]])) ∧
    _json_marshall_value idFloat [fragileEntry] 1 "Fragile" (.inner (.struct [])) = .ok none ∧
    _json_marshall_array_value (_json_marshall_value idFloat [fragileEntry] 1) "Fragile"
        (.inner (.slots [.inner (.struct [.int 1]), .inner (.struct []), .null]))
      = .ok none :=
  ⟨rfl, rfl, rfl⟩

/-! ### Top-level entry points -/

/-- C12. Top-level scalar unmarshal: `_json_unmarshall` returns the failure marker, without
looking at the type, when the text does not parse or parses to a JSON array, and otherwise
returns exactly `_json_unmarshall_value` of the parsed value. -/
theorem C12_unmarshall_top_level (fp : FloatOps) (reg : List marshaller) (fuel : Nat)
    (json_parse : String → Option JsonValue) (type : String) (json : String) (w : World) :
    (json_parse json = none →
      _json_unmarshall fp reg fuel json_parse type json w = .ok (.null, w)) ∧
    (∀ entries, json_parse json = some (.array entries) →
      _json_unmarshall fp reg fuel json_parse type json w = .ok (.null, w)) ∧
    (∀ value, json_parse json = some value → value.type ≠ .JSON_ARRAY →
      _json_unmarshall fp reg fuel json_parse type json w
        = _json_unmarshall_value fp reg fuel type value w) := by
  refine ⟨?_, ?_, ?_⟩
  · intro h
    simp only [_json_unmarshall, h]
    rfl
  · intro entries h
    simp only [_json_unmarshall, h, JsonValue.type, if_true]
    rfl
  · intro value h hv
    simp only [_json_unmarshall, h, hv, if_false]

/-! ### Freeing values -/

theorem free_struct_unfold (reg : List marshaller) (fuel : Nat) :
    _json_free_struct reg fuel =
      freeStructBody reg
        (match fuel with
          | 0 => fun _ _ _ _ => throw .fuel
          | n + 1 => fun marshaller =>
            marshaller.free (_json_free_struct reg n) (_json_free_array reg n)) := by
  cases fuel <;> rfl

theorem free_array_unfold (reg : List marshaller) (fuel : Nat) :
    _json_free_array reg fuel =
      freeArrayBody reg
        (match fuel with
          | 0 => fun _ _ _ _ => throw .fuel
          | n + 1 => fun marshaller =>
            marshaller.free (_json_free_struct reg n) (_json_free_array reg n)) := by
  cases fuel <;> rfl

theorem marshall_value_unfold (fp : FloatOps) (reg : List marshaller) (fuel : Nat) :
    _json_marshall_value fp reg fuel =
      marshallValueBody fp reg
        (match fuel with
          | 0 => fun _ _ => throw .fuel
          | n + 1 => fun marshaller value =>
            marshaller.marshaller (_json_marshall_value fp reg n) value) := by
  cases fuel <;> rfl

theorem unmarshall_value_unfold (fp : FloatOps) (reg : List marshaller) (fuel : Nat) :
    _json_unmarshall_value fp reg fuel =
      unmarshallValueBody fp reg
        (match fuel with
          | 0 => fun _ _ _ => throw .fuel
          | n + 1 => fun marshaller value w =>
            marshaller.unmarshaller (_json_unmarshall_value fp reg n) value w) := by
  cases fuel <;> rfl

theorem isNull_false_of_ne {p : Pointer} (h : p ≠ .null) : p.isNull = false := by
  cases p with
  | null => exact absurd rfl h
  | alloc a v => rfl
  | inner v => rfl

/-- C13. The function `_json_free_struct`: for the null pointer it returns with the allocator
unchanged for every type; for a primitive kind and a pointer to a live allocation it releases
exactly that allocation when the flag is true and changes nothing when the flag is false; for a
registered name that is not a primitive kind it is one call of the entry's free function with the
same pointer and the same flag. -/
theorem C13_free_value (reg : List marshaller) (fuel : Nat) (type : String) (this : Bool)
    (w : World) :
    _json_free_struct reg fuel type .null this w = .ok w ∧
    (isPrimitiveKind type = true → ∀ a v, a ∈ w.live →
      _json_free_struct reg fuel type (.alloc a v) true w
        = .ok { w with live := w.live.erase a }) ∧
    (isPrimitiveKind type = true → ∀ value,
      _json_free_struct reg fuel type value false w = .ok w) ∧
    (isPrimitiveKind type = false → ∀ e value, findMarshaller reg type = some e →
      value ≠ .null →
      _json_free_struct reg (fuel + 1) type value this w
        = e.free (_json_free_struct reg fuel) (_json_free_array reg fuel) value this w) := by
  refine ⟨?_, ?_, ?_, ?_⟩
  · rw [free_struct_unfold]
    rfl
  · intro hp a v ha
    rw [free_struct_unfold]
    simp [freeStructBody, Pointer.isNull, hp, free, World.release, ha]
    rfl
  · intro hp value
    rw [free_struct_unfold]
    cases value <;> simp [freeStructBody, Pointer.isNull, hp] <;> rfl
  · intro hp e value hfind hv
    simp only [_json_free_struct, freeStructBody, isNull_false_of_ne hv, hp, hfind]
    rfl

/-- Evaluation for C13: freeing an `int` allocation with the flag set releases it, without the
flag it stays live, and freeing a `Point` record goes through the emitted free function. -/
theorem example_free_value :
    _json_free_struct exampleRegistry 1 "int" (.alloc 3 (.int 7)) true
        { next := 5, live := [4, 3, 2], errno := 0 }
      = .ok { next := 5, live := [4, 2], errno := 0 } ∧
    _json_free_struct exampleRegistry 1 "int" (.alloc 3 (.int 7)) false
        { next := 5, live := [4, 3, 2], errno := 0 }
      = .ok { next := 5, live := [4, 3, 2], errno := 0 } ∧
    _json_free_struct exampleRegistry 1 "Point" (.alloc 3 (.struct [.int 1, .int 2])) true
        { next := 5, live := [4, 3, 2], errno := 0 }
      = .ok { next := 5, live := [4, 2], errno := 0 } :=
  ⟨rfl, rfl, rfl⟩

/-! ### Primitive names shadow the registry -/

theorem primitive_kind_cases {type : String} (h : isPrimitiveKind type = true) :
    type = "char" ∨ type = "short" ∨ type = "int" ∨ type = "long" ∨ type = "long long" ∨
    type = "float" ∨ type = "double" ∨ type = "bool" ∨ type = "string" := by
  simp only [isPrimitiveKind, Bool.or_eq_true, decide_eq_true_eq] at h
  tauto

/-- C20. Primitive names shadow the registry: a registration under the name of a primitive kind
returns normally when no entry has that name, and for such a name marshal, unmarshal, free and
free-array give, for every registry and fuel, the result they give with the empty registry and
no fuel, so no registered function is called. -/
theorem C20_primitive_shadow (fp : FloatOps) (reg : List marshaller) (fuel : Nat)
    (type : String) (hprim : isPrimitiveKind type = true) :
    (∀ (size : Nat) (m : MarshallValue → Pointer → Res (Option JsonValue))
      (u : UnmarshallValue → JsonValue → World → Res (Pointer × World))
      (f : FreeStruct → FreeArray → Pointer → Bool → World → Res World),
      (∀ e ∈ reg, e.name ≠ type) →
      _registerMarshaller reg [type] size m u f
        = .ok (reg ++ [{ name := type, size := size, marshaller := m, unmarshaller := u,
                         free := f }])) ∧
    (∀ value, _json_marshall_value fp reg fuel type value
      = _json_marshall_value fp [] 0 type value) ∧
    (∀ json w, _json_unmarshall_value fp reg fuel type json w
      = _json_unmarshall_value fp [] 0 type json w) ∧
    (∀ value this w, _json_free_struct reg fuel type value this w
      = _json_free_struct [] 0 type value this w) ∧
    (∀ value w, _json_free_array reg fuel type value w
      = _json_free_array [] 0 type value w) := by
  refine ⟨?_, ?_, ?_, ?_, ?_⟩
  · intro size m u f hnew
    exact (registerMarshaller_ok_iff [type] size m u f reg _).2
      ⟨Or.inr (List.cons_ne_nil _ _), List.nodup_singleton _, fun n hn => by
        rw [List.mem_singleton.1 hn]
        exact findMarshaller_eq_none.2 hnew, rfl⟩
  · intro value
    rw [marshall_value_unfold fp reg fuel, marshall_value_unfold fp [] 0]
    rcases primitive_kind_cases hprim with h | h | h | h | h | h | h | h | h <;> subst h <;>
      simp [marshallValueBody]
  · intro json w
    rw [unmarshall_value_unfold fp reg fuel, unmarshall_value_unfold fp [] 0]
    rcases primitive_kind_cases hprim with h | h | h | h | h | h | h | h | h <;> subst h <;>
      simp [unmarshallValueBody]
  · intro value this w
    rw [free_struct_unfold reg fuel, free_struct_unfold [] 0]
    simp [freeStructBody, hprim]
  · intro value w
    rw [free_array_unfold reg fuel, free_array_unfold [] 0]
    simp [freeArrayBody, hprim]

/-- Witness of C20: a record registered under the name `int`; its functions are those of
`Point`, yet an `int` is marshalled by the primitive codec. -/
theorem C20_primitive_shadow_witness :
    isPrimitiveKind "int" = true ∧
    _registerMarshaller [] ["int"] 8 (generateMarshallFunction pointInfo)
        (generateUnmarshallFunction pointInfo) (generateFreeFunction pointInfo)
      = .ok (newEntries ["int"] 8 (generateMarshallFunction pointInfo)
          (generateUnmarshallFunction pointInfo) (generateFreeFunction pointInfo)) ∧
    _json_marshall_value idFloat (newEntries ["int"] 8 (generateMarshallFunction pointInfo)
        (generateUnmarshallFunction pointInfo) (generateFreeFunction pointInfo)) 3 "int"
        (.inner (.int 5))
      = _json_marshall_value idFloat [] 0 "int" (.inner (.int 5)) ∧
    _json_marshall_value idFloat [] 0 "int" (.inner (.int 5)) = .ok (some (.long 5)) :=
  ⟨by decide, rfl,
    (C20_primitive_shadow idFloat (newEntries ["int"] 8 (generateMarshallFunction pointInfo)
      (generateUnmarshallFunction pointInfo) (generateFreeFunction pointInfo)) 3 "int"
      (by decide)).2.1 _, rfl⟩

/-! ### The emitted marshal function -/

theorem marshallMembers_ok (mv : MarshallValue) :
    ∀ (ms : List memberinfo) (fields : List CVal) (js : List JsonValue),
      fields.length = ms.length →
      List.Forall₂ (fun mf j => marshallMember mv mf.1 mf.2 = .ok (some j)) (ms.zip fields) js →
      marshallMembers mv ms fields
        = .ok (List.zipWith (fun m j => (m.name, some j)) ms js) ∧ js.length = ms.length := by
  intro ms
  induction ms with
  | nil =>
    intro fields js hlen h
    cases fields with
    | nil =>
      cases h
      exact ⟨rfl, rfl⟩
    | cons f fs => simp at hlen
  | cons m rest ih =>
    intro fields js hlen h
    cases fields with
    | nil => simp at hlen
    | cons f fs =>
      rw [List.zip_cons_cons] at h
      cases h with
      | cons h1 h2 =>
        obtain ⟨hm, hl⟩ := ih fs _ (by simpa using hlen) h2
        refine ⟨?_, by simp [hl]⟩
        simp only [marshallMembers, h1, hm, bind, Except.bind, pure, Except.pure,
          List.zipWith_cons_cons]

/-- C16. The emitted marshal function: it returns JSON null for a null record pointer; the
value expression of a member is `_json_marshall_array_value` of the member for an array member,
the marshal callee applied to the member for a pointer or string member, and the marshal callee
applied to the address of the member for any other member; and when these expressions return the
values `js`, the result is the JSON object with exactly one entry per member, in declaration
order, entry i keyed by the name of member i and valued `js[i]`.  So `Point{x: 3, y: 4}` gives
`{"x": 3, "y": 4}` and `Line{a: NULL, b: &Point{1, 2}}` gives
`{"a": null, "b": {"x": 1, "y": 2}}`. -/
theorem C16_generated_marshal (info : structinfo) (mv : MarshallValue) :
    generateMarshallFunction info mv .null = .ok (some .null) ∧
    (∀ (member : memberinfo) (p : Pointer), member.type.isArray = true →
      marshallMember mv member (.pointer p)
        = _json_marshall_array_value mv member.type.type p) ∧
    (∀ (member : memberinfo) (p : Pointer), member.type.isArray = false →
      (member.type.isPointer = true ∨ member.type.type = "string") →
      marshallMember mv member (.pointer p) = mv member.type.type p) ∧
    (∀ (member : memberinfo) (field : CVal), member.type.isArray = false →
      member.type.isPointer = false → member.type.type ≠ "string" →
      marshallMember mv member field = mv member.type.type (.inner field)) ∧
    (∀ (d : Pointer) (fields : List CVal) (js : List JsonValue),
      d.target = some (.struct fields) → fields.length = info.members.length →
      List.Forall₂ (fun mf j => marshallMember mv mf.1 mf.2 = .ok (some j))
        (info.members.zip fields) js →
      generateMarshallFunction info mv d
        = .ok (some (.object (List.zipWith (fun m j => (m.name, j)) info.members js))) ∧
      js.length = info.members.length) ∧
    _json_marshall_value idFloat exampleRegistry 1 "Point" pointValue
      = .ok (some (.object [("x", .long 3), ("y", .long 4)])) ∧
    _json_marshall_value idFloat exampleRegistry 2 "Line" lineValue
      = .ok (some (.object [("a", .null), ("b", .object [("x", .long 1), ("y", .long 2)])])) := by
  refine ⟨rfl, ?_, ?_, ?_, ?_, rfl, rfl⟩
  · intro member p harr
    simp only [marshallMember, harr, if_true]
  · intro member p harr hps
    rcases hps with hp | hs
    · simp [marshallMember, harr, hp]
    · simp [marshallMember, harr, hs]
  · intro member field harr hp hs
    simp [marshallMember, harr, hp, hs]
  · intro d fields js hd hlen hjs
    obtain ⟨hn, _⟩ := target_some hd
    obtain ⟨hm, hl⟩ := marshallMembers_ok mv info.members fields js hlen hjs
    refine ⟨?_, hl⟩
    simp only [generateMarshallFunction, hn, hd, hm, bind, Except.bind, pure, Except.pure,
      json_object, collectEntries_zip]
    rfl

/-! ### The emitted free function -/

/-- C15. The emitted free function: a null record pointer is a no-op; the statement of a member
is `_json_free_array` of the member for an array member, `_json_free_struct` of the member with
the flag true for a non-array pointer or string member, `_json_free_struct` of the address of
the member with the flag false for a by-value member that is not one of the eight by-value
primitive kinds, and nothing for a by-value primitive member; the member statements run in
declaration order, and then the record's own storage is released if and only if the flag
argument is true. -/
theorem C15_generated_free (info : structinfo) (fs : FreeStruct) (fa : FreeArray) :
    (∀ this w, generateFreeFunction info fs fa .null this w = .ok w) ∧
    (∀ (member : memberinfo) (p : Pointer) (w : World), member.type.isArray = true →
      freeMember fs fa member (.pointer p) w = fa member.type.type p w) ∧
    (∀ (member : memberinfo) (p : Pointer) (w : World), member.type.isArray = false →
      (member.type.isPointer = true ∨ member.type.type = "string") →
      freeMember fs fa member (.pointer p) w = fs member.type.type p true w) ∧
    (∀ (member : memberinfo) (field : CVal) (w : World), member.type.isArray = false →
      member.type.isPointer = false → member.type.type ≠ "string" →
      isEmbeddedPrimitive member.type.type = false →
      freeMember fs fa member field w = fs member.type.type (.inner field) false w) ∧
    (∀ (member : memberinfo) (field : CVal) (w : World), member.type.isArray = false →
      member.type.isPointer = false → isEmbeddedPrimitive member.type.type = true →
      freeMember fs fa member field w = .ok w) ∧
    (∀ w, freeMembers fs fa [] [] w = .ok w) ∧
    (∀ (member : memberinfo) (rest : List memberinfo) (field : CVal) (fields : List CVal)
      (w w1 : World), freeMember fs fa member field w = .ok w1 →
      freeMembers fs fa (member :: rest) (field :: fields) w = freeMembers fs fa rest fields w1) ∧
    (∀ (d : Pointer) (fields : List CVal) (w w1 : World),
      d.target = some (.struct fields) → freeMembers fs fa info.members fields w = .ok w1 →
      generateFreeFunction info fs fa d true w = free d w1 ∧
      generateFreeFunction info fs fa d false w = .ok w1) := by
  refine ⟨fun _ _ => rfl, ?_, ?_, ?_, ?_, fun _ => rfl, ?_, ?_⟩
  · intro member p w harr
    simp only [freeMember, harr, if_true]
  · intro member p w harr hps
    rcases hps with hp | hs
    · simp [freeMember, harr, hp]
    · simp [freeMember, harr, hs]
  · intro member field w harr hp hs hemb
    simp [freeMember, harr, hp, hs, hemb]
  · intro member field w harr hp hemb
    have hs : member.type.type ≠ "string" := by
      intro hc
      rw [hc] at hemb
      exact absurd hemb (by decide)
    simp [freeMember, harr, hp, hs, hemb]
    rfl
  · intro member rest field fields w w1 h
    simp only [freeMembers, h, bind, Except.bind]
  · intro d fields w w1 hd h
    obtain ⟨hn, _⟩ := target_some hd
    constructor
    · simp only [generateFreeFunction, hn, hd, h, bind, Except.bind, if_true]
      rfl
    · simp only [generateFreeFunction, hn, hd, h, bind, Except.bind]
      rfl

/-- Evaluation for C15: freeing the unmarshalled record `Line{a: NULL, b: &Point{1, 2}}` with
the flag set releases the record and the `Point` it points to; without the flag the record's own
storage stays live. -/
theorem example_free_record :
    _json_free_struct exampleRegistry 2 "Line"
        (.alloc 1 (.struct [.pointer .null, .pointer (.alloc 2 (.struct [.int 1, .int 2]))]))
        true { next := 5, live := [2, 1], errno := 0 }
      = .ok { next := 5, live := [], errno := 0 } ∧
    _json_free_struct exampleRegistry 2 "Line"
        (.alloc 1 (.struct [.pointer .null, .pointer (.alloc 2 (.struct [.int 1, .int 2]))]))
        false { next := 5, live := [2, 1], errno := 0 }
      = .ok { next := 5, live := [1], errno := 0 } :=
  ⟨rfl, rfl⟩

/-! ### Unmarshalling only allocates -/

theorem allGenerated_of_runConstructors (sizeof : String → Nat) :
    ∀ (decls : List structinfo) (reg0 reg : List marshaller),
      AllGenerated reg0 → runConstructors sizeof decls reg0 = .ok reg → AllGenerated reg := by
  intro decls
  induction decls with
  | nil =>
    intro reg0 reg h0 h
    cases h
    exact h0
  | cons info rest ih =>
    intro reg0 reg h0 h
    cases hg : generateCodeStruct sizeof info reg0 with
    | error err => simp [runConstructors, hg, bind, Except.bind] at h
    | ok r1 =>
      have hrest : runConstructors sizeof rest r1 = .ok reg := by
        simpa [runConstructors, hg, bind, Except.bind] using h
      refine ih r1 reg ?_ hrest
      cases hnames : info.names with
      | nil => simp [generateCodeStruct, hnames] at hg
      | cons name0 aliases =>
        simp only [generateCodeStruct, hnames] at hg
        obtain ⟨_, _, _, rfl⟩ := (registerMarshaller_ok_iff _ _ _ _ _ _ _).1 hg
        intro e he
        rcases List.mem_append.1 he with he | he
        · exact h0 e he
        · simp only [newEntries, List.mem_map] at he
          obtain ⟨n, _, rfl⟩ := he
          exact ⟨info, rfl, rfl, rfl⟩

theorem allGenerated_nil : AllGenerated [] := fun _ he => absurd he (List.not_mem_nil _)

theorem returned_null (w : World) : Returned w .null w := by
  refine ⟨frame_refl w, ?_, ?_⟩
  · intro v hv
    cases hv
  · intro a v hv
    cases hv

theorem sound_null (w : World) :
    Returned w .null w ∧ ∀ x ∈ Pointer.addrs .null, w.next ≤ x ∧ x < w.next :=
  ⟨returned_null w, fun x hx => by simp [Pointer.addrs] at hx⟩

theorem sound_malloc (w : World) (v : CVal) (hv : v.addrs = []) :
    Returned w (.alloc w.next v) (malloc w).2 ∧
      ∀ x ∈ (Pointer.alloc w.next v).addrs, w.next ≤ x ∧ x < (malloc w).2.next := by
  refine ⟨returned_malloc w v, ?_⟩
  intro x hx
  simp only [Pointer.addrs, hv, List.mem_singleton] at hx
  subst hx
  exact ⟨le_refl _, by simp [malloc]⟩

theorem json_unmarshall_char_result (j : JsonValue) (w : World) :
    CodecResult (json_unmarshall_char j w) w := by
  cases j <;> first
    | exact Or.inl rfl
    | exact Or.inr ⟨_, by rfl, rfl⟩

theorem json_unmarshall_short_result (j : JsonValue) (w : World) :
    CodecResult (json_unmarshall_short j w) w := by
  cases j <;> first
    | exact Or.inl rfl
    | exact Or.inr ⟨_, by rfl, rfl⟩

theorem json_unmarshall_int_result (j : JsonValue) (w : World) :
    CodecResult (json_unmarshall_int j w) w := by
  cases j <;> first
    | exact Or.inl rfl
    | exact Or.inr ⟨_, by rfl, rfl⟩

theorem json_unmarshall_long_result (j : JsonValue) (w : World) :
    CodecResult (json_unmarshall_long j w) w := by
  cases j <;> first
    | exact Or.inl rfl
    | exact Or.inr ⟨_, by rfl, rfl⟩

theorem json_unmarshall_long_long_result (j : JsonValue) (w : World) :
    CodecResult (json_unmarshall_long_long j w) w := by
  cases j <;> first
    | exact Or.inl rfl
    | exact Or.inr ⟨_, by rfl, rfl⟩

theorem json_unmarshall_float_result (fp : FloatOps) (j : JsonValue) (w : World) :
    CodecResult (json_unmarshall_float fp j w) w := by
  cases j <;> first
    | exact Or.inl rfl
    | exact Or.inr ⟨_, by rfl, rfl⟩

theorem json_unmarshall_double_result (fp : FloatOps) (j : JsonValue) (w : World) :
    CodecResult (json_unmarshall_double fp j w) w := by
  cases j <;> first
    | exact Or.inl rfl
    | exact Or.inr ⟨_, by rfl, rfl⟩

theorem json_unmarshall_bool_result (j : JsonValue) (w : World) :
    CodecResult (json_unmarshall_bool j w) w := by
  cases j <;> first
    | exact Or.inl rfl
    | exact Or.inr ⟨_, by rfl, rfl⟩

theorem json_unmarshall_string_result (j : JsonValue) (w : World) :
    CodecResult (json_unmarshall_string j w) w := by
  cases j <;> first
    | exact Or.inl rfl
    | exact Or.inr ⟨_, by rfl, rfl⟩

theorem unmarshallValueBody_cases (fp : FloatOps) (reg : List marshaller)
    (call : marshaller → JsonValue → World → Res (Pointer × World))
    (type : String) (j : JsonValue) (w : World) (r : Pointer × World)
    (h : unmarshallValueBody fp reg call type j w = .ok r) :
    CodecResult r w ∨ (∃ e, findMarshaller reg type = some e ∧ call e j w = .ok r) := by
  unfold unmarshallValueBody at h
  by_cases h0 : j.type = .JSON_NULL
  · rw [if_pos h0] at h
    exact Or.inl (Or.inl (Except.ok.inj h).symm)
  rw [if_neg h0] at h
  by_cases h1 : type = "char"
  · rw [if_pos h1] at h
    exact Or.inl ((Except.ok.inj h) ▸ json_unmarshall_char_result j w)
  rw [if_neg h1] at h
  by_cases h2 : type = "short"
  · rw [if_pos h2] at h
    exact Or.inl ((Except.ok.inj h) ▸ json_unmarshall_short_result j w)
  rw [if_neg h2] at h
  by_cases h3 : type = "int"
  · rw [if_pos h3] at h
    exact Or.inl ((Except.ok.inj h) ▸ json_unmarshall_int_result j w)
  rw [if_neg h3] at h
  by_cases h4 : type = "long"
  · rw [if_pos h4] at h
    exact Or.inl ((Except.ok.inj h) ▸ json_unmarshall_long_result j w)
  rw [if_neg h4] at h
  by_cases h5 : type = "long long"
  · rw [if_pos h5] at h
    exact Or.inl ((Except.ok.inj h) ▸ json_unmarshall_long_long_result j w)
  rw [if_neg h5] at h
  by_cases h6 : type = "float"
  · rw [if_pos h6] at h
    exact Or.inl ((Except.ok.inj h) ▸ json_unmarshall_float_result fp j w)
  rw [if_neg h6] at h
  by_cases h7 : type = "double"
  · rw [if_pos h7] at h
    exact Or.inl ((Except.ok.inj h) ▸ json_unmarshall_double_result fp j w)
  rw [if_neg h7] at h
  by_cases h8 : type = "string"
  · rw [if_pos h8] at h
    exact Or.inl ((Except.ok.inj h) ▸ json_unmarshall_string_result j w)
  rw [if_neg h8] at h
  by_cases h9 : type = "bool"
  · rw [if_pos h9] at h
    exact Or.inl ((Except.ok.inj h) ▸ json_unmarshall_bool_result j w)
  rw [if_neg h9] at h
  cases hf : findMarshaller reg type with
  | none =>
    rw [hf] at h
    cases h
  | some e =>
    rw [hf] at h
    exact Or.inr ⟨e, rfl, h⟩

theorem sound_of_codecResult {r : Pointer × World} {w : World} (h : CodecResult r w) :
    Returned w r.1 r.2 ∧ ∀ x ∈ r.1.addrs, w.next ≤ x ∧ x < r.2.next := by
  rcases h with rfl | ⟨v, hv, rfl⟩
  · exact sound_null w
  · exact sound_malloc w v hv

theorem addrsSlots_append (ps qs : List Pointer) :
    addrsSlots (ps ++ qs) = addrsSlots ps ++ addrsSlots qs := by
  induction ps with
  | nil => rfl
  | cons p rest ih =>
    rw [List.cons_append]
    simp only [addrsSlots, ih, List.append_assoc]

theorem unmarshallElements_cons {uv : UnmarshallValue} {type : String} {e : JsonValue}
    {rest : List JsonValue} {w : World} {r : List Pointer × World}
    (h : unmarshallElements uv type (e :: rest) w = .ok r) :
    ∃ q w2 qs, uv type e w = .ok (q, w2) ∧
      unmarshallElements uv type rest w2 = .ok (qs, r.2) ∧ r.1 = q :: qs := by
  cases hq : uv type e w with
  | error err => simp [unmarshallElements, hq, bind, Except.bind] at h
  | ok r1 =>
    obtain ⟨q, w2⟩ := r1
    cases hr : unmarshallElements uv type rest w2 with
    | error err => simp [unmarshallElements, hq, hr, bind, Except.bind] at h
    | ok r2 =>
      obtain ⟨qs, w3⟩ := r2
      simp only [unmarshallElements, hq, hr, bind, Except.bind, pure, Except.pure,
        Except.ok.injEq] at h
      subst h
      exact ⟨q, w2, qs, rfl, hr, rfl⟩

theorem sound_elements {uv : UnmarshallValue} (hs : Sound uv) (type : String) :
    ∀ (es : List JsonValue) (w : World) (ps : List Pointer) (w1 : World),
      unmarshallElements uv type es w = .ok (ps, w1) →
      Frame w w1 ∧ (∀ x ∈ addrsSlots ps, w.next ≤ x ∧ x < w1.next) ∧
      (∀ q ∈ ps, ∀ b v, q = .alloc b v → b ∈ w1.live) ∧
      (∀ q ∈ ps, ∀ v, q ≠ .inner v) := by
  intro es
  induction es with
  | nil =>
    intro w ps w1 h
    cases h
    refine ⟨frame_refl w, ?_, ?_, ?_⟩
    · intro x hx
      simp [addrsSlots] at hx
    · intro q hq
      exact absurd hq (List.not_mem_nil _)
    · intro q hq
      exact absurd hq (List.not_mem_nil _)
  | cons e rest ih =>
    intro w ps w1 h
    obtain ⟨q, w2, qs, hq, hr, hps⟩ := unmarshallElements_cons h
    simp only at hr hps
    subst hps
    obtain ⟨hret, hin⟩ := hs type e w q w2 hq
    obtain ⟨hfr, haddr, hlive, hni⟩ := ih w2 qs w1 hr
    refine ⟨frame_trans hret.1 hfr, ?_, ?_, ?_⟩
    · intro x hx
      simp only [addrsSlots, List.mem_append] at hx
      rcases hx with hx | hx
      · exact ⟨(hin x hx).1, lt_of_lt_of_le (hin x hx).2 hfr.1⟩
      · exact ⟨le_trans hret.1.1 (haddr x hx).1, (haddr x hx).2⟩
    · intro q1 hq1 b v hb
      rcases List.mem_cons.1 hq1 with rfl | hq1
      · subst hb
        have hb1 := hin b (by simp [Pointer.addrs])
        exact (hfr.2 b hb1.2).2 (hret.2.2 b v rfl).2
      · exact hlive q1 hq1 b v hb
    · intro q1 hq1 v
      rcases List.mem_cons.1 hq1 with rfl | hq1
      · exact hret.2.1 v
      · exact hni q1 hq1 v

theorem sound_array {uv : UnmarshallValue} (hs : Sound uv) (type : String) (j : JsonValue)
    (w : World) (p : Pointer) (w1 : World)
    (h : _json_unmarshall_array_value uv type j w = .ok (p, w1)) :
    Returned w p w1 ∧ ∀ x ∈ p.addrs, w.next ≤ x ∧ x < w1.next := by
  cases j with
  | array es =>
    cases hr : unmarshallElements uv type es (malloc w).2 with
    | error err =>
      simp only [malloc] at hr
      simp [_json_unmarshall_array_value, malloc, hr, bind, Except.bind] at h
    | ok r =>
      obtain ⟨ps, w2⟩ := r
      obtain ⟨hfr, haddr, _, _⟩ := sound_elements hs type es _ ps w2 hr
      simp only [malloc] at hr
      simp only [_json_unmarshall_array_value, malloc, hr, bind, Except.bind, pure,
        Except.pure, Except.ok.injEq, Prod.mk.injEq] at h
      obtain ⟨rfl, rfl⟩ := h
      have hlt : w.next < (malloc w).2.next := by simp [malloc]
      refine ⟨⟨frame_trans (frame_malloc w) hfr, ?_, ?_⟩, ?_⟩
      · intro v hv
        cases hv
      · intro a v hv
        cases hv
        exact ⟨le_refl _, (hfr.2 w.next hlt).2 (by simp [malloc])⟩
      · intro x hx
        simp only [Pointer.addrs, CVal.addrs, addrsSlots_append, addrsSlots, List.mem_cons,
          List.mem_append, List.not_mem_nil, or_false, List.append_nil] at hx
        rcases hx with rfl | hx
        · exact ⟨le_refl _, lt_of_lt_of_le hlt hfr.1⟩
        · exact ⟨le_trans (Nat.le_succ _) (haddr x hx).1, (haddr x hx).2⟩
  | null => cases h; exact sound_null w
  | bool b => cases h; exact sound_null w
  | long n => cases h; exact sound_null w
  | double x => cases h; exact sound_null w
  | string s => cases h; exact sound_null w
  | object kvs => cases h; exact sound_null w

theorem release_ok {d : Nat} {w w1 : World} (h : World.release d w = .ok w1) :
    d ∈ w.live ∧ w1 = { w with live := w.live.erase d } := by
  unfold World.release at h
  by_cases hd : d ∈ w.live
  · rw [if_pos hd] at h
    exact ⟨hd, (Except.ok.inj h).symm⟩
  · rw [if_neg hd] at h
    cases h

theorem frame_erase {w w1 : World} {a : Nat} (hf : Frame w w1) (ha : w.next ≤ a) :
    Frame w { w1 with live := w1.live.erase a } := by
  refine ⟨hf.1, ?_⟩
  intro b hb
  have hne : b ≠ a := by omega
  simp only [List.mem_erase_of_ne hne]
  exact hf.2 b hb

theorem sound_member {uv : UnmarshallValue} (hs : Sound uv) (v : JsonValue) (d : Nat)
    (member : memberinfo) (w : World) (r : Option CVal) (w1 : World)
    (h : unmarshallMember uv v d member w = .ok (r, w1)) :
    (∀ f, r = some f → Frame w w1 ∧ ∀ x ∈ f.addrs, w.next ≤ x ∧ x < w1.next) ∧
    (r = none → ∃ wm, Frame w wm ∧ Aborted d wm w1) := by
  unfold unmarshallMember at h
  by_cases harr : member.type.isArray = true
  · simp only [harr, if_true] at h
    cases ha : _json_unmarshall_array_value uv member.type.type
        (json_object_get v member.name) w with
    | error err => simp [ha, bind, Except.bind] at h
    | ok ra =>
      obtain ⟨tmp, w2⟩ := ra
      simp only [ha, bind, Except.bind, pure, Except.pure, Except.ok.injEq,
        Prod.mk.injEq] at h
      obtain ⟨rfl, rfl⟩ := h
      obtain ⟨hret, hin⟩ := sound_array hs _ _ w tmp _ ha
      constructor
      · intro f hf
        cases hf
        exact ⟨hret.1, hin⟩
      · intro hc
        cases hc
  · simp only [harr, Bool.false_eq_true, if_false] at h
    cases hq : uv member.type.type (json_object_get v member.name) w with
    | error err => simp [hq, bind, Except.bind] at h
    | ok rq =>
      obtain ⟨tmp, w2⟩ := rq
      obtain ⟨hret, hin⟩ := hs _ _ w tmp w2 hq
      simp only [hq, bind, Except.bind] at h
      by_cases hstr : member.type.type = "string"
      · simp only [hstr, if_true, pure, Except.pure, Except.ok.injEq, Prod.mk.injEq] at h
        obtain ⟨rfl, rfl⟩ := h
        constructor
        · intro f hf
          cases hf
          exact ⟨hret.1, hin⟩
        · intro hc
          cases hc
      · simp only [hstr, if_false] at h
        by_cases hptr : member.type.isPointer = true
        · simp only [hptr, if_true, pure, Except.pure, Except.ok.injEq, Prod.mk.injEq] at h
          obtain ⟨rfl, rfl⟩ := h
          constructor
          · intro f hf
            cases hf
            exact ⟨hret.1, hin⟩
          · intro hc
            cases hc
        · simp only [hptr, Bool.false_eq_true, if_false] at h
          cases ht : tmp.target with
          | none =>
            simp only [ht] at h
            cases hrel : World.release d { w2 with errno := EINVAL } with
            | error err => simp [hrel] at h
            | ok w3 =>
              simp only [hrel, pure, Except.pure, Except.ok.injEq, Prod.mk.injEq] at h
              obtain ⟨hd, hw3⟩ := release_ok hrel
              obtain ⟨hr, hw⟩ := h
              subst hr
              subst hw
              constructor
              · intro f hf
                cases hf
              · intro _
                exact ⟨w2, hret.1, hd, hw3⟩
          | some obj =>
            simp only [ht] at h
            obtain ⟨_, hcase⟩ := target_some ht
            rcases hcase with rfl | ⟨a, rfl⟩
            · exact absurd rfl (hret.2.1 _)
            · obtain ⟨ha, hlive⟩ := hret.2.2 a _ rfl
              simp only [free, World.release, hlive, if_true, pure, Except.pure,
                Except.ok.injEq, Prod.mk.injEq] at h
              obtain ⟨hr, hw⟩ := h
              subst hr
              subst hw
              constructor
              · intro f hf
                cases hf
                refine ⟨frame_erase hret.1 ha, ?_⟩
                intro x hx
                exact hin x (by simp [Pointer.addrs, hx])
              · intro hc
                cases hc

theorem unmarshallMembers_cons {uv : UnmarshallValue} {v : JsonValue} {d : Nat}
    {member : memberinfo} {rest : List memberinfo} {w : World} {r : Option (List CVal)}
    {w1 : World} (h : unmarshallMembers uv v d (member :: rest) w = .ok (r, w1)) :
    (unmarshallMember uv v d member w = .ok (none, w1) ∧ r = none) ∨
    (∃ f w2 rs, unmarshallMember uv v d member w = .ok (some f, w2) ∧
      unmarshallMembers uv v d rest w2 = .ok (rs, w1) ∧
      r = rs.map (fun fs => f :: fs)) := by
  cases hm : unmarshallMember uv v d member w with
  | error err => simp [unmarshallMembers, hm, bind, Except.bind] at h
  | ok rm =>
    obtain ⟨rf, w2⟩ := rm
    cases rf with
    | none =>
      simp only [unmarshallMembers, hm, bind, Except.bind, pure, Except.pure,
        Except.ok.injEq, Prod.mk.injEq] at h
      obtain ⟨rfl, rfl⟩ := h
      exact Or.inl ⟨rfl, rfl⟩
    | some f =>
      cases hr : unmarshallMembers uv v d rest w2 with
      | error err => simp [unmarshallMembers, hm, hr, bind, Except.bind] at h
      | ok rr =>
        obtain ⟨rs, w3⟩ := rr
        cases rs with
        | none =>
          simp only [unmarshallMembers, hm, hr, bind, Except.bind, pure, Except.pure,
            Except.ok.injEq, Prod.mk.injEq] at h
          obtain ⟨rfl, rfl⟩ := h
          exact Or.inr ⟨f, w2, none, rfl, hr, rfl⟩
        | some fs =>
          simp only [unmarshallMembers, hm, hr, bind, Except.bind, pure, Except.pure,
            Except.ok.injEq, Prod.mk.injEq] at h
          obtain ⟨rfl, rfl⟩ := h
          exact Or.inr ⟨f, w2, some fs, rfl, hr, rfl⟩

theorem sound_members {uv : UnmarshallValue} (hs : Sound uv) (v : JsonValue) (d : Nat) :
    ∀ (ms : List memberinfo) (w : World) (r : Option (List CVal)) (w1 : World),
      unmarshallMembers uv v d ms w = .ok (r, w1) →
      (∀ fs, r = some fs → Frame w w1 ∧ ∀ x ∈ addrsMembers fs, w.next ≤ x ∧ x < w1.next) ∧
      (r = none → ∃ wm, Frame w wm ∧ Aborted d wm w1) := by
  intro ms
  induction ms with
  | nil =>
    intro w r w1 h
    simp only [unmarshallMembers, pure, Except.pure, Except.ok.injEq, Prod.mk.injEq] at h
    obtain ⟨rfl, rfl⟩ := h
    refine ⟨?_, fun hc => by cases hc⟩
    intro fs hfs
    cases hfs
    exact ⟨frame_refl _, fun x hx => by simp [addrsMembers] at hx⟩
  | cons m rest ih =>
    intro w r w1 h
    rcases unmarshallMembers_cons h with ⟨hm, rfl⟩ | ⟨f, w2, rs, hm, hr, rfl⟩
    · constructor
      · intro fs hfs
        cases hfs
      · intro _
        exact (sound_member hs v d m w none w1 hm).2 rfl
    · obtain ⟨hfr, hin⟩ := (sound_member hs v d m w (some f) w2 hm).1 f rfl
      obtain ⟨hsome, hnone⟩ := ih w2 rs w1 hr
      constructor
      · intro fs hfs
        cases rs with
        | none => cases hfs
        | some fs1 =>
          simp only [Option.map_some', Option.some.injEq] at hfs
          subst hfs
          obtain ⟨hfr2, hin2⟩ := hsome fs1 rfl
          refine ⟨frame_trans hfr hfr2, ?_⟩
          intro x hx
          simp only [addrsMembers, List.mem_append] at hx
          rcases hx with hx | hx
          · exact ⟨(hin x hx).1, lt_of_lt_of_le (hin x hx).2 hfr2.1⟩
          · exact ⟨le_trans hfr.1 (hin2 x hx).1, (hin2 x hx).2⟩
      · intro hn
        cases rs with
        | some fs1 => cases hn
        | none =>
          obtain ⟨wm, hfm, hab⟩ := hnone rfl
          exact ⟨wm, frame_trans hfr hfm, hab⟩

theorem generateUnmarshallFunction_object {info : structinfo} {uv : UnmarshallValue}
    {kvs : List (String × JsonValue)} {w : World} {p : Pointer} {w1 : World}
    (h : generateUnmarshallFunction info uv (.object kvs) w = .ok (p, w1)) :
    (unmarshallMembers uv (.object kvs) w.next info.members (malloc w).2 = .ok (none, w1) ∧
      p = .null) ∨
    (∃ fields, unmarshallMembers uv (.object kvs) w.next info.members (malloc w).2
        = .ok (some fields, w1) ∧ p = .alloc w.next (.struct fields)) := by
  cases hm : unmarshallMembers uv (.object kvs) w.next info.members (malloc w).2 with
  | error err =>
    simp only [malloc] at hm
    simp [generateUnmarshallFunction, malloc, hm, bind, Except.bind] at h
  | ok r =>
    obtain ⟨rs, w2⟩ := r
    simp only [malloc] at hm
    cases rs with
    | none =>
      simp only [generateUnmarshallFunction, malloc, hm, bind, Except.bind, pure, Except.pure,
        Except.ok.injEq, Prod.mk.injEq] at h
      obtain ⟨hp, hw⟩ := h
      subst hp
      subst hw
      exact Or.inl ⟨rfl, rfl⟩
    | some fields =>
      simp only [generateUnmarshallFunction, malloc, hm, bind, Except.bind, pure, Except.pure,
        Except.ok.injEq, Prod.mk.injEq] at h
      obtain ⟨hp, hw⟩ := h
      subst hp
      subst hw
      exact Or.inr ⟨fields, rfl, rfl⟩

theorem frame_aborted {w wm w1 : World} (hfr : Frame (malloc w).2 wm)
    (hab : Aborted w.next wm w1) : Frame w w1 := by
  obtain ⟨_, rfl⟩ := hab
  have h := frame_trans (frame_malloc w) hfr
  exact @frame_erase w { next := wm.next, live := wm.live, errno := EINVAL } w.next
    ⟨h.1, h.2⟩ (le_refl _)

theorem sound_generated {uv : UnmarshallValue} (hs : Sound uv) (info : structinfo) :
    ∀ (v : JsonValue) (w : World) (p : Pointer) (w1 : World),
      generateUnmarshallFunction info uv v w = .ok (p, w1) →
      Returned w p w1 ∧ ∀ x ∈ p.addrs, w.next ≤ x ∧ x < w1.next := by
  intro v w p w1 h
  have hnull : ∀ w0 : World, w0.next = w.next → w0.live = w.live →
      Returned w .null w0 ∧ ∀ x ∈ Pointer.addrs .null, w.next ≤ x ∧ x < w0.next := by
    intro w0 hn hl
    refine ⟨⟨⟨by rw [hn], fun b _ => by rw [hl]⟩, ?_, ?_⟩, ?_⟩
    · intro v hv
      cases hv
    · intro a v hv
      cases hv
    · intro x hx
      simp [Pointer.addrs] at hx
  cases v with
  | object kvs =>
    have hlt : w.next < (malloc w).2.next := by simp [malloc]
    rcases generateUnmarshallFunction_object h with ⟨hm, rfl⟩ | ⟨fields, hm, rfl⟩
    · obtain ⟨wm, hfr, hab⟩ := (sound_members hs _ _ _ _ _ _ hm).2 rfl
      refine ⟨⟨frame_aborted hfr hab, ?_, ?_⟩, ?_⟩
      · intro v hv
        cases hv
      · intro a v hv
        cases hv
      · intro x hx
        simp [Pointer.addrs] at hx
    · obtain ⟨hfr, hin⟩ := (sound_members hs _ _ _ _ _ _ hm).1 fields rfl
      refine ⟨⟨frame_trans (frame_malloc w) hfr, ?_, ?_⟩, ?_⟩
      · intro v hv
        cases hv
      · intro a v hv
        cases hv
        exact ⟨le_refl _, (hfr.2 w.next hlt).2 (by simp [malloc])⟩
      · intro x hx
        simp only [Pointer.addrs, CVal.addrs, List.mem_cons] at hx
        rcases hx with rfl | hx
        · exact ⟨le_refl _, lt_of_lt_of_le hlt hfr.1⟩
        · exact ⟨le_trans (Nat.le_succ _) (hin x hx).1, (hin x hx).2⟩
  | null => cases h; exact hnull _ rfl rfl
  | bool b => cases h; exact hnull _ rfl rfl
  | long n => cases h; exact hnull _ rfl rfl
  | double x => cases h; exact hnull _ rfl rfl
  | string s => cases h; exact hnull _ rfl rfl
  | array es => cases h; exact hnull _ rfl rfl

theorem sound_dispatcher (fp : FloatOps) {reg : List marshaller} (hgen : AllGenerated reg) :
    ∀ fuel, Sound (_json_unmarshall_value fp reg fuel) := by
  intro fuel
  induction fuel with
  | zero =>
    intro type j w p w1 h
    rw [unmarshall_value_unfold] at h
    rcases unmarshallValueBody_cases fp reg _ type j w (p, w1) h with hc | ⟨e, _, hcall⟩
    · exact sound_of_codecResult hc
    · cases hcall
  | succ n ih =>
    intro type j w p w1 h
    rw [unmarshall_value_unfold] at h
    rcases unmarshallValueBody_cases fp reg _ type j w (p, w1) h with hc | ⟨e, hfind, hcall⟩
    · exact sound_of_codecResult hc
    · obtain ⟨info, _, hu, _⟩ := hgen e (findMarshaller_name hfind).2
      simp only [hu] at hcall
      exact sound_generated ih info j w p w1 hcall

/-! ### Failure cases of the emitted unmarshal function -/

theorem embedded_primitive_cases {type : String} (h : isEmbeddedPrimitive type = true) :
    type = "char" ∨ type = "short" ∨ type = "int" ∨ type = "long" ∨ type = "long long" ∨
    type = "float" ∨ type = "double" ∨ type = "bool" := by
  simp only [isEmbeddedPrimitive, Bool.or_eq_true, decide_eq_true_eq] at h
  tauto

theorem unmarshall_null_json (fp : FloatOps) (reg : List marshaller) (fuel : Nat)
    (type : String) (j : JsonValue) (w : World) (h : j.type = .JSON_NULL) :
    _json_unmarshall_value fp reg fuel type j w = .ok (.null, w) := by
  cases j <;> first | (cases fuel <;> rfl) | cases h

theorem rejected_unmarshall (fp : FloatOps) (reg : List marshaller) (fuel : Nat)
    {type : String} {j : JsonValue} (hkind : isEmbeddedPrimitive type = true)
    (hrej : Rejected type j) (w : World) :
    _json_unmarshall_value fp reg fuel type j w = .ok (.null, w) := by
  rcases hrej with h | ⟨hk, h⟩ | ⟨hk, h1, h2⟩ | ⟨hk, h⟩
  · exact unmarshall_null_json fp reg fuel type j w h
  · simp only [List.mem_cons, List.mem_singleton, List.not_mem_nil, or_false] at hk
    rcases hk with rfl | rfl | rfl | rfl | rfl <;> cases j <;>
      first | exact absurd rfl h | (cases fuel <;> rfl)
  · simp only [List.mem_cons, List.mem_singleton, List.not_mem_nil, or_false] at hk
    rcases hk with rfl | rfl <;> cases j <;>
      first | exact absurd rfl h1 | exact absurd rfl h2 | (cases fuel <;> rfl)
  · subst hk
    cases j <;> first | exact absurd rfl h | (cases fuel <;> rfl)

theorem embedded_primitive_not_string {type : String} (h : isEmbeddedPrimitive type = true) :
    ¬ type = "string" := by
  intro hc
  rw [hc] at h
  exact absurd h (by decide)

theorem unmarshallMember_abort {uv : UnmarshallValue} {v : JsonValue} {d : Nat}
    {member : memberinfo} {w : World}
    (harr : member.type.isArray = false) (hptr : member.type.isPointer = false)
    (hstr : ¬ member.type.type = "string")
    (hnull : uv member.type.type (json_object_get v member.name) w = .ok (.null, w))
    (hd : d ∈ w.live) :
    unmarshallMember uv v d member w
      = .ok (none, { next := w.next, live := w.live.erase d, errno := EINVAL }) := by
  simp [unmarshallMember, harr, hptr, hstr, hnull, Pointer.target, World.release, hd, bind,
    Except.bind, pure, Except.pure]

theorem unmarshallMembers_append {uv : UnmarshallValue} {v : JsonValue} {d : Nat}
    (rest : List memberinfo) :
    ∀ (pre : List memberinfo) (w : World) (fields : List CVal) (wm : World),
      unmarshallMembers uv v d pre w = .ok (some fields, wm) →
      unmarshallMembers uv v d (pre ++ rest) w =
        (match unmarshallMembers uv v d rest wm with
          | .error err => .error err
          | .ok (none, w2) => .ok (none, w2)
          | .ok (some fs, w2) => .ok (some (fields ++ fs), w2)) := by
  intro pre
  induction pre with
  | nil =>
    intro w fields wm h
    simp only [unmarshallMembers, pure, Except.pure, Except.ok.injEq, Prod.mk.injEq,
      Option.some.injEq] at h
    obtain ⟨rfl, rfl⟩ := h
    simp only [List.nil_append]
    cases unmarshallMembers uv v d rest w with
    | error err => rfl
    | ok r =>
      obtain ⟨rs, w2⟩ := r
      cases rs <;> rfl
  | cons m pre ih =>
    intro w fields wm h
    rcases unmarshallMembers_cons h with ⟨_, hc⟩ | ⟨f, w2, rs, hm, hr, hrs⟩
    · cases hc
    · cases rs with
      | none => cases hrs
      | some fs1 =>
        simp only [Option.map_some', Option.some.injEq] at hrs
        subst hrs
        rw [List.cons_append]
        simp only [unmarshallMembers, hm, bind, Except.bind]
        rw [ih w2 fs1 wm hr]
        cases unmarshallMembers uv v d rest wm with
        | error err => rfl
        | ok r =>
          obtain ⟨rs, w3⟩ := r
          cases rs <;> rfl

theorem unmarshallMembers_reject {uv : UnmarshallValue} {v : JsonValue} {d : Nat} :
    ∀ (ms : List memberinfo) (w : World) (r : Option (List CVal)) (w1 : World)
      (member : memberinfo), member ∈ ms →
      member.type.isArray = false → member.type.isPointer = false →
      ¬ member.type.type = "string" →
      (∀ w0, uv member.type.type (json_object_get v member.name) w0 = .ok (.null, w0)) →
      unmarshallMembers uv v d ms w = .ok (r, w1) → r = none := by
  intro ms
  induction ms with
  | nil => intro w r w1 member hm; exact absurd hm (List.not_mem_nil _)
  | cons m rest ih =>
    intro w r w1 member hmem harr hptr hstr hnull h
    rcases unmarshallMembers_cons h with ⟨_, hr⟩ | ⟨f, w2, rs, hm, hr, hrs⟩
    · exact hr
    · rcases List.mem_cons.1 hmem with rfl | hmem
      · exfalso
        simp [unmarshallMember, harr, hptr, hstr, hnull w, Pointer.target, bind, Except.bind,
          pure, Except.pure] at hm
        cases hrel : World.release d { next := w.next, live := w.live, errno := EINVAL } with
        | error err => simp [hrel] at hm
        | ok w3 => simp [hrel] at hm
      · have := ih w2 rs w1 member hmem harr hptr hstr hnull hr
        subst this
        exact hrs

/-- C17. Failure cases of the emitted unmarshal function, with a registry of emitted functions:
a JSON value that is not an object gives the failure marker with `errno` set to `EINVAL`; if the
value found for some by-value primitive member is JSON null, absent, or of a variant its codec
rejects, every call that returns gives the failure marker with `errno` set to `EINVAL`; and when
the members before the first such member have been processed, the call returns the failure
marker at that member, whatever members follow, having released the record storage.  The value
found for an absent key counts as JSON null. -/
theorem C17_generated_unmarshal_failure (fp : FloatOps) (reg : List marshaller) (fuel : Nat)
    (info : structinfo) (hgen : AllGenerated reg) :
    (∀ v w, v.type ≠ .JSON_OBJECT →
      generateUnmarshallFunction info (_json_unmarshall_value fp reg fuel) v w
        = .ok (.null, { w with errno := EINVAL })) ∧
    (∀ v w member p w1, member ∈ info.members →
      member.type.isArray = false → member.type.isPointer = false →
      isEmbeddedPrimitive member.type.type = true →
      Rejected member.type.type (json_object_get v member.name) →
      generateUnmarshallFunction info (_json_unmarshall_value fp reg fuel) v w = .ok (p, w1) →
      p = .null ∧ w1.errno = EINVAL) ∧
    (∀ v w pre member post fields wm, v.type = .JSON_OBJECT →
      info.members = pre ++ member :: post →
      unmarshallMembers (_json_unmarshall_value fp reg fuel) v w.next pre (malloc w).2
        = .ok (some fields, wm) →
      member.type.isArray = false → member.type.isPointer = false →
      isEmbeddedPrimitive member.type.type = true →
      Rejected member.type.type (json_object_get v member.name) →
      generateUnmarshallFunction info (_json_unmarshall_value fp reg fuel) v w
        = .ok (.null, { next := wm.next, live := wm.live.erase w.next, errno := EINVAL })) ∧
    (∀ (kvs : List (String × JsonValue)) (name type : String), lookupKey name kvs = none →
      Rejected type (json_object_get (.object kvs) name)) := by
  have hs := sound_dispatcher fp hgen fuel
  refine ⟨?_, ?_, ?_, ?_⟩
  rotate_left 3
  · intro kvs name type habsent
    left
    simp only [json_object_get, habsent]
    rfl
  · intro v w hv
    cases v <;> first | exact absurd rfl hv | rfl
  · intro v w member p w1 hmem harr hptr hkind hrej h
    cases v with
    | object kvs =>
      rcases generateUnmarshallFunction_object h with ⟨hm, rfl⟩ | ⟨fields, hm, rfl⟩
      · obtain ⟨wm, _, _, hw⟩ := (sound_members hs _ _ _ _ _ _ hm).2 rfl
        exact ⟨rfl, by rw [hw]⟩
      · have := unmarshallMembers_reject info.members _ _ _ member hmem harr hptr
          (embedded_primitive_not_string hkind)
          (fun w0 => rejected_unmarshall fp reg fuel hkind hrej w0) hm
        cases this
    | null => cases h; exact ⟨rfl, rfl⟩
    | bool b => cases h; exact ⟨rfl, rfl⟩
    | long n => cases h; exact ⟨rfl, rfl⟩
    | double x => cases h; exact ⟨rfl, rfl⟩
    | string s => cases h; exact ⟨rfl, rfl⟩
    | array es => cases h; exact ⟨rfl, rfl⟩
  · intro v w pre member post fields wm hv hmembers hpre harr hptr hkind hrej
    cases v with
    | object kvs =>
      obtain ⟨hfr, _⟩ := (sound_members hs _ _ _ _ _ _ hpre).1 fields rfl
      have hd : w.next ∈ wm.live :=
        (hfr.2 w.next (by simp [malloc])).2 (by simp [malloc])
      have hab := @unmarshallMember_abort (_json_unmarshall_value fp reg fuel)
        (.object kvs) w.next member wm harr hptr (embedded_primitive_not_string hkind)
        (rejected_unmarshall fp reg fuel hkind hrej wm) hd
      have hrest : unmarshallMembers (_json_unmarshall_value fp reg fuel) (.object kvs) w.next
          (member :: post) wm
            = .ok (none, { next := wm.next, live := wm.live.erase w.next, errno := EINVAL }) := by
        simp only [unmarshallMembers, hab, bind, Except.bind, pure, Except.pure]
      have hall := unmarshallMembers_append (member :: post) pre _ fields wm hpre
      rw [hrest] at hall
      simp only [malloc] at hall
      simp only [generateUnmarshallFunction, malloc, hmembers, hall, bind, Except.bind, pure,
        Except.pure]
    | null => cases hv
    | bool b => cases hv
    | long n => cases hv
    | double x => cases hv
    | string s => cases hv
    | array es => cases hv

theorem example_allGenerated : AllGenerated exampleRegistry :=
  allGenerated_of_runConstructors (fun _ => 8) [pointInfo, lineInfo] [] exampleRegistry
    allGenerated_nil rfl

/-- Witness of C17: Scenario D, unmarshalling `{"x": "not a number", "y": 4}` into `Point`. -/
theorem C17_generated_unmarshal_failure_witness :
    AllGenerated exampleRegistry ∧
    generateUnmarshallFunction pointInfo (_json_unmarshall_value idFloat exampleRegistry 0)
        (.object [("x", .string "not a number"), ("y", .long 4)]) World.init
      = .ok (.null, { next := 2, live := [], errno := EINVAL }) :=
  ⟨example_allGenerated,
    (C17_generated_unmarshal_failure idFloat exampleRegistry 0 pointInfo
      example_allGenerated).2.2.1
      (.object [("x", .string "not a number"), ("y", .long 4)]) World.init []
      ⟨"x", ⟨"int", false, false⟩⟩ [⟨"y", ⟨"int", false, false⟩⟩] [] (malloc World.init).2
      rfl rfl rfl rfl rfl rfl
      (Or.inr (Or.inl ⟨by decide, by intro h; cases h⟩))⟩

/-! ### Members that never fail a record -/

theorem unmarshallMember_none_cause {uv : UnmarshallValue} {v : JsonValue} {d : Nat}
    {member : memberinfo} {w w1 : World}
    (h : unmarshallMember uv v d member w = .ok (none, w1)) :
    member.type.isArray = false ∧ member.type.isPointer = false ∧
    ¬ member.type.type = "string" ∧
    ∃ w3, uv member.type.type (json_object_get v member.name) w = .ok (.null, w3) := by
  unfold unmarshallMember at h
  by_cases harr : member.type.isArray = true
  · simp only [harr, if_true] at h
    cases ha : _json_unmarshall_array_value uv member.type.type
        (json_object_get v member.name) w with
    | error err => simp [ha, bind, Except.bind] at h
    | ok ra => simp [ha, bind, Except.bind, pure, Except.pure] at h
  · simp only [harr, Bool.false_eq_true, if_false] at h
    cases hq : uv member.type.type (json_object_get v member.name) w with
    | error err => simp [hq, bind, Except.bind] at h
    | ok rq =>
      obtain ⟨tmp, w2⟩ := rq
      simp only [hq, bind, Except.bind] at h
      by_cases hstr : member.type.type = "string"
      · simp [hstr, pure, Except.pure] at h
      · simp only [hstr, if_false] at h
        by_cases hptr : member.type.isPointer = true
        · simp [hptr, pure, Except.pure] at h
        · simp only [hptr, Bool.false_eq_true, if_false] at h
          cases tmp with
          | null => exact ⟨by simpa using harr, by simpa using hptr, hstr, w2, rfl⟩
          | alloc a obj =>
            simp only [Pointer.target] at h
            cases hf : free (.alloc a obj) w2 with
            | error err => simp [hf] at h
            | ok w3 => simp [hf, pure, Except.pure] at h
          | inner obj =>
            simp only [Pointer.target] at h
            cases hf : free (.inner obj) w2 with
            | error err => simp [hf] at h
            | ok w3 => simp [hf, pure, Except.pure] at h

theorem unmarshallMembers_none_cause {uv : UnmarshallValue} {v : JsonValue} {d : Nat} :
    ∀ (ms : List memberinfo) (w w1 : World),
      unmarshallMembers uv v d ms w = .ok (none, w1) →
      ∃ member ∈ ms, member.type.isArray = false ∧ member.type.isPointer = false ∧
        ¬ member.type.type = "string" ∧
        ∃ w2 w3, uv member.type.type (json_object_get v member.name) w2 = .ok (.null, w3) := by
  intro ms
  induction ms with
  | nil =>
    intro w w1 h
    simp [unmarshallMembers, pure, Except.pure] at h
  | cons m rest ih =>
    intro w w1 h
    rcases unmarshallMembers_cons h with ⟨hm, _⟩ | ⟨f, w2, rs, hm, hr, hrs⟩
    · obtain ⟨h1, h2, h3, w3, h4⟩ := unmarshallMember_none_cause hm
      exact ⟨m, List.mem_cons_self _ _, h1, h2, h3, w, w3, h4⟩
    · cases rs with
      | some fs => cases hrs
      | none =>
        obtain ⟨member, hmem, hrest⟩ := ih w2 w1 hr
        exact ⟨member, List.mem_cons_of_mem _ hmem, hrest⟩

/-- C18. Pointer, string and array members never fail a record: in the emitted unmarshal
function an array member stores whatever `_json_unmarshall_array_value` returns and a non-array
pointer or string member stores whatever `_json_unmarshall_value` returns, also when that is the
null pointer; a JSON value of the wrong variant makes that result the null pointer (a non-array
value for an array member, a non-string value for a string member, a non-object value for a
pointer to a record); and the emitted function returns the failure marker only for an input that
is not an object or when, for some by-value member that is not a string, the unmarshal result is
the null pointer. -/
theorem C18_pointer_members_never_fail (fp : FloatOps) (reg : List marshaller) (fuel : Nat)
    (v : JsonValue) (d : Nat) :
    (∀ (member : memberinfo) (w : World) (p : Pointer) (w1 : World),
      member.type.isArray = true →
      _json_unmarshall_array_value (_json_unmarshall_value fp reg fuel) member.type.type
        (json_object_get v member.name) w = .ok (p, w1) →
      unmarshallMember (_json_unmarshall_value fp reg fuel) v d member w
        = .ok (some (.pointer p), w1)) ∧
    (∀ (member : memberinfo) (w : World) (p : Pointer) (w1 : World),
      member.type.isArray = false →
      (member.type.isPointer = true ∨ member.type.type = "string") →
      _json_unmarshall_value fp reg fuel member.type.type (json_object_get v member.name) w
        = .ok (p, w1) →
      unmarshallMember (_json_unmarshall_value fp reg fuel) v d member w
        = .ok (some (.pointer p), w1)) ∧
    (∀ (type : String) (j : JsonValue) (w : World), j.type ≠ .JSON_ARRAY →
      _json_unmarshall_array_value (_json_unmarshall_value fp reg fuel) type j w
        = .ok (.null, w)) ∧
    (∀ (j : JsonValue) (w : World), j.type ≠ .JSON_STRING →
      _json_unmarshall_value fp reg fuel "string" j w = .ok (.null, w)) ∧
    (∀ (type : String) (e : marshaller) (info : structinfo) (j : JsonValue) (w : World),
      isPrimitiveKind type = false → findMarshaller reg type = some e →
      e.unmarshaller = generateUnmarshallFunction info →
      j.type ≠ .JSON_NULL → j.type ≠ .JSON_OBJECT →
      _json_unmarshall_value fp reg (fuel + 1) type j w
        = .ok (.null, { w with errno := EINVAL })) ∧
    (∀ (info : structinfo) (w w1 : World),
      generateUnmarshallFunction info (_json_unmarshall_value fp reg fuel) v w
        = .ok (.null, w1) →
      v.type ≠ .JSON_OBJECT ∨
      ∃ member ∈ info.members, member.type.isArray = false ∧
        member.type.isPointer = false ∧ ¬ member.type.type = "string" ∧
        ∃ w2 w3, _json_unmarshall_value fp reg fuel member.type.type
          (json_object_get v member.name) w2 = .ok (.null, w3)) := by
  refine ⟨?_, ?_, ?_, ?_, ?_, ?_⟩
  · intro member w p w1 harr h
    simp only [unmarshallMember, harr, if_true, h, bind, Except.bind, pure, Except.pure]
  · intro member w p w1 harr hps h
    rcases hps with hp | hs
    · by_cases hstr : member.type.type = "string"
      · rw [hstr] at h
        simp [unmarshallMember, harr, hstr, h, bind, Except.bind, pure, Except.pure]
      · simp [unmarshallMember, harr, hstr, hp, h, bind, Except.bind, pure, Except.pure]
    · rw [hs] at h
      simp [unmarshallMember, harr, hs, h, bind, Except.bind, pure, Except.pure]
  · intro type j w hj
    cases j <;> first | exact absurd rfl hj | rfl
  · intro j w hj
    cases j <;> first | exact absurd rfl hj | (cases fuel <;> rfl)
  · intro type e info j w hprim hfind hu hnull hobj
    rw [unmarshall_value_registered fp fuel w hprim hfind hnull, hu]
    cases j <;> first | exact absurd rfl hobj | rfl
  · intro info w w1 h
    cases v with
    | object kvs =>
      right
      rcases generateUnmarshallFunction_object h with ⟨hm, _⟩ | ⟨fields, _, hp⟩
      · exact unmarshallMembers_none_cause info.members _ _ hm
      · cases hp
    | null => exact Or.inl (by intro hc; cases hc)
    | bool b => exact Or.inl (by intro hc; cases hc)
    | long n => exact Or.inl (by intro hc; cases hc)
    | double x => exact Or.inl (by intro hc; cases hc)
    | string s => exact Or.inl (by intro hc; cases hc)
    | array es => exact Or.inl (by intro hc; cases hc)

/-- Evaluation for C18: `Line` unmarshalled from `{"a": 5, "b": "text"}` is a record whose two
pointers are null. -/
theorem example_wrong_variant_members :
    _json_unmarshall_value idFloat exampleRegistry 2 "Line"
        (.object [("a", .long 5), ("b", .string "text")]) World.init
      = .ok (.alloc 1 (.struct [.pointer .null, .pointer .null]),
          { next := 2, live := [1], errno := EINVAL }) :=
  rfl

/-! ### Partial failure -/

/-- C14 fails on the code: unmarshalling `{"name": "a", "x": "bad"}` into
`Named{string name; int x;}` returns the failure marker while the allocation made for `name`
(allocation 2) is still live; only the record storage (allocation 1) was released.  Scenario D
itself retains nothing, because its first member already fails. -/
theorem C14_leak_on_partial_failure :
    _json_unmarshall_value idFloat namedRegistry 1 "Named"
        (.object [("name", .string "a"), ("x", .string "bad")]) World.init
      = .ok (.null, { next := 3, live := [2], errno := EINVAL }) ∧
    _json_unmarshall_value idFloat namedRegistry 1 "Point"
        (.object [("x", .string "not a number"), ("y", .long 4)]) World.init
      = .ok (.null, { next := 2, live := [], errno := EINVAL }) :=
  ⟨rfl, rfl⟩

/-! ### Freeing releases only what is reachable -/

theorem free_only {p : Pointer} {w w1 : World} (h : free p w = .ok w1) :
    ∀ b, b ∉ p.addrs → (b ∈ w1.live ↔ b ∈ w.live) := by
  intro b hb
  cases p with
  | null =>
    cases h
    exact Iff.rfl
  | alloc a v =>
    simp only [free] at h
    obtain ⟨_, rfl⟩ := release_ok h
    have hne : b ≠ a := by
      intro hc
      exact hb (by simp [Pointer.addrs, hc])
    simp only [List.mem_erase_of_ne hne]
  | inner v => cases h

theorem freeElements_only :
    ∀ (ps : List Pointer) (w w1 : World), freeElements ps w = .ok w1 →
      ∀ b, b ∉ addrsSlots ps → (b ∈ w1.live ↔ b ∈ w.live) := by
  intro ps
  induction ps with
  | nil => intro w w1 h; cases h
  | cons p rest ih =>
    intro w w1 h b hb
    simp only [addrsSlots, List.mem_append, not_or] at hb
    cases p with
    | null =>
      cases h
      exact Iff.rfl
    | alloc a v =>
      cases hf : free (.alloc a v) w with
      | error err => simp [freeElements, hf, bind, Except.bind] at h
      | ok w2 =>
        simp only [freeElements, hf, bind, Except.bind] at h
        exact (ih w2 w1 h b hb.2).trans (free_only hf b hb.1)
    | inner v =>
      simp [freeElements, free, bind, Except.bind, throw, throwThe, MonadExceptOf.throw] at h

theorem freeElementsWith_only {elementFree : Pointer → Bool → World → Res World}
    (hel : ∀ p this w w1, elementFree p this w = .ok w1 →
      ∀ b, b ∉ p.addrs → (b ∈ w1.live ↔ b ∈ w.live)) :
    ∀ (ps : List Pointer) (w w1 : World), freeElementsWith elementFree ps w = .ok w1 →
      ∀ b, b ∉ addrsSlots ps → (b ∈ w1.live ↔ b ∈ w.live) := by
  intro ps
  induction ps with
  | nil => intro w w1 h; cases h
  | cons p rest ih =>
    intro w w1 h b hb
    simp only [addrsSlots, List.mem_append, not_or] at hb
    cases p with
    | null =>
      cases h
      exact Iff.rfl
    | alloc a v =>
      cases hf : elementFree (.alloc a v) true w with
      | error err => simp [freeElementsWith, hf, bind, Except.bind] at h
      | ok w2 =>
        simp only [freeElementsWith, hf, bind, Except.bind] at h
        exact (ih w2 w1 h b hb.2).trans (hel _ _ _ _ hf b hb.1)
    | inner v =>
      cases hf : elementFree (.inner v) true w with
      | error err => simp [freeElementsWith, hf, bind, Except.bind] at h
      | ok w2 =>
        simp only [freeElementsWith, hf, bind, Except.bind] at h
        exact (ih w2 w1 h b hb.2).trans (hel _ _ _ _ hf b hb.1)

theorem freeMember_only {fs : FreeStruct} {fa : FreeArray} (hfs : FreeOnly fs)
    (hfa : FreeArrayOnly fa) (member : memberinfo) (field : CVal) (w w1 : World)
    (h : freeMember fs fa member field w = .ok w1) :
    ∀ b, b ∉ field.addrs → (b ∈ w1.live ↔ b ∈ w.live) := by
  intro b hb
  unfold freeMember at h
  by_cases harr : member.type.isArray = true
  · rw [if_pos harr] at h
    cases field with
    | pointer p => exact hfa _ p w w1 h b (by simpa [CVal.addrs] using hb)
    | _ => cases h
  · rw [if_neg harr] at h
    by_cases hps : (member.type.isPointer || decide (member.type.type = "string")) = true
    · rw [if_pos hps] at h
      cases field with
      | pointer p => exact hfs _ p true w w1 h b (by simpa [CVal.addrs] using hb)
      | _ => cases h
    · rw [if_neg hps] at h
      by_cases hemb : (!isEmbeddedPrimitive member.type.type) = true
      · rw [if_pos hemb] at h
        exact hfs _ _ false w w1 h b (by simpa [Pointer.addrs] using hb)
      · rw [if_neg hemb] at h
        cases h
        exact Iff.rfl

theorem freeMembers_only {fs : FreeStruct} {fa : FreeArray} (hfs : FreeOnly fs)
    (hfa : FreeArrayOnly fa) :
    ∀ (ms : List memberinfo) (fields : List CVal) (w w1 : World),
      freeMembers fs fa ms fields w = .ok w1 →
      ∀ b, b ∉ addrsMembers fields → (b ∈ w1.live ↔ b ∈ w.live) := by
  intro ms
  induction ms with
  | nil =>
    intro fields w w1 h b _
    cases fields with
    | nil =>
      cases h
      exact Iff.rfl
    | cons f fs1 => cases h
  | cons m rest ih =>
    intro fields w w1 h b hb
    cases fields with
    | nil => cases h
    | cons f fs1 =>
      simp only [addrsMembers, List.mem_append, not_or] at hb
      cases hm : freeMember fs fa m f w with
      | error err => simp [freeMembers, hm, bind, Except.bind] at h
      | ok w2 =>
        simp only [freeMembers, hm, bind, Except.bind] at h
        exact (ih fs1 w2 w1 h b hb.2).trans (freeMember_only hfs hfa m f w w2 hm b hb.1)

theorem generateFreeFunction_only {fs : FreeStruct} {fa : FreeArray} (hfs : FreeOnly fs)
    (hfa : FreeArrayOnly fa) (info : structinfo) (p : Pointer) (this : Bool) (w w1 : World)
    (h : generateFreeFunction info fs fa p this w = .ok w1) :
    ∀ b, b ∉ p.addrs → (b ∈ w1.live ↔ b ∈ w.live) := by
  intro b hb
  unfold generateFreeFunction at h
  cases hn : p.isNull with
  | true =>
    simp only [hn, if_true] at h
    cases h
    exact Iff.rfl
  | false =>
    simp only [hn, Bool.false_eq_true, if_false] at h
    cases ht : p.target with
    | none => simp [ht, throw, throwThe, MonadExceptOf.throw] at h
    | some v =>
      cases v with
      | struct fields =>
        simp only [ht] at h
        have hsub : b ∉ addrsMembers fields := by
          intro hc
          apply hb
          rcases (target_some ht).2 with rfl | ⟨a, rfl⟩
          · simpa [Pointer.addrs, CVal.addrs] using hc
          · simp [Pointer.addrs, CVal.addrs, hc]
        cases hm : freeMembers fs fa info.members fields w with
        | error err => simp [hm, bind, Except.bind] at h
        | ok w2 =>
          simp only [hm, bind, Except.bind] at h
          have h2 := freeMembers_only hfs hfa info.members fields w w2 hm b hsub
          cases this with
          | true =>
            simp only [if_true] at h
            exact (free_only h b hb).trans h2
          | false =>
            simp only [Bool.false_eq_true, if_false] at h
            cases h
            exact h2
      | _ => simp [ht, throw, throwThe, MonadExceptOf.throw] at h

theorem freeStructBody_only {reg : List marshaller}
    {call : marshaller → Pointer → Bool → World → Res World}
    (hcall : ∀ e ∈ reg, ∀ p this w w1, call e p this w = .ok w1 →
      ∀ b, b ∉ p.addrs → (b ∈ w1.live ↔ b ∈ w.live)) :
    FreeOnly (freeStructBody reg call) := by
  intro type p this w w1 h b hb
  unfold freeStructBody at h
  cases hn : p.isNull with
  | true =>
    simp only [hn, if_true] at h
    cases h
    exact Iff.rfl
  | false =>
    simp only [hn, Bool.false_eq_true, if_false] at h
    cases hp : isPrimitiveKind type with
    | true =>
      simp only [hp, if_true] at h
      cases this with
      | true =>
        simp only [if_true] at h
        exact free_only h b hb
      | false =>
        simp only [Bool.false_eq_true, if_false] at h
        cases h
        exact Iff.rfl
    | false =>
      simp only [hp, Bool.false_eq_true, if_false] at h
      cases hf : findMarshaller reg type with
      | none =>
        rw [hf] at h
        cases h
      | some e =>
        rw [hf] at h
        exact hcall e (findMarshaller_name hf).2 p this w w1 h b hb

theorem freeArrayBody_only {reg : List marshaller}
    {call : marshaller → Pointer → Bool → World → Res World}
    (hcall : ∀ e ∈ reg, ∀ p this w w1, call e p this w = .ok w1 →
      ∀ b, b ∉ p.addrs → (b ∈ w1.live ↔ b ∈ w.live)) :
    FreeArrayOnly (freeArrayBody reg call) := by
  intro type p w w1 h b hb
  unfold freeArrayBody at h
  cases hn : p.isNull with
  | true =>
    simp only [hn, if_true] at h
    cases h
    exact Iff.rfl
  | false =>
    simp only [hn, Bool.false_eq_true, if_false] at h
    have hslots : ∀ ps, p.target = some (.slots ps) → b ∉ addrsSlots ps := by
      intro ps ht hc
      apply hb
      rcases (target_some ht).2 with rfl | ⟨a, rfl⟩
      · simpa [Pointer.addrs, CVal.addrs] using hc
      · simp [Pointer.addrs, CVal.addrs, hc]
    cases hp : isPrimitiveKind type with
    | true =>
      simp only [hp, if_true] at h
      cases ht : p.target with
      | none => simp [ht, throw, throwThe, MonadExceptOf.throw] at h
      | some v =>
        cases v with
        | slots ps =>
          simp only [ht] at h
          cases he : freeElements ps w with
          | error err => simp [he, bind, Except.bind] at h
          | ok w2 =>
            simp only [he, bind, Except.bind] at h
            exact (free_only h b hb).trans (freeElements_only ps w w2 he b (hslots ps ht))
        | _ => simp [ht, throw, throwThe, MonadExceptOf.throw] at h
    | false =>
      simp only [hp, Bool.false_eq_true, if_false] at h
      cases hf : findMarshaller reg type with
      | none =>
        rw [hf] at h
        cases h
      | some e =>
        rw [hf] at h
        cases ht : p.target with
        | none => simp [ht, throw, throwThe, MonadExceptOf.throw] at h
        | some v =>
          cases v with
          | slots ps =>
            simp only [ht] at h
            cases he : freeElementsWith (call e) ps w with
            | error err => simp [he, bind, Except.bind] at h
            | ok w2 =>
              simp only [he, bind, Except.bind] at h
              exact (free_only h b hb).trans
                (freeElementsWith_only (hcall e (findMarshaller_name hf).2) ps w w2 he b
                  (hslots ps ht))
          | _ => simp [ht, throw, throwThe, MonadExceptOf.throw] at h

theorem free_dispatcher_only {reg : List marshaller} (hgen : AllGenerated reg) :
    ∀ fuel, FreeOnly (_json_free_struct reg fuel) ∧ FreeArrayOnly (_json_free_array reg fuel) := by
  intro fuel
  induction fuel with
  | zero =>
    have hcall : ∀ e ∈ reg, ∀ (p : Pointer) (this : Bool) (w w1 : World),
        (fun (_ : marshaller) (_ : Pointer) (_ : Bool) (_ : World) =>
          (throw Fault.fuel : Res World)) e p this w = .ok w1 →
        ∀ b, b ∉ p.addrs → (b ∈ w1.live ↔ b ∈ w.live) := by
      intro e _ p this w w1 h
      cases h
    constructor
    · rw [free_struct_unfold]
      exact freeStructBody_only hcall
    · rw [free_array_unfold]
      exact freeArrayBody_only hcall
  | succ n ih =>
    have hcall : ∀ e ∈ reg, ∀ (p : Pointer) (this : Bool) (w w1 : World),
        (fun (marshaller : marshaller) =>
          marshaller.free (_json_free_struct reg n) (_json_free_array reg n)) e p this w
            = .ok w1 →
        ∀ b, b ∉ p.addrs → (b ∈ w1.live ↔ b ∈ w.live) := by
      intro e he p this w w1 h
      obtain ⟨info, _, _, hfree⟩ := hgen e he
      simp only [hfree] at h
      exact generateFreeFunction_only ih.1 ih.2 info p this w w1 h
    constructor
    · rw [free_struct_unfold]
      exact freeStructBody_only hcall
    · rw [free_array_unfold]
      exact freeArrayBody_only hcall

/-! ### Properties of the allocator state that freeing keeps -/

theorem free_keeps {P : World → Prop} (hP : ReleaseStable P) {p : Pointer} {w w1 : World}
    (h : free p w = .ok w1) : P w → P w1 := by
  intro hw
  cases p with
  | null =>
    cases h
    exact hw
  | alloc a v => exact hP a w w1 h hw
  | inner v => cases h

theorem freeElements_keeps {P : World → Prop} (hP : ReleaseStable P) :
    ∀ (ps : List Pointer) (w w1 : World), freeElements ps w = .ok w1 → P w → P w1 := by
  intro ps
  induction ps with
  | nil => intro w w1 h; cases h
  | cons p rest ih =>
    intro w w1 h hw
    cases p with
    | null =>
      cases h
      exact hw
    | alloc a v =>
      cases hf : free (.alloc a v) w with
      | error err => simp [freeElements, hf, bind, Except.bind] at h
      | ok w2 =>
        simp only [freeElements, hf, bind, Except.bind] at h
        exact ih w2 w1 h (free_keeps hP hf hw)
    | inner v =>
      simp [freeElements, free, bind, Except.bind, throw, throwThe, MonadExceptOf.throw] at h

theorem freeElementsWith_keeps {P : World → Prop}
    {elementFree : Pointer → Bool → World → Res World}
    (hel : ∀ p this w w1, elementFree p this w = .ok w1 → P w → P w1) :
    ∀ (ps : List Pointer) (w w1 : World), freeElementsWith elementFree ps w = .ok w1 →
      P w → P w1 := by
  intro ps
  induction ps with
  | nil => intro w w1 h; cases h
  | cons p rest ih =>
    intro w w1 h hw
    cases p with
    | null =>
      cases h
      exact hw
    | alloc a v =>
      cases hf : elementFree (.alloc a v) true w with
      | error err => simp [freeElementsWith, hf, bind, Except.bind] at h
      | ok w2 =>
        simp only [freeElementsWith, hf, bind, Except.bind] at h
        exact ih w2 w1 h (hel _ _ _ _ hf hw)
    | inner v =>
      cases hf : elementFree (.inner v) true w with
      | error err => simp [freeElementsWith, hf, bind, Except.bind] at h
      | ok w2 =>
        simp only [freeElementsWith, hf, bind, Except.bind] at h
        exact ih w2 w1 h (hel _ _ _ _ hf hw)

theorem freeMember_keeps {P : World → Prop} {fs : FreeStruct} {fa : FreeArray}
    (hfs : ∀ type p this w w1, fs type p this w = .ok w1 → P w → P w1)
    (hfa : ∀ type p w w1, fa type p w = .ok w1 → P w → P w1)
    (member : memberinfo) (field : CVal) (w w1 : World)
    (h : freeMember fs fa member field w = .ok w1) : P w → P w1 := by
  intro hw
  unfold freeMember at h
  by_cases harr : member.type.isArray = true
  · rw [if_pos harr] at h
    cases field with
    | pointer p => exact hfa _ p w w1 h hw
    | _ => cases h
  · rw [if_neg harr] at h
    by_cases hps : (member.type.isPointer || decide (member.type.type = "string")) = true
    · rw [if_pos hps] at h
      cases field with
      | pointer p => exact hfs _ p true w w1 h hw
      | _ => cases h
    · rw [if_neg hps] at h
      by_cases hemb : (!isEmbeddedPrimitive member.type.type) = true
      · rw [if_pos hemb] at h
        exact hfs _ _ false w w1 h hw
      · rw [if_neg hemb] at h
        cases h
        exact hw

theorem freeMembers_keeps {P : World → Prop} {fs : FreeStruct} {fa : FreeArray}
    (hfs : ∀ type p this w w1, fs type p this w = .ok w1 → P w → P w1)
    (hfa : ∀ type p w w1, fa type p w = .ok w1 → P w → P w1) :
    ∀ (ms : List memberinfo) (fields : List CVal) (w w1 : World),
      freeMembers fs fa ms fields w = .ok w1 → P w → P w1 := by
  intro ms
  induction ms with
  | nil =>
    intro fields w w1 h hw
    cases fields with
    | nil =>
      cases h
      exact hw
    | cons f fs1 => cases h
  | cons m rest ih =>
    intro fields w w1 h hw
    cases fields with
    | nil => cases h
    | cons f fs1 =>
      cases hm : freeMember fs fa m f w with
      | error err => simp [freeMembers, hm, bind, Except.bind] at h
      | ok w2 =>
        simp only [freeMembers, hm, bind, Except.bind] at h
        exact ih fs1 w2 w1 h (freeMember_keeps hfs hfa m f w w2 hm hw)

/-- The emitted free function runs the member statements and then, when the flag is set,
releases the record. -/
theorem generateFreeFunction_ok {fs : FreeStruct} {fa : FreeArray} {info : structinfo}
    {p : Pointer} {this : Bool} {w w1 : World} (hp : p.isNull = false)
    (h : generateFreeFunction info fs fa p this w = .ok w1) :
    ∃ fields w2, p.target = some (.struct fields) ∧
      freeMembers fs fa info.members fields w = .ok w2 ∧
      (if this then free p w2 else pure w2) = .ok w1 := by
  unfold generateFreeFunction at h
  simp only [hp, Bool.false_eq_true, if_false] at h
  cases ht : p.target with
  | none => simp [ht, throw, throwThe, MonadExceptOf.throw] at h
  | some v =>
    cases v with
    | struct fields =>
      simp only [ht] at h
      cases hm : freeMembers fs fa info.members fields w with
      | error err => simp [hm, bind, Except.bind] at h
      | ok w2 =>
        simp only [hm, bind, Except.bind] at h
        exact ⟨fields, w2, rfl, hm, h⟩
    | _ => simp [ht, throw, throwThe, MonadExceptOf.throw] at h

theorem generateFreeFunction_keeps {P : World → Prop} (hP : ReleaseStable P)
    {fs : FreeStruct} {fa : FreeArray}
    (hfs : ∀ type p this w w1, fs type p this w = .ok w1 → P w → P w1)
    (hfa : ∀ type p w w1, fa type p w = .ok w1 → P w → P w1)
    (info : structinfo) (p : Pointer) (this : Bool) (w w1 : World)
    (h : generateFreeFunction info fs fa p this w = .ok w1) : P w → P w1 := by
  intro hw
  cases hn : p.isNull with
  | true =>
    simp only [generateFreeFunction, hn, if_true] at h
    cases h
    exact hw
  | false =>
    obtain ⟨fields, w2, _, hm, hlast⟩ := generateFreeFunction_ok hn h
    have hw2 := freeMembers_keeps hfs hfa info.members fields w w2 hm hw
    cases this with
    | true =>
      simp only [if_true] at hlast
      exact free_keeps hP hlast hw2
    | false =>
      simp only [Bool.false_eq_true, if_false] at hlast
      cases hlast
      exact hw2

theorem freeStructBody_keeps {P : World → Prop} (hP : ReleaseStable P)
    {reg : List marshaller} {call : marshaller → Pointer → Bool → World → Res World}
    (hcall : ∀ e ∈ reg, ∀ p this w w1, call e p this w = .ok w1 → P w → P w1) :
    ∀ type p this w w1, freeStructBody reg call type p this w = .ok w1 → P w → P w1 := by
  intro type p this w w1 h hw
  unfold freeStructBody at h
  cases hn : p.isNull with
  | true =>
    simp only [hn, if_true] at h
    cases h
    exact hw
  | false =>
    simp only [hn, Bool.false_eq_true, if_false] at h
    cases hp : isPrimitiveKind type with
    | true =>
      simp only [hp, if_true] at h
      cases this with
      | true =>
        simp only [if_true] at h
        exact free_keeps hP h hw
      | false =>
        simp only [Bool.false_eq_true, if_false] at h
        cases h
        exact hw
    | false =>
      simp only [hp, Bool.false_eq_true, if_false] at h
      cases hf : findMarshaller reg type with
      | none =>
        rw [hf] at h
        cases h
      | some e =>
        rw [hf] at h
        exact hcall e (findMarshaller_name hf).2 p this w w1 h hw

theorem freeArrayBody_keeps {P : World → Prop} (hP : ReleaseStable P)
    {reg : List marshaller} {call : marshaller → Pointer → Bool → World → Res World}
    (hcall : ∀ e ∈ reg, ∀ p this w w1, call e p this w = .ok w1 → P w → P w1) :
    ∀ type p w w1, freeArrayBody reg call type p w = .ok w1 → P w → P w1 := by
  intro type p w w1 h hw
  unfold freeArrayBody at h
  cases hn : p.isNull with
  | true =>
    simp only [hn, if_true] at h
    cases h
    exact hw
  | false =>
    simp only [hn, Bool.false_eq_true, if_false] at h
    cases hp : isPrimitiveKind type with
    | true =>
      simp only [hp, if_true] at h
      cases ht : p.target with
      | none => simp [ht, throw, throwThe, MonadExceptOf.throw] at h
      | some v =>
        cases v with
        | slots ps =>
          simp only [ht] at h
          cases he : freeElements ps w with
          | error err => simp [he, bind, Except.bind] at h
          | ok w2 =>
            simp only [he, bind, Except.bind] at h
            exact free_keeps hP h (freeElements_keeps hP ps w w2 he hw)
        | _ => simp [ht, throw, throwThe, MonadExceptOf.throw] at h
    | false =>
      simp only [hp, Bool.false_eq_true, if_false] at h
      cases hf : findMarshaller reg type with
      | none =>
        rw [hf] at h
        cases h
      | some e =>
        rw [hf] at h
        cases ht : p.target with
        | none => simp [ht, throw, throwThe, MonadExceptOf.throw] at h
        | some v =>
          cases v with
          | slots ps =>
            simp only [ht] at h
            cases he : freeElementsWith (call e) ps w with
            | error err => simp [he, bind, Except.bind] at h
            | ok w2 =>
              simp only [he, bind, Except.bind] at h
              exact free_keeps hP h
                (freeElementsWith_keeps (hcall e (findMarshaller_name hf).2) ps w w2 he hw)
          | _ => simp [ht, throw, throwThe, MonadExceptOf.throw] at h

theorem free_dispatcher_keeps {P : World → Prop} (hP : ReleaseStable P)
    {reg : List marshaller} (hgen : AllGenerated reg) :
    ∀ fuel,
      (∀ type p this w w1, _json_free_struct reg fuel type p this w = .ok w1 → P w → P w1) ∧
      (∀ type p w w1, _json_free_array reg fuel type p w = .ok w1 → P w → P w1) := by
  intro fuel
  induction fuel with
  | zero =>
    have hcall : ∀ e ∈ reg, ∀ (p : Pointer) (this : Bool) (w w1 : World),
        (fun (_ : marshaller) (_ : Pointer) (_ : Bool) (_ : World) =>
          (throw Fault.fuel : Res World)) e p this w = .ok w1 → P w → P w1 := by
      intro e _ p this w w1 h
      cases h
    constructor
    · rw [free_struct_unfold]
      exact freeStructBody_keeps hP hcall
    · rw [free_array_unfold]
      exact freeArrayBody_keeps hP hcall
  | succ n ih =>
    have hcall : ∀ e ∈ reg, ∀ (p : Pointer) (this : Bool) (w w1 : World),
        (fun (marshaller : marshaller) =>
          marshaller.free (_json_free_struct reg n) (_json_free_array reg n)) e p this w
            = .ok w1 → P w → P w1 := by
      intro e he p this w w1 h
      obtain ⟨info, _, _, hfree⟩ := hgen e he
      simp only [hfree] at h
      exact generateFreeFunction_keeps hP ih.1 ih.2 info p this w w1 h
    constructor
    · rw [free_struct_unfold]
      exact freeStructBody_keeps hP hcall
    · rw [free_array_unfold]
      exact freeArrayBody_keeps hP hcall

/-! ### Null holes in unmarshalled arrays -/

theorem freeElements_truncate (tail : List Pointer) :
    ∀ (good : List Pointer) (w : World), (∀ q ∈ good, q ≠ .null) →
      freeElements (good ++ .null :: tail) w = freeElements (good ++ [.null]) w := by
  intro good
  induction good with
  | nil => intro w _; rfl
  | cons q rest ih =>
    intro w h
    have hq := h q (List.mem_cons_self _ _)
    have hrest := fun w2 => ih w2 (fun x hx => h x (List.mem_cons_of_mem _ hx))
    cases q with
    | null => exact absurd rfl hq
    | alloc a v =>
      rw [List.cons_append, List.cons_append]
      simp only [freeElements, bind, Except.bind]
      cases free (.alloc a v) w with
      | error err => rfl
      | ok w2 => exact hrest w2
    | inner v =>
      rw [List.cons_append, List.cons_append]
      simp only [freeElements, bind, Except.bind]
      cases free (.inner v) w with
      | error err => rfl
      | ok w2 => exact hrest w2

theorem freeElementsWith_truncate (elementFree : Pointer → Bool → World → Res World)
    (tail : List Pointer) :
    ∀ (good : List Pointer) (w : World), (∀ q ∈ good, q ≠ .null) →
      freeElementsWith elementFree (good ++ .null :: tail) w
        = freeElementsWith elementFree (good ++ [.null]) w := by
  intro good
  induction good with
  | nil => intro w _; rfl
  | cons q rest ih =>
    intro w h
    have hq := h q (List.mem_cons_self _ _)
    have hrest := fun w2 => ih w2 (fun x hx => h x (List.mem_cons_of_mem _ hx))
    cases q with
    | null => exact absurd rfl hq
    | alloc a v =>
      rw [List.cons_append, List.cons_append]
      simp only [freeElementsWith, bind, Except.bind]
      cases elementFree (.alloc a v) true w with
      | error err => rfl
      | ok w2 => exact hrest w2
    | inner v =>
      rw [List.cons_append, List.cons_append]
      simp only [freeElementsWith, bind, Except.bind]
      cases elementFree (.inner v) true w with
      | error err => rfl
      | ok w2 => exact hrest w2

theorem free_array_truncate (reg : List marshaller) (fuel : Nat) (type : String) (a : Nat)
    (good tail : List Pointer) (w : World) (hgood : ∀ q ∈ good, q ≠ .null) :
    _json_free_array reg fuel type (.alloc a (.slots (good ++ .null :: tail))) w
      = _json_free_array reg fuel type (.alloc a (.slots (good ++ [.null]))) w := by
  rw [free_array_unfold]
  simp only [freeArrayBody, Pointer.isNull, Pointer.target, free, Bool.false_eq_true, if_false,
    freeElements_truncate tail good _ hgood, freeElementsWith_truncate _ tail good _ hgood]

theorem unmarshallElements_split {uv : UnmarshallValue} {type : String} (bad : JsonValue)
    (post : List JsonValue) :
    ∀ (pre : List JsonValue) (w : World) (ps : List Pointer) (w1 : World),
      unmarshallElements uv type (pre ++ bad :: post) w = .ok (ps, w1) →
      ∃ good wk q wq tail, unmarshallElements uv type pre w = .ok (good, wk) ∧
        uv type bad wk = .ok (q, wq) ∧ unmarshallElements uv type post wq = .ok (tail, w1) ∧
        ps = good ++ q :: tail := by
  intro pre
  induction pre with
  | nil =>
    intro w ps w1 h
    obtain ⟨q, w2, qs, hq, hr, hps⟩ := unmarshallElements_cons h
    exact ⟨[], w, q, w2, qs, rfl, hq, hr, hps⟩
  | cons e rest ih =>
    intro w ps w1 h
    rw [List.cons_append] at h
    obtain ⟨q0, w2, qs, hq0, hr, hps⟩ := unmarshallElements_cons h
    simp only at hr hps
    obtain ⟨good, wk, q, wq, tail, h1, h2, h3, h4⟩ := ih w2 qs w1 hr
    refine ⟨q0 :: good, wk, q, wq, tail, ?_, h2, h3, ?_⟩
    · simp only [unmarshallElements, hq0, h1, bind, Except.bind, pure, Except.pure]
    · rw [hps, h4]
      rfl

theorem unmarshallElements_nonnull {uv : UnmarshallValue} {type : String} :
    ∀ (es : List JsonValue) (w : World) (ps : List Pointer) (w1 : World),
      (∀ e ∈ es, ∀ w0 p0 w2, uv type e w0 = .ok (p0, w2) → p0 ≠ .null) →
      unmarshallElements uv type es w = .ok (ps, w1) →
      ps.length = es.length ∧ ∀ q ∈ ps, q ≠ .null := by
  intro es
  induction es with
  | nil =>
    intro w ps w1 _ h
    cases h
    exact ⟨rfl, fun q hq => absurd hq (List.not_mem_nil _)⟩
  | cons e rest ih =>
    intro w ps w1 hne h
    obtain ⟨q, w2, qs, hq, hr, hps⟩ := unmarshallElements_cons h
    simp only at hr hps
    subst hps
    obtain ⟨hlen, hnn⟩ := ih w2 qs w1 (fun x hx => hne x (List.mem_cons_of_mem _ hx)) hr
    refine ⟨by simp [hlen], ?_⟩
    intro x hx
    rcases List.mem_cons.1 hx with rfl | hx
    · exact hne e (List.mem_cons_self _ _) w x w2 hq
    · exact hnn x hx

theorem unmarshall_array_value_ok {uv : UnmarshallValue} {type : String}
    {es : List JsonValue} {w : World} {p : Pointer} {w1 : World}
    (h : _json_unmarshall_array_value uv type (.array es) w = .ok (p, w1)) :
    ∃ ps, unmarshallElements uv type es (malloc w).2 = .ok (ps, w1) ∧
      p = .alloc w.next (.slots (ps ++ [.null])) := by
  cases hr : unmarshallElements uv type es (malloc w).2 with
  | error err =>
    simp only [malloc] at hr
    simp [_json_unmarshall_array_value, malloc, hr, bind, Except.bind] at h
  | ok r =>
    obtain ⟨ps, w2⟩ := r
    simp only [malloc] at hr
    simp only [_json_unmarshall_array_value, malloc, hr, bind, Except.bind, pure,
      Except.pure, Except.ok.injEq, Prod.mk.injEq] at h
    obtain ⟨hp, hw⟩ := h
    subst hp
    subst hw
    exact ⟨ps, rfl, rfl⟩

/-! ### Properties of the allocator state that unmarshalling keeps -/

theorem unmarshallElements_keeps {P : World → Prop} {uv : UnmarshallValue}
    (huv : ∀ type j w p w1, uv type j w = .ok (p, w1) → P w → P w1) (type : String) :
    ∀ (es : List JsonValue) (w : World) (ps : List Pointer) (w1 : World),
      unmarshallElements uv type es w = .ok (ps, w1) → P w → P w1 := by
  intro es
  induction es with
  | nil =>
    intro w ps w1 h hw
    cases h
    exact hw
  | cons e rest ih =>
    intro w ps w1 h hw
    obtain ⟨q, w2, qs, hq, hr, _⟩ := unmarshallElements_cons h
    exact ih w2 qs w1 hr (huv type e w q w2 hq hw)

theorem unmarshall_array_value_keeps {P : World → Prop} (hP : AllocStable P)
    {uv : UnmarshallValue}
    (huv : ∀ type j w p w1, uv type j w = .ok (p, w1) → P w → P w1) (type : String)
    (j : JsonValue) (w : World) (p : Pointer) (w1 : World)
    (h : _json_unmarshall_array_value uv type j w = .ok (p, w1)) : P w → P w1 := by
  intro hw
  cases j with
  | array es =>
    obtain ⟨ps, hps, _⟩ := unmarshall_array_value_ok h
    exact unmarshallElements_keeps huv type es _ ps w1 hps (hP.2.1 w hw)
  | null => cases h; exact hw
  | bool b => cases h; exact hw
  | long n => cases h; exact hw
  | double x => cases h; exact hw
  | string s => cases h; exact hw
  | object kvs => cases h; exact hw

theorem unmarshallMember_keeps {P : World → Prop} (hP : AllocStable P)
    {uv : UnmarshallValue}
    (huv : ∀ type j w p w1, uv type j w = .ok (p, w1) → P w → P w1) (v : JsonValue) (d : Nat)
    (member : memberinfo) (w : World) (r : Option CVal) (w1 : World)
    (h : unmarshallMember uv v d member w = .ok (r, w1)) : P w → P w1 := by
  intro hw
  unfold unmarshallMember at h
  by_cases harr : member.type.isArray = true
  · simp only [harr, if_true] at h
    cases ha : _json_unmarshall_array_value uv member.type.type
        (json_object_get v member.name) w with
    | error err => simp [ha, bind, Except.bind] at h
    | ok ra =>
      obtain ⟨tmp, w2⟩ := ra
      simp only [ha, bind, Except.bind, pure, Except.pure, Except.ok.injEq,
        Prod.mk.injEq] at h
      obtain ⟨_, rfl⟩ := h
      exact unmarshall_array_value_keeps hP huv _ _ w tmp _ ha hw
  · simp only [harr, Bool.false_eq_true, if_false] at h
    cases hq : uv member.type.type (json_object_get v member.name) w with
    | error err => simp [hq, bind, Except.bind] at h
    | ok rq =>
      obtain ⟨tmp, w2⟩ := rq
      have hw2 := huv _ _ w tmp w2 hq hw
      simp only [hq, bind, Except.bind] at h
      by_cases hstr : member.type.type = "string"
      · simp only [hstr, if_true, pure, Except.pure, Except.ok.injEq, Prod.mk.injEq] at h
        obtain ⟨_, rfl⟩ := h
        exact hw2
      · simp only [hstr, if_false] at h
        by_cases hptr : member.type.isPointer = true
        · simp only [hptr, if_true, pure, Except.pure, Except.ok.injEq, Prod.mk.injEq] at h
          obtain ⟨_, rfl⟩ := h
          exact hw2
        · simp only [hptr, Bool.false_eq_true, if_false] at h
          cases ht : tmp.target with
          | none =>
            simp only [ht] at h
            cases hrel : World.release d { w2 with errno := EINVAL } with
            | error err => simp [hrel] at h
            | ok w3 =>
              simp only [hrel, pure, Except.pure, Except.ok.injEq, Prod.mk.injEq] at h
              obtain ⟨_, rfl⟩ := h
              exact hP.1 d _ _ hrel (hP.2.2 w2 EINVAL hw2)
          | some obj =>
            simp only [ht] at h
            cases hfree : free tmp w2 with
            | error err => simp [hfree] at h
            | ok w3 =>
              simp only [hfree, pure, Except.pure, Except.ok.injEq, Prod.mk.injEq] at h
              obtain ⟨_, rfl⟩ := h
              exact free_keeps hP.1 hfree hw2

theorem unmarshallMembers_keeps {P : World → Prop} (hP : AllocStable P)
    {uv : UnmarshallValue}
    (huv : ∀ type j w p w1, uv type j w = .ok (p, w1) → P w → P w1) (v : JsonValue)
    (d : Nat) :
    ∀ (ms : List memberinfo) (w : World) (r : Option (List CVal)) (w1 : World),
      unmarshallMembers uv v d ms w = .ok (r, w1) → P w → P w1 := by
  intro ms
  induction ms with
  | nil =>
    intro w r w1 h hw
    simp only [unmarshallMembers, pure, Except.pure, Except.ok.injEq, Prod.mk.injEq] at h
    obtain ⟨_, rfl⟩ := h
    exact hw
  | cons m rest ih =>
    intro w r w1 h hw
    rcases unmarshallMembers_cons h with ⟨hm, _⟩ | ⟨f, w2, rs, hm, hr, _⟩
    · exact unmarshallMember_keeps hP huv v d m w none w1 hm hw
    · exact ih w2 rs w1 hr (unmarshallMember_keeps hP huv v d m w (some f) w2 hm hw)

theorem generateUnmarshallFunction_keeps {P : World → Prop} (hP : AllocStable P)
    {uv : UnmarshallValue}
    (huv : ∀ type j w p w1, uv type j w = .ok (p, w1) → P w → P w1) (info : structinfo)
    (v : JsonValue) (w : World) (p : Pointer) (w1 : World)
    (h : generateUnmarshallFunction info uv v w = .ok (p, w1)) : P w → P w1 := by
  intro hw
  cases v with
  | object kvs =>
    rcases generateUnmarshallFunction_object h with ⟨hm, _⟩ | ⟨fields, hm, _⟩
    · exact unmarshallMembers_keeps hP huv _ _ _ _ _ _ hm (hP.2.1 w hw)
    · exact unmarshallMembers_keeps hP huv _ _ _ _ _ _ hm (hP.2.1 w hw)
  | null => cases h; exact hP.2.2 w EINVAL hw
  | bool b => cases h; exact hP.2.2 w EINVAL hw
  | long n => cases h; exact hP.2.2 w EINVAL hw
  | double x => cases h; exact hP.2.2 w EINVAL hw
  | string s => cases h; exact hP.2.2 w EINVAL hw
  | array es => cases h; exact hP.2.2 w EINVAL hw

theorem unmarshall_dispatcher_keeps {P : World → Prop} (hP : AllocStable P) (fp : FloatOps)
    {reg : List marshaller} (hgen : AllGenerated reg) :
    ∀ fuel type j w p w1, _json_unmarshall_value fp reg fuel type j w = .ok (p, w1) →
      P w → P w1 := by
  intro fuel
  have hcodec : ∀ (r : Pointer × World) (w : World), CodecResult r w → P w → P r.2 := by
    intro r w hc hw
    rcases hc with rfl | ⟨v, _, rfl⟩
    · exact hw
    · exact hP.2.1 w hw
  induction fuel with
  | zero =>
    intro type j w p w1 h hw
    rw [unmarshall_value_unfold] at h
    rcases unmarshallValueBody_cases fp reg _ type j w (p, w1) h with hc | ⟨e, _, hcall⟩
    · exact hcodec _ w hc hw
    · cases hcall
  | succ n ih =>
    intro type j w p w1 h hw
    rw [unmarshall_value_unfold] at h
    rcases unmarshallValueBody_cases fp reg _ type j w (p, w1) h with hc | ⟨e, hfind, hcall⟩
    · exact hcodec _ w hc hw
    · obtain ⟨info, _, hu, _⟩ := hgen e (findMarshaller_name hfind).2
      simp only [hu] at hcall
      exact generateUnmarshallFunction_keeps hP ih info j w p w1 hcall hw

/-! ### Valid allocator states -/

theorem valid_release : ReleaseStable World.Valid := by
  intro a w w1 h hw
  obtain ⟨_, rfl⟩ := release_ok h
  exact ⟨hw.1.erase a, fun x hx => hw.2 x (List.mem_of_mem_erase hx)⟩

theorem valid_allocStable : AllocStable World.Valid := by
  refine ⟨valid_release, ?_, ?_⟩
  · intro w hw
    refine ⟨?_, ?_⟩
    · simp only [malloc, List.nodup_cons]
      exact ⟨fun hc => absurd (hw.2 _ hc) (lt_irrefl _), hw.1⟩
    · intro a ha
      simp only [malloc, List.mem_cons] at ha
      rcases ha with rfl | ha
      · simp [malloc]
      · exact lt_trans (hw.2 a ha) (by simp [malloc])
  · intro w e hw
    exact hw

theorem valid_init : World.init.Valid :=
  ⟨List.nodup_nil, fun a ha => absurd ha (List.not_mem_nil _)⟩

/-- A release never makes an allocation live. -/
theorem notLive_release (b : Nat) : ReleaseStable (fun w => b ∉ w.live) := by
  intro a w w1 h hw
  obtain ⟨_, rfl⟩ := release_ok h
  exact fun hc => hw (List.mem_of_mem_erase hc)

/-- In a valid allocator state a released allocation is no longer live. -/
theorem released_of_valid {a : Nat} {w w1 : World} (hw : w.Valid)
    (h : World.release a w = .ok w1) : a ∉ w1.live := by
  obtain ⟨_, rfl⟩ := release_ok h
  exact fun hc => (List.Nodup.mem_erase_iff hw.1).1 hc |>.1 rfl

/-! ### What `_json_free_array` releases -/

theorem freeEach_cons {fs : FreeStruct} {type : String} {q : Pointer} {rest : List Pointer}
    {w w1 : World} (h : freeEach fs type (q :: rest) w = .ok w1) :
    ∃ w2, fs type q true w = .ok w2 ∧ freeEach fs type rest w2 = .ok w1 := by
  cases hq : fs type q true w with
  | error err => simp [freeEach, hq, bind, Except.bind] at h
  | ok w2 =>
    simp only [freeEach, hq, bind, Except.bind] at h
    exact ⟨w2, rfl, h⟩

theorem freeEach_only {fs : FreeStruct} (hfs : FreeOnly fs) (type : String) :
    ∀ (qs : List Pointer) (w w1 : World), freeEach fs type qs w = .ok w1 →
      ∀ b, b ∉ addrsSlots qs → (b ∈ w1.live ↔ b ∈ w.live) := by
  intro qs
  induction qs with
  | nil =>
    intro w w1 h b _
    cases h
    exact Iff.rfl
  | cons q rest ih =>
    intro w w1 h b hb
    simp only [addrsSlots, List.mem_append, not_or] at hb
    obtain ⟨w2, hq, hr⟩ := freeEach_cons h
    exact (ih w2 w1 hr b hb.2).trans (hfs type q true w w2 hq b hb.1)

theorem freeEach_keeps {P : World → Prop} {fs : FreeStruct}
    (hfs : ∀ type p this w w1, fs type p this w = .ok w1 → P w → P w1) (type : String) :
    ∀ (qs : List Pointer) (w w1 : World), freeEach fs type qs w = .ok w1 → P w → P w1 := by
  intro qs
  induction qs with
  | nil =>
    intro w w1 h hw
    cases h
    exact hw
  | cons q rest ih =>
    intro w w1 h hw
    obtain ⟨w2, hq, hr⟩ := freeEach_cons h
    exact ih w2 w1 hr (hfs type q true w w2 hq hw)

theorem freeElements_freeEach {fs : FreeStruct} {type : String}
    (h : ∀ q u, q ≠ .null → fs type q true u = free q u) (tail : List Pointer) :
    ∀ (good : List Pointer) (w : World), (∀ q ∈ good, q ≠ .null) →
      freeElements (good ++ .null :: tail) w = freeEach fs type good w := by
  intro good
  induction good with
  | nil => intro w _; rfl
  | cons q rest ih =>
    intro w hg
    have hq := hg q (List.mem_cons_self _ _)
    have hrest := fun w2 => ih w2 (fun x hx => hg x (List.mem_cons_of_mem _ hx))
    cases q with
    | null => exact absurd rfl hq
    | alloc a v =>
      rw [List.cons_append]
      simp only [freeElements, freeEach, bind, Except.bind, h _ w hq]
      cases free (.alloc a v) w with
      | error err => rfl
      | ok w2 => exact hrest w2
    | inner v =>
      rw [List.cons_append]
      simp only [freeElements, freeEach, bind, Except.bind, h _ w hq]
      cases free (.inner v) w with
      | error err => rfl
      | ok w2 => exact hrest w2

theorem freeElementsWith_freeEach {elementFree : Pointer → Bool → World → Res World}
    {fs : FreeStruct} {type : String}
    (h : ∀ q u, q ≠ .null → fs type q true u = elementFree q true u) (tail : List Pointer) :
    ∀ (good : List Pointer) (w : World), (∀ q ∈ good, q ≠ .null) →
      freeElementsWith elementFree (good ++ .null :: tail) w = freeEach fs type good w := by
  intro good
  induction good with
  | nil => intro w _; rfl
  | cons q rest ih =>
    intro w hg
    have hq := hg q (List.mem_cons_self _ _)
    have hrest := fun w2 => ih w2 (fun x hx => hg x (List.mem_cons_of_mem _ hx))
    cases q with
    | null => exact absurd rfl hq
    | alloc a v =>
      rw [List.cons_append]
      simp only [freeElementsWith, freeEach, bind, Except.bind, h _ w hq]
      cases elementFree (.alloc a v) true w with
      | error err => rfl
      | ok w2 => exact hrest w2
    | inner v =>
      rw [List.cons_append]
      simp only [freeElementsWith, freeEach, bind, Except.bind, h _ w hq]
      cases elementFree (.inner v) true w with
      | error err => rfl
      | ok w2 => exact hrest w2

/-- For a primitive kind `_json_free_struct` with the flag set is `free`. -/
theorem free_struct_primitive (reg : List marshaller) (fuel : Nat) {type : String}
    (hprim : isPrimitiveKind type = true) {q : Pointer} (hq : q ≠ .null) (u : World) :
    _json_free_struct reg fuel type q true u = free q u := by
  rw [free_struct_unfold]
  simp [freeStructBody, isNull_false_of_ne hq, hprim]

/-- For a registered name that is not a primitive kind `_json_free_struct` without fuel does
not return. -/
theorem free_struct_registered_zero (reg : List marshaller) {type : String}
    (hprim : isPrimitiveKind type = false) {e : marshaller}
    (hfind : findMarshaller reg type = some e) {q : Pointer} (hq : q ≠ .null) (this : Bool)
    (u : World) :
    _json_free_struct reg 0 type q this u = .error .fuel := by
  rw [free_struct_unfold]
  simp [freeStructBody, isNull_false_of_ne hq, hprim, hfind]
  rfl

/-- For a registered name that is not a primitive kind `_json_free_struct` is the call of the
entry's free function. -/
theorem free_struct_registered_succ (reg : List marshaller) (n : Nat) {type : String}
    (hprim : isPrimitiveKind type = false) {e : marshaller}
    (hfind : findMarshaller reg type = some e) {q : Pointer} (hq : q ≠ .null) (this : Bool)
    (u : World) :
    _json_free_struct reg (n + 1) type q this u =
      e.free (_json_free_struct reg n) (_json_free_array reg n) q this u := by
  rw [free_struct_unfold]
  simp [freeStructBody, isNull_false_of_ne hq, hprim, hfind]

/-- The function `_json_free_array` on a block with a null pointer after the elements `good`
frees those elements one after the other, each as `_json_free_struct` does with the flag set,
and then releases the block. -/
theorem free_array_freeEach (reg : List marshaller) (fuel : Nat) (type : String) (a : Nat)
    (good tail : List Pointer) (w : World) (hgood : ∀ q ∈ good, q ≠ .null)
    (htype : isPrimitiveKind type = true ∨ ∃ e, findMarshaller reg type = some e) :
    _json_free_array reg fuel type (.alloc a (.slots (good ++ .null :: tail))) w =
      (freeEach (_json_free_struct reg fuel) type good w >>= fun wk => World.release a wk) := by
  cases hp : isPrimitiveKind type with
  | true =>
    rw [free_array_unfold]
    simp only [freeArrayBody, Pointer.isNull, Pointer.target, Bool.false_eq_true, if_false, hp,
      if_true]
    rw [freeElements_freeEach (fun q u hq => free_struct_primitive reg fuel hp hq u) tail good w
      hgood]
    rfl
  | false =>
    rcases htype with hc | ⟨e, hfind⟩
    · rw [hp] at hc
      cases hc
    · cases fuel with
      | zero =>
        have hel : ∀ (q : Pointer) (u : World), q ≠ .null →
            _json_free_struct reg 0 type q true u
              = (fun (_ : Pointer) (_ : Bool) (_ : World) => (throw Fault.fuel : Res World))
                  q true u :=
          fun q u hq => free_struct_registered_zero reg hp hfind hq true u
        rw [free_array_unfold]
        simp only [freeArrayBody, Pointer.isNull, Pointer.target, Bool.false_eq_true, if_false,
          hp, hfind]
        rw [freeElementsWith_freeEach hel tail good w hgood]
        rfl
      | succ n =>
        have hel : ∀ (q : Pointer) (u : World), q ≠ .null →
            _json_free_struct reg (n + 1) type q true u
              = e.free (_json_free_struct reg n) (_json_free_array reg n) q true u :=
          fun q u hq => free_struct_registered_succ reg n hp hfind hq true u
        rw [free_array_unfold]
        simp only [freeArrayBody, Pointer.isNull, Pointer.target, Bool.false_eq_true, if_false,
          hp, hfind]
        rw [freeElementsWith_freeEach hel tail good w hgood]
        rfl

/-- A call of `_json_free_array` that returns was made with a primitive kind or a registered
name, unless the pointer is null. -/
theorem free_array_type_of_ok {reg : List marshaller} {fuel : Nat} {type : String}
    {p : Pointer} {w w1 : World} (hp : p ≠ .null)
    (h : _json_free_array reg fuel type p w = .ok w1) :
    isPrimitiveKind type = true ∨ ∃ e, findMarshaller reg type = some e := by
  cases hprim : isPrimitiveKind type with
  | true => exact Or.inl rfl
  | false =>
    cases hfind : findMarshaller reg type with
    | some e => exact Or.inr ⟨e, rfl⟩
    | none =>
      rw [free_array_unfold] at h
      simp [freeArrayBody, isNull_false_of_ne hp, hprim, hfind, _marshallPanic, throw,
        throwThe, MonadExceptOf.throw] at h

/-- In a valid allocator state `_json_free_struct` with the flag set releases the allocation it
is given. -/
theorem free_struct_releases {reg : List marshaller} (hgen : AllGenerated reg) (fuel : Nat)
    (type : String) (b : Nat) (v : CVal) (u u1 : World) (hu : u.Valid)
    (h : _json_free_struct reg fuel type (.alloc b v) true u = .ok u1) : b ∉ u1.live := by
  have hq : Pointer.alloc b v ≠ .null := by
    intro hc
    cases hc
  cases hprim : isPrimitiveKind type with
  | true =>
    rw [free_struct_primitive reg fuel hprim hq] at h
    exact released_of_valid hu h
  | false =>
    cases hfind : findMarshaller reg type with
    | none =>
      rw [free_struct_unfold] at h
      simp [freeStructBody, Pointer.isNull, hprim, hfind, _marshallPanic, throw,
        throwThe, MonadExceptOf.throw] at h
    | some e =>
      cases fuel with
      | zero =>
        rw [free_struct_registered_zero reg hprim hfind hq] at h
        cases h
      | succ n =>
        rw [free_struct_registered_succ reg n hprim hfind hq] at h
        obtain ⟨info, _, _, hfree⟩ := hgen e (findMarshaller_name hfind).2
        rw [hfree] at h
        obtain ⟨fields, w2, _, hm, hlast⟩ := generateFreeFunction_ok (by rfl) h
        have hk := free_dispatcher_keeps valid_release hgen n
        have hw2 := freeMembers_keeps hk.1 hk.2 info.members fields u w2 hm hu
        simp only [if_true] at hlast
        exact released_of_valid hw2 hlast

/-- In a valid allocator state, after the elements were freed one after the other none of their
allocations is live, and the state is valid. -/
theorem freeEach_releases {reg : List marshaller} (hgen : AllGenerated reg) (fuel : Nat)
    (type : String) :
    ∀ (qs : List Pointer) (w w1 : World), w.Valid →
      freeEach (_json_free_struct reg fuel) type qs w = .ok w1 →
      w1.Valid ∧ ∀ q ∈ qs, ∀ b v, q = .alloc b v → b ∉ w1.live := by
  intro qs
  induction qs with
  | nil =>
    intro w w1 hw h
    cases h
    exact ⟨hw, fun q hq => absurd hq (List.not_mem_nil _)⟩
  | cons q rest ih =>
    intro w w1 hw h
    obtain ⟨w2, hq, hr⟩ := freeEach_cons h
    have hw2 := (free_dispatcher_keeps valid_release hgen fuel).1 type q true w w2 hq hw
    obtain ⟨hw1, hrest⟩ := ih w2 w1 hw2 hr
    refine ⟨hw1, ?_⟩
    intro x hx b v hb
    rcases List.mem_cons.1 hx with rfl | hx
    · subst hb
      have hnot := free_struct_releases hgen fuel type b v w w2 hw hq
      exact freeEach_keeps (free_dispatcher_keeps (notLive_release b) hgen fuel).1 type rest
        w2 w1 hr hnot
    · exact hrest x hx b v hb

/-- For a primitive kind the dispatcher is the codec, whatever the registry holds. -/
theorem unmarshall_primitive_codec (fp : FloatOps) (reg : List marshaller) (fuel : Nat)
    {type : String} (hprim : isPrimitiveKind type = true) (j : JsonValue) (w : World)
    (r : Pointer × World) (h : _json_unmarshall_value fp reg fuel type j w = .ok r) :
    CodecResult r w := by
  rw [unmarshall_value_unfold] at h
  unfold unmarshallValueBody at h
  by_cases h0 : j.type = .JSON_NULL
  · rw [if_pos h0] at h
    exact Or.inl (Except.ok.inj h).symm
  · rw [if_neg h0] at h
    rcases primitive_kind_cases hprim with h1 | h1 | h1 | h1 | h1 | h1 | h1 | h1 | h1 <;>
      subst h1 <;>
      simp only [↓reduceIte, String.reduceEq, pure, Except.pure, Except.ok.injEq] at h <;>
      subst h
    · exact json_unmarshall_char_result j w
    · exact json_unmarshall_short_result j w
    · exact json_unmarshall_int_result j w
    · exact json_unmarshall_long_result j w
    · exact json_unmarshall_long_long_result j w
    · exact json_unmarshall_float_result fp j w
    · exact json_unmarshall_double_result fp j w
    · exact json_unmarshall_bool_result j w
    · exact json_unmarshall_string_result j w

/-- For a primitive kind, the elements unmarshalled from a JSON array can be freed one after
the other in every state in which the allocations of the call that are live after it are
live. -/
theorem freeEach_primitive_ok (fp : FloatOps) (reg : List marshaller) (fuel fuelF : Nat)
    (hs : Sound (_json_unmarshall_value fp reg fuel))
    {type : String} (hprim : isPrimitiveKind type = true) :
    ∀ (es : List JsonValue) (w : World) (good : List Pointer) (wk u : World),
      unmarshallElements (_json_unmarshall_value fp reg fuel) type es w = .ok (good, wk) →
      (∀ q ∈ good, q ≠ .null) →
      (∀ x, w.next ≤ x → x < wk.next → x ∈ wk.live → x ∈ u.live) →
      ∃ u1, freeEach (_json_free_struct reg fuelF) type good u = .ok u1 := by
  intro es
  induction es with
  | nil =>
    intro w good wk u h _ _
    cases h
    exact ⟨u, rfl⟩
  | cons e rest ih =>
    intro w good wk u h hnn hlive
    obtain ⟨q, w2, qs, hq, hr, hps⟩ := unmarshallElements_cons h
    simp only at hr hps
    subst hps
    have hqn : q ≠ .null := hnn q (List.mem_cons_self _ _)
    have hfr := (sound_elements hs type rest w2 qs wk hr).1
    rcases unmarshall_primitive_codec fp reg fuel hprim e w (q, w2) hq with hc | ⟨v, _, hc⟩
    · exact absurd (congrArg Prod.fst hc) hqn
    · obtain ⟨rfl, rfl⟩ := Prod.mk.inj hc
      have hnext : (malloc w).2.next = w.next + 1 := rfl
      have hlt : w.next < wk.next := by
        have := hfr.1
        omega
      have hin : w.next ∈ u.live := by
        apply hlive w.next (le_refl _) hlt
        exact (hfr.2 w.next (by omega)).2 (by simp [malloc])
      have hstep : _json_free_struct reg fuelF type (.alloc w.next v) true u
          = .ok { u with live := u.live.erase w.next } := by
        rw [free_struct_primitive reg fuelF hprim hqn]
        simp [free, World.release, hin, pure, Except.pure]
      obtain ⟨u1, hu1⟩ := ih (malloc w).2 qs wk { u with live := u.live.erase w.next } hr
        (fun x hx => hnn x (List.mem_cons_of_mem _ hx))
        (by
          intro x hx1 hx2 hx3
          have hne : x ≠ w.next := by omega
          simp only [List.mem_erase_of_ne hne]
          exact hlive x (by omega) hx2 hx3)
      exact ⟨u1, by simp only [freeEach, hstep, bind, Except.bind]; exact hu1⟩

theorem addrs_mem_addrsSlots {q : Pointer} {x : Nat} :
    ∀ {ps : List Pointer}, q ∈ ps → x ∈ q.addrs → x ∈ addrsSlots ps := by
  intro ps
  induction ps with
  | nil => intro hq; exact absurd hq (List.not_mem_nil _)
  | cons p rest ih =>
    intro hq hx
    simp only [addrsSlots, List.mem_append]
    rcases List.mem_cons.1 hq with rfl | hq
    · exact Or.inl hx
    · exact Or.inr (ih hq hx)

/-- C19. Null holes truncate arrays, with a registry of emitted functions: when the entries
before entry i of a JSON array unmarshal to non-null pointers and entry i unmarshals to the null
pointer (it is JSON null or its unmarshal fails), the block returned by
`_json_unmarshall_array_value` holds those i pointers, a null pointer at slot i, and then the
results of the later entries and the final null slot; `_json_marshall_array_value` on that block
gives an array of exactly the first i elements; and `_json_free_array` on it does what it does on
the block cut after slot i, so every allocation stored at a later slot is still live after
it.  The block and the first i elements are live allocations when `_json_free_array` is
called.  For a primitive kind or a registered name the call frees the first i elements one after
the other, each as `_json_free_struct` does with the flag set, and then releases the block: it
returns whenever those i frees return, and for a primitive kind it always returns.  When the
allocator state before the unmarshal was valid, after the call neither the block nor any of the
first i elements is live; and an allocation that is neither the block nor reachable from the
first i elements is live after the call exactly when it was live before. -/
theorem C19_null_holes (fp : FloatOps) (reg : List marshaller) (fuel : Nat) (type : String)
    (pre post : List JsonValue) (bad : JsonValue) (w : World) (p : Pointer) (w1 : World)
    (hgen : AllGenerated reg)
    (hpre : ∀ e ∈ pre, ∀ w0 p0 w2,
      _json_unmarshall_value fp reg fuel type e w0 = .ok (p0, w2) → p0 ≠ .null)
    (hbad : ∀ w0 p0 w2,
      _json_unmarshall_value fp reg fuel type bad w0 = .ok (p0, w2) → p0 = .null)
    (harr : _json_unmarshall_array_value (_json_unmarshall_value fp reg fuel) type
      (.array (pre ++ bad :: post)) w = .ok (p, w1)) :
    ∃ good tail : List Pointer,
      p = .alloc w.next (.slots (good ++ .null :: tail)) ∧
      good.length = pre.length ∧ (∀ q ∈ good, q ≠ .null) ∧
      tail.length = post.length + 1 ∧
      (∀ fuelM js,
        List.Forall₂ (fun q j => _json_marshall_value fp reg fuelM type q = .ok (some j))
          good js →
        _json_marshall_array_value (_json_marshall_value fp reg fuelM) type p
          = .ok (some (.array js)) ∧ js.length = pre.length) ∧
      (∀ fuelF, _json_free_array reg fuelF type p w1
        = _json_free_array reg fuelF type (.alloc w.next (.slots (good ++ [.null]))) w1) ∧
      (∀ fuelF w2, _json_free_array reg fuelF type p w1 = .ok w2 →
        ∀ q ∈ tail, ∀ b v, q = .alloc b v → b ∈ w2.live) ∧
      (w.next ∈ w1.live ∧ ∀ q ∈ good, ∃ b v, q = .alloc b v ∧ b ∈ w1.live) ∧
      (∀ fuelF wk, (isPrimitiveKind type = true ∨ ∃ e, findMarshaller reg type = some e) →
        freeEach (_json_free_struct reg fuelF) type good w1 = .ok wk →
        _json_free_array reg fuelF type p w1
          = .ok { wk with live := wk.live.erase w.next }) ∧
      (isPrimitiveKind type = true →
        ∀ fuelF, ∃ w2, _json_free_array reg fuelF type p w1 = .ok w2) ∧
      (w.Valid → ∀ fuelF w2, _json_free_array reg fuelF type p w1 = .ok w2 →
        w.next ∉ w2.live ∧ ∀ q ∈ good, ∀ b v, q = .alloc b v → b ∉ w2.live) ∧
      (∀ fuelF w2, _json_free_array reg fuelF type p w1 = .ok w2 →
        ∀ b, b ≠ w.next → b ∉ addrsSlots good → (b ∈ w2.live ↔ b ∈ w1.live)) := by
  have hs := sound_dispatcher fp hgen fuel
  have hvalid1 : w.Valid → w1.Valid :=
    unmarshall_array_value_keeps valid_allocStable
      (unmarshall_dispatcher_keeps valid_allocStable fp hgen fuel) type _ w p w1 harr
  obtain ⟨ps, hps, rfl⟩ := unmarshall_array_value_ok harr
  obtain ⟨good, wk, q, wq, tail0, hgoodE, hq, htailE, rfl⟩ :=
    unmarshallElements_split bad post pre _ ps w1 hps
  have hqnull : q = .null := hbad wk q wq hq
  subst hqnull
  obtain ⟨hlen, hnn⟩ := unmarshallElements_nonnull pre _ good wk hpre hgoodE
  obtain ⟨hfrG, hinG, hliveG, hniG⟩ := sound_elements hs type pre _ good wk hgoodE
  obtain ⟨hretQ, _⟩ := hs type bad wk .null wq hq
  obtain ⟨hfrT, hinT, hliveT, _⟩ := sound_elements hs type post wq tail0 w1 htailE
  have hlenT : tail0.length = post.length :=
    (unmarshallElements_of_ok _ type post wq tail0 w1 htailE).1
  have hshape : (good ++ Pointer.null :: tail0) ++ [Pointer.null]
      = good ++ Pointer.null :: (tail0 ++ [Pointer.null]) := by
    simp
  rw [hshape]
  have htrunc := fun fuelF => free_array_truncate reg fuelF type w.next good
    (tail0 ++ [.null]) w1 hnn
  have hfrK : Frame wk w1 := frame_trans hretQ.1 hfrT
  have hfrA : Frame (malloc w).2 w1 := frame_trans hfrG hfrK
  have hnextM : (malloc w).2.next = w.next + 1 := rfl
  have hblock : w.next ∈ w1.live :=
    (hfrA.2 w.next (by omega)).2 (by simp [malloc])
  have hnotG : w.next ∉ addrsSlots good := by
    intro hc
    have := (hinG w.next hc).1
    omega
  have hpne : Pointer.alloc w.next
      (CVal.slots (good ++ Pointer.null :: (tail0 ++ [Pointer.null]))) ≠ .null := by
    intro hc
    cases hc
  have hmech : ∀ fuelF wk1,
      (isPrimitiveKind type = true ∨ ∃ e, findMarshaller reg type = some e) →
      freeEach (_json_free_struct reg fuelF) type good w1 = .ok wk1 →
      _json_free_array reg fuelF type
          (.alloc w.next (.slots (good ++ .null :: (tail0 ++ [.null])))) w1
        = .ok { wk1 with live := wk1.live.erase w.next } := by
    intro fuelF wk1 htype hfe
    have hin : w.next ∈ wk1.live :=
      (freeEach_only (free_dispatcher_only hgen fuelF).1 type good w1 wk1 hfe w.next
        hnotG).2 hblock
    rw [free_array_freeEach reg fuelF type w.next good _ w1 hnn htype, hfe]
    simp [bind, Except.bind, World.release, hin, pure, Except.pure]
  have htail : ∀ fuelF w2, _json_free_array reg fuelF type
      (.alloc w.next (.slots (good ++ .null :: (tail0 ++ [.null])))) w1 = .ok w2 →
      ∀ q ∈ tail0 ++ [.null], ∀ b v, q = .alloc b v → b ∈ w2.live := by
    intro fuelF w2 hfree x hx b v hb
    rw [htrunc fuelF] at hfree
    rcases List.mem_append.1 hx with hx | hx
    · have hb1 : b ∈ addrsSlots tail0 :=
        addrs_mem_addrsSlots hx (by rw [hb]; simp [Pointer.addrs])
      have hlo := (hinT b hb1).1
      have hlive1 : b ∈ w1.live := hliveT x hx b v hb
      have hnot : b ∉ (Pointer.alloc w.next (.slots (good ++ [.null]))).addrs := by
        simp only [Pointer.addrs, CVal.addrs, addrsSlots_append, addrsSlots, List.mem_cons,
          List.mem_append, List.not_mem_nil, or_false, List.append_nil, not_or]
        constructor
        · have h1 := hfrG.1
          have h2 := hretQ.1.1
          simp only [malloc] at h1
          omega
        · intro hc
          have h1 := (hinG b hc).2
          have h2 := hretQ.1.1
          omega
      exact ((free_dispatcher_only hgen fuelF).2 type _ w1 w2 hfree b hnot).2 hlive1
    · rw [List.mem_singleton.1 hx] at hb
      cases hb
  refine ⟨good, tail0 ++ [.null], rfl, hlen, hnn, by simp [hlenT], ?_, htrunc, htail,
    ⟨hblock, ?_⟩, hmech, ?_, ?_, ?_⟩
  · intro fuelM js hjs
    have ht : (Pointer.alloc w.next
        (CVal.slots (good ++ Pointer.null :: (tail0 ++ [Pointer.null])))).target
          = some (CVal.slots (good ++ Pointer.null :: (tail0 ++ [Pointer.null]))) := rfl
    rw [marshall_array_value_slots _ type ht hnn, marshallElements_ok _ type good js hjs]
    exact ⟨rfl, by rw [← hlen]; exact hjs.length_eq.symm⟩
  · intro x hx
    cases x with
    | null => exact absurd rfl (hnn _ hx)
    | inner v => exact absurd rfl (hniG _ hx v)
    | alloc b v =>
      have hb1 : b ∈ addrsSlots good :=
        addrs_mem_addrsSlots hx (by simp [Pointer.addrs])
      exact ⟨b, v, rfl, (hfrK.2 b (hinG b hb1).2).2 (hliveG _ hx b v rfl)⟩
  · intro hprim fuelF
    obtain ⟨u1, hu1⟩ := freeEach_primitive_ok fp reg fuel fuelF hs hprim pre (malloc w).2 good
      wk w1 hgoodE hnn (fun x _ hx2 hx3 => (hfrK.2 x hx2).2 hx3)
    exact ⟨_, hmech fuelF u1 (Or.inl hprim) hu1⟩
  · intro hvalid fuelF w2 hfree
    have htype := free_array_type_of_ok hpne hfree
    rw [free_array_freeEach reg fuelF type w.next good _ w1 hnn htype] at hfree
    cases hfe : freeEach (_json_free_struct reg fuelF) type good w1 with
    | error err => simp [hfe, bind, Except.bind] at hfree
    | ok wk1 =>
      simp only [hfe, bind, Except.bind] at hfree
      obtain ⟨hvk, hrel⟩ := freeEach_releases hgen fuelF type good w1 wk1 (hvalid1 hvalid) hfe
      refine ⟨released_of_valid hvk hfree, ?_⟩
      intro x hx b v hb
      exact notLive_release b w.next wk1 w2 hfree (hrel x hx b v hb)
  · intro fuelF w2 hfree b hb1 hb2
    rw [htrunc fuelF] at hfree
    have hnot : b ∉ (Pointer.alloc w.next (.slots (good ++ [.null]))).addrs := by
      simp only [Pointer.addrs, CVal.addrs, addrsSlots_append, addrsSlots, List.mem_cons,
        List.mem_append, List.not_mem_nil, or_false, List.append_nil, not_or]
      exact ⟨hb1, hb2⟩
    exact (free_dispatcher_only hgen fuelF).2 type _ w1 w2 hfree b hnot

/-- Witness of C19: the JSON array `[1, null, 3]` unmarshalled as an array of `int`. -/
theorem C19_null_holes_witness :
    AllGenerated exampleRegistry ∧
    ∃ good tail : List Pointer,
      Pointer.alloc 1 (.slots [.alloc 2 (.int 1), .null, .alloc 3 (.int 3), .null])
        = .alloc World.init.next (.slots (good ++ .null :: tail)) ∧
      good.length = [JsonValue.long 1].length ∧ (∀ q ∈ good, q ≠ .null) ∧
      tail.length = [JsonValue.long 3].length + 1 ∧
      (∀ fuelM js,
        List.Forall₂
          (fun q j => _json_marshall_value idFloat exampleRegistry fuelM "int" q = .ok (some j))
          good js →
        _json_marshall_array_value (_json_marshall_value idFloat exampleRegistry fuelM) "int"
            (.alloc 1 (.slots [.alloc 2 (.int 1), .null, .alloc 3 (.int 3), .null]))
          = .ok (some (.array js)) ∧ js.length = [JsonValue.long 1].length) ∧
      (∀ fuelF, _json_free_array exampleRegistry fuelF "int"
          (.alloc 1 (.slots [.alloc 2 (.int 1), .null, .alloc 3 (.int 3), .null]))
          { next := 4, live := [3, 2, 1], errno := 0 }
        = _json_free_array exampleRegistry fuelF "int"
          (.alloc World.init.next (.slots (good ++ [.null])))
          { next := 4, live := [3, 2, 1], errno := 0 }) ∧
      (∀ fuelF w2, _json_free_array exampleRegistry fuelF "int"
          (.alloc 1 (.slots [.alloc 2 (.int 1), .null, .alloc 3 (.int 3), .null]))
          { next := 4, live := [3, 2, 1], errno := 0 } = .ok w2 →
        ∀ q ∈ tail, ∀ b v, q = .alloc b v → b ∈ w2.live) ∧
      (World.init.next ∈ ({ next := 4, live := [3, 2, 1], errno := 0 } : World).live ∧
        ∀ q ∈ good, ∃ b v, q = .alloc b v ∧
          b ∈ ({ next := 4, live := [3, 2, 1], errno := 0 } : World).live) ∧
      (∀ fuelF wk, (isPrimitiveKind "int" = true ∨
          ∃ e, findMarshaller exampleRegistry "int" = some e) →
        freeEach (_json_free_struct exampleRegistry fuelF) "int" good
          { next := 4, live := [3, 2, 1], errno := 0 } = .ok wk →
        _json_free_array exampleRegistry fuelF "int"
            (.alloc 1 (.slots [.alloc 2 (.int 1), .null, .alloc 3 (.int 3), .null]))
            { next := 4, live := [3, 2, 1], errno := 0 }
          = .ok { wk with live := wk.live.erase World.init.next }) ∧
      (isPrimitiveKind "int" = true →
        ∀ fuelF, ∃ w2, _json_free_array exampleRegistry fuelF "int"
          (.alloc 1 (.slots [.alloc 2 (.int 1), .null, .alloc 3 (.int 3), .null]))
          { next := 4, live := [3, 2, 1], errno := 0 } = .ok w2) ∧
      (World.init.Valid → ∀ fuelF w2, _json_free_array exampleRegistry fuelF "int"
          (.alloc 1 (.slots [.alloc 2 (.int 1), .null, .alloc 3 (.int 3), .null]))
          { next := 4, live := [3, 2, 1], errno := 0 } = .ok w2 →
        World.init.next ∉ w2.live ∧ ∀ q ∈ good, ∀ b v, q = .alloc b v → b ∉ w2.live) ∧
      (∀ fuelF w2, _json_free_array exampleRegistry fuelF "int"
          (.alloc 1 (.slots [.alloc 2 (.int 1), .null, .alloc 3 (.int 3), .null]))
          { next := 4, live := [3, 2, 1], errno := 0 } = .ok w2 →
        ∀ b, b ≠ World.init.next → b ∉ addrsSlots good →
          (b ∈ w2.live ↔ b ∈ ({ next := 4, live := [3, 2, 1], errno := 0 } : World).live)) :=
  ⟨example_allGenerated,
    C19_null_holes idFloat exampleRegistry 0 "int" [.long 1] [.long 3] .null World.init
      (.alloc 1 (.slots [.alloc 2 (.int 1), .null, .alloc 3 (.int 3), .null]))
      { next := 4, live := [3, 2, 1], errno := 0 } example_allGenerated
      (by
        intro e he w0 p0 w2 h
        rw [List.mem_singleton.1 he] at h
        cases h
        intro hc
        cases hc)
      (by
        intro w0 p0 w2 h
        cases h
        rfl)
      rfl⟩

/-- Evaluation for C19: `[1, null, 3]` unmarshalled as an array of `int` has a null pointer at
slot 1; marshalling the result gives `[1]`; and freeing the result leaves allocation 3, the
element stored at slot 2, live. -/
theorem example_null_hole :
    _json_unmarshall_array_value (_json_unmarshall_value idFloat exampleRegistry 0) "int"
        (.array [.long 1, .null, .long 3]) World.init
      = .ok (.alloc 1 (.slots [.alloc 2 (.int 1), .null, .alloc 3 (.int 3), .null]),
          { next := 4, live := [3, 2, 1], errno := 0 }) ∧
    _json_marshall_array_value (_json_marshall_value idFloat exampleRegistry 0) "int"
        (.alloc 1 (.slots [.alloc 2 (.int 1), .null, .alloc 3 (.int 3), .null]))
      = .ok (some (.array [.long 1])) ∧
    _json_free_array exampleRegistry 0 "int"
        (.alloc 1 (.slots [.alloc 2 (.int 1), .null, .alloc 3 (.int 3), .null]))
        { next := 4, live := [3, 2, 1], errno := 0 }
      = .ok { next := 4, live := [3], errno := 0 } :=
  ⟨rfl, rfl, rfl⟩

/-! ### Integer narrowing -/

theorem narrow_facts_8 (n : Int) :
    inRange 8 (narrow 8 n) ∧ (narrow 8 n - n) % 2 ^ 8 = 0 ∧ (narrow 8 n = n ↔ inRange 8 n) := by
  simp only [inRange, narrow]
  norm_num
  omega

theorem narrow_facts_16 (n : Int) :
    inRange 16 (narrow 16 n) ∧ (narrow 16 n - n) % 2 ^ 16 = 0 ∧
      (narrow 16 n = n ↔ inRange 16 n) := by
  simp only [inRange, narrow]
  norm_num
  omega

theorem narrow_facts_32 (n : Int) :
    inRange 32 (narrow 32 n) ∧ (narrow 32 n - n) % 2 ^ 32 = 0 ∧
      (narrow 32 n = n ↔ inRange 32 n) := by
  simp only [inRange, narrow]
  norm_num
  omega

/-- C21. Integer narrowing is silent: for each of the kinds char, short and int (8, 16 and 32
bits) `_json_unmarshall_value` on a JSON integer `n` always returns a fresh allocation, whatever
the size of `n`, holding `n` reduced modulo two to the width into the signed range; marshalling
that result gives the stored value, which is `n` if and only if `n` is within the range of the
kind; and for every value within the range, unmarshalling the marshalled value stores the value
itself. -/
theorem C21_integer_narrowing (fp : FloatOps) (reg : List marshaller) (fuel : Nat) (n : Int)
    (w : World) :
    ∀ k ∈ [("char", 8, CVal.char), ("short", 16, CVal.short), ("int", 32, CVal.int)],
      _json_unmarshall_value fp reg fuel k.1 (.long n) w
        = .ok (.alloc w.next (k.2.2 (narrow k.2.1 n)), (malloc w).2) ∧
      inRange k.2.1 (narrow k.2.1 n) ∧
      (narrow k.2.1 n - n) % 2 ^ k.2.1 = 0 ∧
      _json_marshall_value fp reg fuel k.1 (.alloc w.next (k.2.2 (narrow k.2.1 n)))
        = .ok (some (.long (narrow k.2.1 n))) ∧
      (_json_marshall_value fp reg fuel k.1 (.alloc w.next (k.2.2 (narrow k.2.1 n)))
        = .ok (some (.long n)) ↔ inRange k.2.1 n) ∧
      (∀ (v : Int) (p : Pointer), inRange k.2.1 v → p.target = some (k.2.2 v) →
        _json_marshall_value fp reg fuel k.1 p = .ok (some (.long v)) ∧
        _json_unmarshall_value fp reg fuel k.1 (.long v) w
          = .ok (.alloc w.next (k.2.2 v), (malloc w).2)) := by
  intro k hk
  simp only [List.mem_cons, List.mem_singleton, List.not_mem_nil, or_false] at hk
  rcases hk with rfl | rfl | rfl
  · obtain ⟨h1, h2, h3⟩ := narrow_facts_8 n
    have hu : ∀ v : Int, _json_unmarshall_value fp reg fuel "char" (.long v) w
        = .ok (.alloc w.next (.char (narrow 8 v)), (malloc w).2) := by
      intro v
      cases fuel <;> rfl
    have hm : ∀ (v : Int) (p : Pointer), p.target = some (.char v) →
        _json_marshall_value fp reg fuel "char" p = .ok (some (.long v)) := by
      intro v p hp
      rcases (target_some hp).2 with rfl | ⟨a, rfl⟩ <;> cases fuel <;> rfl
    have hma := hm (narrow 8 n) (.alloc w.next (.char (narrow 8 n))) rfl
    refine ⟨hu n, h1, h2, hma, ?_, ?_⟩
    · rw [hma]
      constructor
      · intro h
        have : narrow 8 n = n := by
          have := Except.ok.inj h
          simpa using this
        exact h3.1 this
      · intro h
        rw [h3.2 h]
    · intro v p hv hp
      refine ⟨hm v p hp, ?_⟩
      rw [hu v, narrow_of_inRange_8 hv]
  · obtain ⟨h1, h2, h3⟩ := narrow_facts_16 n
    have hu : ∀ v : Int, _json_unmarshall_value fp reg fuel "short" (.long v) w
        = .ok (.alloc w.next (.short (narrow 16 v)), (malloc w).2) := by
      intro v
      cases fuel <;> rfl
    have hm : ∀ (v : Int) (p : Pointer), p.target = some (.short v) →
        _json_marshall_value fp reg fuel "short" p = .ok (some (.long v)) := by
      intro v p hp
      rcases (target_some hp).2 with rfl | ⟨a, rfl⟩ <;> cases fuel <;> rfl
    have hma := hm (narrow 16 n) (.alloc w.next (.short (narrow 16 n))) rfl
    refine ⟨hu n, h1, h2, hma, ?_, ?_⟩
    · rw [hma]
      constructor
      · intro h
        have : narrow 16 n = n := by
          have := Except.ok.inj h
          simpa using this
        exact h3.1 this
      · intro h
        rw [h3.2 h]
    · intro v p hv hp
      refine ⟨hm v p hp, ?_⟩
      rw [hu v, narrow_of_inRange_16 hv]
  · obtain ⟨h1, h2, h3⟩ := narrow_facts_32 n
    have hu : ∀ v : Int, _json_unmarshall_value fp reg fuel "int" (.long v) w
        = .ok (.alloc w.next (.int (narrow 32 v)), (malloc w).2) := by
      intro v
      cases fuel <;> rfl
    have hm : ∀ (v : Int) (p : Pointer), p.target = some (.int v) →
        _json_marshall_value fp reg fuel "int" p = .ok (some (.long v)) := by
      intro v p hp
      rcases (target_some hp).2 with rfl | ⟨a, rfl⟩ <;> cases fuel <;> rfl
    have hma := hm (narrow 32 n) (.alloc w.next (.int (narrow 32 n))) rfl
    refine ⟨hu n, h1, h2, hma, ?_, ?_⟩
    · rw [hma]
      constructor
      · intro h
        have : narrow 32 n = n := by
          have := Except.ok.inj h
          simpa using this
        exact h3.1 this
      · intro h
        rw [h3.2 h]
    · intro v p hv hp
      refine ⟨hm v p hp, ?_⟩
      rw [hu v, narrow_of_inRange_32 hv]

/-- Witness of C21: the JSON integer `2^32 + 5` unmarshalled as an `int` is stored as `5`, and
`300` unmarshalled as a `char` is stored as `44`. -/
theorem C21_integer_narrowing_witness :
    _json_unmarshall_value idFloat [] 0 "int" (.long 4294967301) World.init
      = .ok (.alloc 1 (.int 5), { next := 2, live := [1], errno := 0 }) ∧
    _json_marshall_value idFloat [] 0 "int" (.alloc 1 (.int 5)) = .ok (some (.long 5)) ∧
    _json_unmarshall_value idFloat [] 0 "char" (.long 300) World.init
      = .ok (.alloc 1 (.char 44), { next := 2, live := [1], errno := 0 }) :=
  ⟨(C21_integer_narrowing idFloat [] 0 4294967301 World.init ("int", 32, CVal.int)
      (by simp)).1,
    (C21_integer_narrowing idFloat [] 0 4294967301 World.init ("int", 32, CVal.int)
      (by simp)).2.2.2.1,
    (C21_integer_narrowing idFloat [] 0 300 World.init ("char", 8, CVal.char) (by simp)).1⟩

end Argo
